import Mathlib

/-!
# Bresenham stretch, decimation and thread ranges

A shallow embedding of `Bresenham.cpp`:

* `stretchBresenhamPoints` : the integer line walk that writes one `y` per unit step of `x`;
* `decimatePoints`         : resampling of a vector through the indices of the walk;
* `getRanges`              : range boundaries for `numthreads` workers over `n` elements.

A `std::vector` is a `List`.  Both loops of the walk are `while`-style loops; they are embedded
with a step budget (`fuel`), and a run that exhausts the budget, reads or writes outside a
vector, or fails an `assert` ends in a fault instead of a value.

Every function is embedded twice, from the same source text.

* `stretchBresenhamPointsOn ar`, `decimatePointsOn ar eq` and `getRangesOn ar` compute on
  machine integers: `ar` is applied to the result of every `int` operation, and is either
  `int32Wrapped`, the 32-bit wrap-around, or `int32Checked`, a 32-bit check that traps a signed
  overflow.  The `operator==` of the element type of `decimatePoints` is the parameter `eq`;
  `doubleEq` is the one of `double`, under which a NaN is unequal to itself.
* `stretchBresenhamPoints`, `decimatePoints` and `getRanges` compute on the unbounded `Int`, and
  compare elements with decidable equality.  They describe the program as long as no `int`
  leaves the 32-bit range and no element is a NaN; small concrete runs, and the statements that
  are about unbounded integers, use them.

The walk on unbounded integers is shown to compute `roundedLine`, the closed form
`y1 + sy * floor((2 * dy * i + dx) / (2 * dx))`.  For coordinates in `[-2^28, 2^28]` the walk on
machine integers computes the same (`stretchBresenhamPointsOn_eq`), and the statements about
`decimatePointsOn` and `getRangesOn` are read off from the closed form.  Beyond that range the
sums `dx + dx` and `dy + dy` wrap around; `wrappedStateAt` follows one such walk pass by pass.

`stretchBresenhamPointsLogged` and `stretchBresenhamPointsLoggedOn` keep, in addition, a record
of every pass of the `for` loop (how often the correction loop ran, and the `e` it left);
forgetting the records gives `stretchBresenhamPoints` and `stretchBresenhamPointsOn` back.
-/

namespace Bresenham

/-- Ways in which a run can end without a value. -/
inductive Fault where
  | outOfFuel
  | outOfBounds
  | assertFailed
  deriving DecidableEq

/-- Equality of run results is decidable, so that closed runs can be evaluated. -/
instance instDecidableEqExcept {ε α : Type} [DecidableEq ε] [DecidableEq α] :
    DecidableEq (Except ε α)
  | .ok a, .ok b =>
    if h : a = b then isTrue (congrArg Except.ok h) else isFalse (fun h' => h (Except.ok.inj h'))
  | .error a, .error b =>
    if h : a = b then isTrue (congrArg Except.error h)
    else isFalse (fun h' => h (Except.error.inj h'))
  | .ok _, .error _ => isFalse (fun h => Except.noConfusion h)
  | .error _, .ok _ => isFalse (fun h => Except.noConfusion h)

/-- The local variables of the `for` loop of `stretchBresenhamPoints` that change while it
runs: the vector, the write pointer `p` (as an offset from `&points[0]`), and `x`, `y`, `e`. -/
structure LoopState where
  points : List Int
  p : Nat
  x : Int
  y : Int
  e : Int
  deriving DecidableEq

/-- The call `v.clear()` of `std::vector`. -/
def clear (_v : List Int) : List Int := []

/-- The call `v.resize(n)` of `std::vector<int>`: cut to `n` elements, or filled up with zeros. -/
def resize (v : List Int) (n : Nat) : List Int :=
  v.take n ++ List.replicate (n - v.length) 0

/-- The inner loop `while (e >= 0) { y += s2; e -= dx2; }`, returning the final `(y, e)`. -/
def correctErrors (s2 dx2 : Int) : Nat → Int → Int → Except Fault (Int × Int)
  | 0, _, _ => .error .outOfFuel
  | fuel + 1, y, e =>
    if e ≥ 0 then correctErrors s2 dx2 fuel (y + s2) (e - dx2) else .ok (y, e)

/-- One pass through the body of the `for` loop:
`*p = y; p++; while (e >= 0) {...}; x += s1; e += dy2;`. -/
def loopBody (s1 s2 dx2 dy2 : Int) (fuel : Nat) (st : LoopState) : Except Fault LoopState :=
  if st.p < st.points.length then
    match correctErrors s2 dx2 fuel st.y st.e with
    | .error f => .error f
    | .ok (y, e) =>
      .ok { points := st.points.set st.p st.y, p := st.p + 1, x := st.x + s1, y := y,
            e := e + dy2 }
  else .error .outOfBounds

/-- The loop `for (int i = 0; i <= dx; i++) body`, started at counter value `i`; `steps` is
the budget of loop tests and `fuel` the budget handed to every inner loop. -/
def forLoop (s1 s2 dx dx2 dy2 : Int) (fuel : Nat) : Nat → Int → LoopState → Except Fault LoopState
  | 0, _, _ => .error .outOfFuel
  | steps + 1, i, st =>
    if i ≤ dx then
      match loopBody s1 s2 dx2 dy2 fuel st with
      | .error f => .error f
      | .ok st' => forLoop s1 s2 dx dx2 dy2 fuel steps (i + 1) st'
    else .ok st

/-- The function `stretchBresenhamPoints(x1, y1, x2, y2, points)`: the result is the returned
`int` together with the final content of `points`. -/
def stretchBresenhamPoints (fuel : Nat) (x1 y1 x2 y2 : Int) (points : List Int) :
    Except Fault (Int × List Int) :=
  let points := clear points
  let x := x1
  let y := y1
  let dx := x2 - x1
  let dy := y2 - y1
  let s1 : Int := if dx ≥ 0 then 1 else -1
  let s2 : Int := if dy ≥ 0 then 1 else -1
  let dx : Int := dx.natAbs
  let dy : Int := dy.natAbs
  let points := resize points (dx + 1).toNat
  if dx = 0 then
    if 0 < points.length then
      let points := points.set 0 y1
      .ok (points.length, points)
    else .error .outOfBounds
  else
    let dx2 := dx + dx
    let dy2 := dy + dy
    let e := dy2 - dx
    match forLoop s1 s2 dx dx2 dy2 fuel fuel 0 { points := points, p := 0, x := x, y := y, e := e } with
    | .error f => .error f
    | .ok st => .ok (st.points.length, st.points)

/-- The loop `for (i = 0; i < ranges.size(); i++) newpoints.push_back(points[ranges[i]]);`
of `decimatePoints`, appending to `newpoints`. -/
def gatherPoints {T : Type} (points : List T) : List Int → List T → Except Fault (List T)
  | [], newpoints => .ok newpoints
  | r :: ranges, newpoints =>
    if 0 ≤ r then
      match points.get? r.toNat with
      | some v => gatherPoints points ranges (newpoints ++ [v])
      | none => .error .outOfBounds
    else .error .outOfBounds

/-- The function template `decimatePoints(points, numpoints)`: the result is the final content
of `points`. -/
def decimatePoints {T : Type} [DecidableEq T] (fuel : Nat) (points : List T) (numpoints : Int) :
    Except Fault (List T) :=
  match stretchBresenhamPoints fuel 0 0 (numpoints - 1) ((points.length : Int) - 1) [] with
  | .error f => .error f
  | .ok (_, ranges) =>
    match gatherPoints points ranges [] with
    | .error f => .error f
    | .ok newpoints =>
      match points.head?, newpoints.head?, points.getLast?, newpoints.getLast? with
      | some a, some b, some c, some d =>
        if a = b then
          if c = d then .ok newpoints else .error .assertFailed
        else .error .assertFailed
      | _, _, _, _ => .error .outOfBounds

/-- The function `getRanges(n, numthreads, ranges)`: the result is the final content of
`ranges`. -/
def getRanges (fuel : Nat) (n numthreads : Int) (ranges : List Int) : Except Fault (List Int) :=
  let ranges := clear ranges
  match stretchBresenhamPoints fuel 0 0 numthreads n ranges with
  | .error f => .error f
  | .ok (_, ranges) => .ok ranges

/-- The index walk of the specification: the value at step `i` of the line from `(x1, y1)` to
`(x2, y2)` is `y1 + sy * floor((2 * dy * i + dx) / (2 * dx))`, with `dx = |x2 - x1|`,
`dy = |y2 - y1|` and `sy` the sign of `y2 - y1` (`+1` when it is zero). -/
def roundedLine (x1 y1 x2 y2 : Int) (i : Nat) : Int :=
  let dx : Int := (x2 - x1).natAbs
  let dy : Int := (y2 - y1).natAbs
  let sy : Int := if y2 ≥ y1 then 1 else -1
  y1 + sy * ((2 * dy * i + dx) / (2 * dx))

/-- The state of the `for` loop of `stretchBresenhamPoints` at the test before pass `i`, for
a walk of `dx` steps in `x` and `dy` in `y` that started at `(x1, y1)` with signs `s1`, `s2`:
the first `i` slots hold the rounded line, the other slots still hold the zeros of `resize`. -/
def stateAt (x1 y1 s1 s2 : Int) (dx dy : Nat) (i : Nat) : LoopState :=
  { points :=
      (List.range i).map
          (fun j : Nat => y1 + s2 * ((((dy : Int) + dy) * (j : Int) + dx) / ((dx : Int) + dx)))
        ++ List.replicate (dx + 1 - i) 0
    p := i
    x := x1 + s1 * i
    y := y1 + s2 * ((((dy : Int) + dy) * i + dx) / ((dx : Int) + dx))
    e := ((dy : Int) + dy) * (i + 1) - dx
          - ((dx : Int) + dx) * ((((dy : Int) + dy) * i + dx) / ((dx : Int) + dx)) }

/-- The vector `newpoints` that `decimatePoints` has built when it reaches its asserts, in closed
form: slot `i` holds the input element at the rounded line from `(0, 0)` to
`(numpoints - 1, size - 1)`; `d` stands in for a read outside the input, which never happens. -/
def resampled {T : Type} (S : List T) (numpoints : Int) (d : T) : List T :=
  (List.range ((numpoints - 1 - 0).natAbs + 1)).map
    (fun i => S.getD (roundedLine 0 0 (numpoints - 1) ((S.length : Int) - 1) i).toNat d)

/-- Worker `t` owns index `j`: the commented loop at the end of `main` gives worker `t` the
indices from `ranges[t]` to `ranges[t + 1] - 1`. -/
def ownsIndex (ranges : List Int) (t : Nat) (j : Int) : Prop :=
  match ranges[t]?, ranges[t + 1]? with
  | some lo, some hi => lo ≤ j ∧ j < hi
  | _, _ => False

/-- The exact value at step `i` of the straight line from `(x1, y1)` to `(x2, y2)`,
`y1 + i * (y2 - y1) / dx` with `dx = |x2 - x1|`, as a rational number. -/
def exactLine (x1 y1 x2 y2 : Int) (i : Nat) : ℚ :=
  (y1 : ℚ) + (i : ℚ) * ((y2 : ℚ) - (y1 : ℚ)) / ((|x2 - x1| : Int) : ℚ)

/-- A step budget that is enough for both loops of `stretchBresenhamPoints`. -/
def enoughFuel (x1 y1 x2 y2 : Int) : Nat :=
  (x2 - x1).natAbs + (y2 - y1).natAbs + 2

/-- What is recorded about one pass through the body of the `for` loop: how often the body of
`while (e >= 0)` ran in that pass, and the value of `e` when the `while` loop was left. -/
structure PassLog where
  firings : Nat
  e : Int
  deriving DecidableEq

/-- The inner loop `while (e >= 0) { y += s2; e -= dx2; }` as in `correctErrors`, which also
counts the passes through its body. -/
def correctErrorsCounted (s2 dx2 : Int) : Nat → Int → Int → Except Fault (Int × Int × Nat)
  | 0, _, _ => .error .outOfFuel
  | fuel + 1, y, e =>
    if e ≥ 0 then
      match correctErrorsCounted s2 dx2 fuel (y + s2) (e - dx2) with
      | .error f => .error f
      | .ok (y', e', k) => .ok (y', e', k + 1)
    else .ok (y, e, 0)

/-- One pass through the body of the `for` loop as in `loopBody`, together with its record. -/
def loopBodyLogged (s1 s2 dx2 dy2 : Int) (fuel : Nat) (st : LoopState) :
    Except Fault (LoopState × PassLog) :=
  if st.p < st.points.length then
    match correctErrorsCounted s2 dx2 fuel st.y st.e with
    | .error f => .error f
    | .ok (y, e, k) =>
      .ok ({ points := st.points.set st.p st.y, p := st.p + 1, x := st.x + s1, y := y,
             e := e + dy2 },
           { firings := k, e := e })
  else .error .outOfBounds

/-- The loop `for (int i = 0; i <= dx; i++) body` as in `forLoop`, together with the records of
its passes, one record per pass, in order. -/
def forLoopLogged (s1 s2 dx dx2 dy2 : Int) (fuel : Nat) :
    Nat → Int → LoopState → Except Fault (LoopState × List PassLog)
  | 0, _, _ => .error .outOfFuel
  | steps + 1, i, st =>
    if i ≤ dx then
      match loopBodyLogged s1 s2 dx2 dy2 fuel st with
      | .error f => .error f
      | .ok (st', r) =>
        match forLoopLogged s1 s2 dx dx2 dy2 fuel steps (i + 1) st' with
        | .error f => .error f
        | .ok (st'', rs) => .ok (st'', r :: rs)
    else .ok (st, [])

/-- The function `stretchBresenhamPoints` as above, together with the records of the passes of
its `for` loop. -/
def stretchBresenhamPointsLogged (fuel : Nat) (x1 y1 x2 y2 : Int) (points : List Int) :
    Except Fault ((Int × List Int) × List PassLog) :=
  let points := clear points
  let x := x1
  let y := y1
  let dx := x2 - x1
  let dy := y2 - y1
  let s1 : Int := if dx ≥ 0 then 1 else -1
  let s2 : Int := if dy ≥ 0 then 1 else -1
  let dx : Int := dx.natAbs
  let dy : Int := dy.natAbs
  let points := resize points (dx + 1).toNat
  if dx = 0 then
    if 0 < points.length then
      let points := points.set 0 y1
      .ok ((points.length, points), [])
    else .error .outOfBounds
  else
    let dx2 := dx + dx
    let dy2 := dy + dy
    let e := dy2 - dx
    match forLoopLogged s1 s2 dx dx2 dy2 fuel fuel 0
        { points := points, p := 0, x := x, y := y, e := e } with
    | .error f => .error f
    | .ok (st, log) => .ok ((st.points.length, st.points), log)

/-- Ways in which a run on machine integers can end without a value: a signed overflow that is
trapped, or one of the faults of the run on unbounded integers. -/
inductive Trap where
  | overflow
  | fault (f : Fault)
  deriving DecidableEq

/-- The 32-bit `int` with trapped overflow: a result outside `[-2^31, 2^31 - 1]` ends the run. -/
def int32Checked (a : Int) : Except Trap Int :=
  if -2147483648 ≤ a ∧ a ≤ 2147483647 then .ok a else .error .overflow

/-- The 32-bit `int` with wrap-around: every result is reduced modulo `2^32` into
`[-2^31, 2^31 - 1]`. -/
def int32Wrapped (a : Int) : Except Trap Int :=
  .ok ((a + 2147483648) % 4294967296 - 2147483648)

/-- The conversion of an `int` to the `size_t` argument of `resize` (64 bits). -/
def toSize (n : Int) : Nat := (n % 18446744073709551616).toNat

/-- The inner loop `while (e >= 0) { y += s2; e -= dx2; }` on machine integers: `ar` is applied
to the result of every `int` operation. -/
def correctErrorsOn (ar : Int → Except Trap Int) (s2 dx2 : Int) :
    Nat → Int → Int → Except Trap (Int × Int)
  | 0, _, _ => .error (.fault .outOfFuel)
  | fuel + 1, y, e =>
    if e ≥ 0 then do
      let y ← ar (y + s2)
      let e ← ar (e - dx2)
      correctErrorsOn ar s2 dx2 fuel y e
    else .ok (y, e)

/-- One pass through the body of the `for` loop on machine integers:
`*p = y; p++; while (e >= 0) {...}; x += s1; e += dy2;`. -/
def loopBodyOn (ar : Int → Except Trap Int) (s1 s2 dx2 dy2 : Int) (fuel : Nat)
    (st : LoopState) : Except Trap LoopState :=
  if st.p < st.points.length then do
    let r ← correctErrorsOn ar s2 dx2 fuel st.y st.e
    let x ← ar (st.x + s1)
    let e ← ar (r.2 + dy2)
    pure { points := st.points.set st.p st.y, p := st.p + 1, x := x, y := r.1, e := e }
  else .error (.fault .outOfBounds)

/-- The loop `for (int i = 0; i <= dx; i++) body` on machine integers. -/
def forLoopOn (ar : Int → Except Trap Int) (s1 s2 dx dx2 dy2 : Int) (fuel : Nat) :
    Nat → Int → LoopState → Except Trap LoopState
  | 0, _, _ => .error (.fault .outOfFuel)
  | steps + 1, i, st =>
    if i ≤ dx then do
      let st ← loopBodyOn ar s1 s2 dx2 dy2 fuel st
      let i ← ar (i + 1)
      forLoopOn ar s1 s2 dx dx2 dy2 fuel steps i st
    else .ok st

/-- The function `stretchBresenhamPoints` on machine integers: `ar` is applied to the result of
every `int` operation (`-`, `std::abs`, `+`, the conversion of `points.size()` to `int`). -/
def stretchBresenhamPointsOn (ar : Int → Except Trap Int) (fuel : Nat) (x1 y1 x2 y2 : Int)
    (points : List Int) : Except Trap (Int × List Int) := do
  let points := clear points
  let x := x1
  let y := y1
  let dx ← ar (x2 - x1)
  let dy ← ar (y2 - y1)
  let s1 : Int := if dx ≥ 0 then 1 else -1
  let s2 : Int := if dy ≥ 0 then 1 else -1
  let dx ← ar dx.natAbs
  let dy ← ar dy.natAbs
  let size ← ar (dx + 1)
  let points := resize points (toSize size)
  if dx = 0 then
    if 0 < points.length then do
      let points := points.set 0 y1
      let n ← ar points.length
      pure (n, points)
    else .error (.fault .outOfBounds)
  else do
    let dx2 ← ar (dx + dx)
    let dy2 ← ar (dy + dy)
    let e ← ar (dy2 - dx)
    let st ← forLoopOn ar s1 s2 dx dx2 dy2 fuel fuel 0
      { points := points, p := 0, x := x, y := y, e := e }
    let n ← ar st.points.length
    pure (n, st.points)

/-- The function `getRanges(n, numthreads, ranges)` on machine integers. -/
def getRangesOn (ar : Int → Except Trap Int) (fuel : Nat) (n numthreads : Int)
    (ranges : List Int) : Except Trap (List Int) := do
  let ranges := clear ranges
  let r ← stretchBresenhamPointsOn ar fuel 0 0 numthreads n ranges
  pure r.2

/-- The loop
`for (int i = 0; i < int(ranges.size()); i++) newpoints.push_back(points[ranges[i]]);`
of `decimatePoints` on machine integers: `i` is the counter, `n` is `int(ranges.size())`, and the
list argument holds the elements of `ranges` from position `i` on.  The `int` index `ranges[i]`
is converted to `size_t`, so a negative index is a read outside the vector. -/
def gatherPointsOn (ar : Int → Except Trap Int) {T : Type} (points : List T) :
    List Int → Int → Int → List T → Except Trap (List T)
  | [], i, n, newpoints =>
    if i < n then .error (.fault .outOfBounds) else .ok newpoints
  | r :: ranges, i, n, newpoints =>
    if i < n then
      if 0 ≤ r then
        match points.get? r.toNat with
        | some v => do
          let i ← ar (i + 1)
          gatherPointsOn ar points ranges i n (newpoints ++ [v])
        | none => .error (.fault .outOfBounds)
      else .error (.fault .outOfBounds)
    else .ok newpoints

/-- The function template `decimatePoints(points, numpoints)` on machine integers, for an element
type whose `operator==` is `eq`: `ar` is applied to `numpoints - 1`, to `int(points.size())`, to
`int(points.size()) - 1`, to `int(ranges.size())` and to every `int` operation of the walk and of
the copying loop, and the two asserts compare with `eq`. -/
def decimatePointsOn (ar : Int → Except Trap Int) {T : Type} (eq : T → T → Bool) (fuel : Nat)
    (points : List T) (numpoints : Int) : Except Trap (List T) := do
  let x2 ← ar (numpoints - 1)
  let size ← ar points.length
  let y2 ← ar (size - 1)
  let r ← stretchBresenhamPointsOn ar fuel 0 0 x2 y2 []
  let ranges := r.2
  let n ← ar ranges.length
  let newpoints ← gatherPointsOn ar points ranges 0 n []
  match points.head?, newpoints.head?, points.getLast?, newpoints.getLast? with
  | some a, some b, some c, some d =>
    if eq a b then
      if eq c d then .ok newpoints else .error (.fault .assertFailed)
    else .error (.fault .assertFailed)
  | _, _, _, _ => .error (.fault .outOfBounds)

/-- A `double` as far as `operator==` sees it: a number, or a NaN. -/
inductive Double where
  | nan
  | num (v : Int)
  deriving DecidableEq

/-- The `operator==` of `double`: a NaN compares unequal to every value, itself included. -/
def doubleEq : Double → Double → Bool
  | .num a, .num b => decide (a = b)
  | _, _ => false

/-- The inner loop `while (e >= 0) { y += s2; e -= dx2; }` on machine integers as in
`correctErrorsOn`, which also counts the passes through its body. -/
def correctErrorsCountedOn (ar : Int → Except Trap Int) (s2 dx2 : Int) :
    Nat → Int → Int → Except Trap (Int × Int × Nat)
  | 0, _, _ => .error (.fault .outOfFuel)
  | fuel + 1, y, e =>
    if e ≥ 0 then do
      let y ← ar (y + s2)
      let e ← ar (e - dx2)
      let r ← correctErrorsCountedOn ar s2 dx2 fuel y e
      pure (r.1, r.2.1, r.2.2 + 1)
    else .ok (y, e, 0)

/-- One pass through the body of the `for` loop on machine integers as in `loopBodyOn`, together
with its record. -/
def loopBodyLoggedOn (ar : Int → Except Trap Int) (s1 s2 dx2 dy2 : Int) (fuel : Nat)
    (st : LoopState) : Except Trap (LoopState × PassLog) :=
  if st.p < st.points.length then do
    let r ← correctErrorsCountedOn ar s2 dx2 fuel st.y st.e
    let x ← ar (st.x + s1)
    let e ← ar (r.2.1 + dy2)
    pure ({ points := st.points.set st.p st.y, p := st.p + 1, x := x, y := r.1, e := e },
          { firings := r.2.2, e := r.2.1 })
  else .error (.fault .outOfBounds)

/-- The loop `for (int i = 0; i <= dx; i++) body` on machine integers as in `forLoopOn`,
together with the records of its passes, one record per pass, in order. -/
def forLoopLoggedOn (ar : Int → Except Trap Int) (s1 s2 dx dx2 dy2 : Int) (fuel : Nat) :
    Nat → Int → LoopState → Except Trap (LoopState × List PassLog)
  | 0, _, _ => .error (.fault .outOfFuel)
  | steps + 1, i, st =>
    if i ≤ dx then do
      let r ← loopBodyLoggedOn ar s1 s2 dx2 dy2 fuel st
      let i ← ar (i + 1)
      let rest ← forLoopLoggedOn ar s1 s2 dx dx2 dy2 fuel steps i r.1
      pure (rest.1, r.2 :: rest.2)
    else .ok (st, [])

/-- The function `stretchBresenhamPoints` on machine integers as in `stretchBresenhamPointsOn`,
together with the records of the passes of its `for` loop. -/
def stretchBresenhamPointsLoggedOn (ar : Int → Except Trap Int) (fuel : Nat)
    (x1 y1 x2 y2 : Int) (points : List Int) :
    Except Trap ((Int × List Int) × List PassLog) := do
  let points := clear points
  let x := x1
  let y := y1
  let dx ← ar (x2 - x1)
  let dy ← ar (y2 - y1)
  let s1 : Int := if dx ≥ 0 then 1 else -1
  let s2 : Int := if dy ≥ 0 then 1 else -1
  let dx ← ar dx.natAbs
  let dy ← ar dy.natAbs
  let size ← ar (dx + 1)
  let points := resize points (toSize size)
  if dx = 0 then
    if 0 < points.length then do
      let points := points.set 0 y1
      let n ← ar points.length
      pure ((n, points), [])
    else .error (.fault .outOfBounds)
  else do
    let dx2 ← ar (dx + dx)
    let dy2 ← ar (dy + dy)
    let e ← ar (dy2 - dx)
    let r ← forLoopLoggedOn ar s1 s2 dx dx2 dy2 fuel fuel 0
      { points := points, p := 0, x := x, y := y, e := e }
    let n ← ar r.1.points.length
    pure ((n, r.1.points), r.2)

/-- The value of `y` at the test before pass `i` of the walk from `(0, 0)` to `(x2, 2)` with
`|x2| = 2^30 + 1` on 32-bit integers with wrap-around, where `dx2 = dx + dx` has wrapped to
`-2147483646`: `y` is still `0` up to pass `2^28`, it is `1` up to pass `3 * 2^28`, and from
then on every pass adds `2`. -/
def wrappedIndex (i : Nat) : Int :=
  if i ≤ 268435456 then 0 else if i ≤ 805306368 then 1 else 2 * (i : Int) - 1610612735

/-- The value of `e` at the test before pass `i` of the same walk. -/
def wrappedError (i : Nat) : Int :=
  if i ≤ 268435456 then 4 * (i : Int) - 1073741821
  else if i ≤ 805306368 then 4 * (i : Int) - 3221225471 else 1

/-- The state of the `for` loop at the test before pass `i` of the same walk, `s1` being the
sign of `x2`. -/
def wrappedStateAt (s1 : Int) (i : Nat) : LoopState :=
  { points := (List.range i).map wrappedIndex ++ List.replicate (1073741826 - i) 0
    p := i
    x := s1 * i
    y := wrappedIndex i
    e := wrappedError i }

/-! ## The inner loop -/

theorem correctErrors_count (s2 dx2 : Int) (hdx2 : 0 < dx2) :
    ∀ (k fuel : Nat) (y e : Int), k < fuel → e - dx2 * k < 0 →
      (k = 0 ∨ 0 ≤ e - dx2 * k + dx2) →
      correctErrors s2 dx2 fuel y e = .ok (y + s2 * k, e - dx2 * k) := by
  intro k
  induction k with
  | zero =>
    intro fuel y e hf hneg _
    obtain ⟨f, rfl⟩ : ∃ f, fuel = f + 1 := ⟨fuel - 1, by omega⟩
    have he : ¬ e ≥ 0 := by simpa using hneg
    simp [correctErrors, he]
  | succ k ih =>
    intro fuel y e hf hneg hpos
    obtain ⟨f, rfl⟩ : ∃ f, fuel = f + 1 := ⟨fuel - 1, by omega⟩
    have hk : (0 : Int) ≤ dx2 * k := mul_nonneg hdx2.le (Int.ofNat_nonneg k)
    have hpos' : 0 ≤ e - dx2 * (k + 1 : Nat) + dx2 := by
      rcases hpos with h | h
      · omega
      · exact h
    push_cast at hpos' hneg
    have he : e ≥ 0 := by nlinarith
    have h := ih f (y + s2) (e - dx2) (by omega) (by nlinarith)
      (by
        by_cases hk0 : k = 0
        · exact Or.inl hk0
        · right
          have : (1 : Int) ≤ k := by omega
          nlinarith)
    simp only [correctErrors, he, if_true]
    rw [h]
    push_cast
    congr 2 <;> ring

theorem correctErrors_div (s2 dx2 : Int) (hdx2 : 0 < dx2) (fuel : Nat) (y e : Int)
    (he : -dx2 ≤ e) (hf : (e + dx2) / dx2 < fuel) :
    correctErrors s2 dx2 fuel y e
      = .ok (y + s2 * ((e + dx2) / dx2), e - dx2 * ((e + dx2) / dx2)) := by
  have hq0 : 0 ≤ (e + dx2) / dx2 := Int.ediv_nonneg (by linarith) hdx2.le
  have hdm := Int.ediv_add_emod (e + dx2) dx2
  have hm0 := Int.emod_nonneg (e + dx2) hdx2.ne.symm
  have hm1 := Int.emod_lt_of_pos (e + dx2) hdx2
  have hcast : (((e + dx2) / dx2).toNat : Int) = (e + dx2) / dx2 := Int.toNat_of_nonneg hq0
  have h := correctErrors_count s2 dx2 hdx2 ((e + dx2) / dx2).toNat fuel y e
    (by omega) (by rw [hcast]; linarith) (by right; rw [hcast]; linarith)
  rw [hcast] at h
  exact h

/-! ## The outer loop -/

theorem set_prefix_replicate (f : Nat → Int) (i m : Nat) (v : Int) (h : i < m) :
    ((List.range i).map f ++ List.replicate (m - i) 0).set i v
      = (List.range i).map f ++ v :: List.replicate (m - (i + 1)) 0 := by
  have hlen : ((List.range i).map f).length = i := by simp
  have hrep : List.replicate (m - i) (0 : Int) = 0 :: List.replicate (m - (i + 1)) 0 := by
    have : m - i = (m - (i + 1)) + 1 := by omega
    rw [this, List.replicate_succ]
  rw [hrep]
  conv_lhs => rw [← hlen]
  simp

theorem loopBody_stateAt (x1 y1 s1 s2 : Int) (dx dy fuel i : Nat) (hdx : 0 < dx)
    (hi : i ≤ dx) (hf : dy < fuel) :
    loopBody s1 s2 ((dx : Int) + dx) ((dy : Int) + dy) fuel (stateAt x1 y1 s1 s2 dx dy i)
      = .ok (stateAt x1 y1 s1 s2 dx dy (i + 1)) := by
  have hdx2 : (0 : Int) < (dx : Int) + dx := by omega
  -- the quotients before and after the step
  obtain ⟨K, hK⟩ : ∃ K : Int, K = (((dy : Int) + dy) * i + dx) / ((dx : Int) + dx) := ⟨_, rfl⟩
  obtain ⟨K', hK'⟩ : ∃ K' : Int,
      K' = (((dy : Int) + dy) * ((i : Int) + 1) + dx) / ((dx : Int) + dx) := ⟨_, rfl⟩
  have hdm := Int.ediv_add_emod (((dy : Int) + dy) * i + dx) ((dx : Int) + dx)
  have hm0 := Int.emod_nonneg (((dy : Int) + dy) * i + dx) hdx2.ne.symm
  have hm1 := Int.emod_lt_of_pos (((dy : Int) + dy) * i + dx) hdx2
  have hdm' := Int.ediv_add_emod (((dy : Int) + dy) * ((i : Int) + 1) + dx) ((dx : Int) + dx)
  have hm0' := Int.emod_nonneg (((dy : Int) + dy) * ((i : Int) + 1) + dx) hdx2.ne.symm
  have hm1' := Int.emod_lt_of_pos (((dy : Int) + dy) * ((i : Int) + 1) + dx) hdx2
  rw [← hK] at hdm
  rw [← hK'] at hdm'
  have hq : (((dy : Int) + dy) * (i + 1) - dx - ((dx : Int) + dx) * K + ((dx : Int) + dx))
      / ((dx : Int) + dx) = K' - K := by
    have : ((dy : Int) + dy) * (i + 1) - dx - ((dx : Int) + dx) * K + ((dx : Int) + dx)
        = (((dy : Int) + dy) * ((i : Int) + 1) + dx) + ((dx : Int) + dx) * (-K) := by
      ring
    rw [this, Int.add_mul_ediv_left _ _ hdx2.ne.symm, ← hK']
    ring
  have h4 : (0 : Int) ≤ dy := Int.ofNat_nonneg dy
  have he : -((dx : Int) + dx)
      ≤ ((dy : Int) + dy) * (i + 1) - dx - ((dx : Int) + dx) * K := by
    linarith
  have hlt : K' - K < fuel := by
    by_contra hcon
    have h1 : (dy : Int) + 1 ≤ K' - K := by omega
    have h2 : ((dx : Int) + dx) * ((dy : Int) + 1) ≤ ((dx : Int) + dx) * (K' - K) :=
      mul_le_mul_of_nonneg_left h1 hdx2.le
    have h3 : (1 : Int) ≤ dx := by omega
    have h5 : (0 : Int) ≤ ((dx : Int) - 1) * dy := mul_nonneg (sub_nonneg.2 h3) h4
    linarith
  have hce := correctErrors_div s2 ((dx : Int) + dx) hdx2 fuel
    (y1 + s2 * K) (((dy : Int) + dy) * (i + 1) - dx - ((dx : Int) + dx) * K) he
    (by rw [hq]; exact hlt)
  rw [hq] at hce
  have hp : i < ((List.range i).map
      (fun j : Nat => y1 + s2 * ((((dy : Int) + dy) * (j : Int) + dx) / ((dx : Int) + dx)))
        ++ List.replicate (dx + 1 - i) (0 : Int)).length := by
    simp; omega
  unfold loopBody
  simp only [stateAt, Nat.cast_add, Nat.cast_one]
  rw [if_pos hp, ← hK, ← hK', hce]
  simp only [Except.ok.injEq, LoopState.mk.injEq]
  refine ⟨?_, trivial, by ring, by ring, by ring⟩
  rw [set_prefix_replicate _ i (dx + 1) _ (by omega), List.range_succ, List.map_append,
    List.append_assoc, hK]
  rfl

theorem forLoop_stateAt (x1 y1 s1 s2 : Int) (dx dy fuel : Nat) (hdx : 0 < dx)
    (hf : dy < fuel) :
    ∀ (m i steps : Nat), i + m = dx + 1 → m < steps →
      forLoop s1 s2 dx ((dx : Int) + dx) ((dy : Int) + dy) fuel steps i
          (stateAt x1 y1 s1 s2 dx dy i)
        = .ok (stateAt x1 y1 s1 s2 dx dy (dx + 1)) := by
  intro m
  induction m with
  | zero =>
    intro i steps him hs
    obtain ⟨t, rfl⟩ : ∃ t, steps = t + 1 := ⟨steps - 1, by omega⟩
    have hi : i = dx + 1 := by omega
    subst hi
    have : ¬ (((dx + 1 : Nat) : Int) ≤ (dx : Int)) := by push_cast; omega
    simp only [forLoop, this, if_false]
  | succ m ih =>
    intro i steps him hs
    obtain ⟨t, rfl⟩ : ∃ t, steps = t + 1 := ⟨steps - 1, by omega⟩
    have hi : (i : Int) ≤ (dx : Int) := by omega
    simp only [forLoop, hi, if_true]
    rw [loopBody_stateAt x1 y1 s1 s2 dx dy fuel i hdx (by omega) hf]
    simp only
    have := ih (i + 1) t (by omega) (by omega)
    push_cast at this
    exact this

/-! ## The whole walk -/

theorem stateAt_zero (x1 y1 s1 s2 : Int) (dx dy : Nat) (hdx : 0 < dx) :
    stateAt x1 y1 s1 s2 dx dy 0
      = { points := List.replicate (dx + 1) 0, p := 0, x := x1, y := y1,
          e := ((dy : Int) + dy) - dx } := by
  have h0 : ((dx : Int)) / ((dx : Int) + dx) = 0 :=
    Int.ediv_eq_zero_of_lt (Int.ofNat_nonneg dx) (by omega)
  simp [stateAt, h0]

theorem roundedLine_eq (x1 y1 x2 y2 : Int) (i : Nat) :
    roundedLine x1 y1 x2 y2 i
      = y1 + (if y2 - y1 ≥ 0 then 1 else -1)
          * (((((y2 - y1).natAbs : Int) + (y2 - y1).natAbs) * (i : Int) + (x2 - x1).natAbs)
              / (((x2 - x1).natAbs : Int) + (x2 - x1).natAbs)) := by
  have hs : (if y2 ≥ y1 then (1 : Int) else -1) = (if y2 - y1 ≥ 0 then 1 else -1) := by
    by_cases h : y2 ≥ y1
    · rw [if_pos h, if_pos (by omega)]
    · rw [if_neg h, if_neg (by omega)]
  simp only [roundedLine, hs, two_mul]

/-- With enough fuel the walk ends normally, returns `|x2 - x1| + 1`, and leaves in `points`
the rounded line, whatever `points` held before. -/
theorem stretchBresenhamPoints_eq (fuel : Nat) (x1 y1 x2 y2 : Int) (points : List Int)
    (hf : enoughFuel x1 y1 x2 y2 ≤ fuel) :
    stretchBresenhamPoints fuel x1 y1 x2 y2 points
      = .ok (((x2 - x1).natAbs : Int) + 1,
          (List.range ((x2 - x1).natAbs + 1)).map (roundedLine x1 y1 x2 y2)) := by
  have hfun : roundedLine x1 y1 x2 y2 = fun i : Nat =>
      y1 + (if y2 - y1 ≥ 0 then 1 else -1)
          * (((((y2 - y1).natAbs : Int) + (y2 - y1).natAbs) * (i : Int) + (x2 - x1).natAbs)
              / (((x2 - x1).natAbs : Int) + (x2 - x1).natAbs)) :=
    funext (roundedLine_eq x1 y1 x2 y2)
  unfold enoughFuel at hf
  by_cases hdx : (x2 - x1).natAbs = 0
  · have h0 : roundedLine x1 y1 x2 y2 0 = y1 := by
      rw [roundedLine_eq, hdx]; simp
    have hrange : List.range 1 = [0] := rfl
    simp only [stretchBresenhamPoints, clear, resize, hdx, List.take_nil, List.length_nil,
      List.nil_append, Nat.cast_zero, zero_add, Int.toNat_one, Nat.sub_zero, List.replicate_one,
      if_true,
      List.length_singleton, Nat.lt_one_iff, List.set_cons_zero, Nat.cast_one, hrange,
      List.map_cons, List.map_nil, h0, List.length_cons, pos_of_gt, Nat.lt_add_one]
  · have hdx' : ¬ (((x2 - x1).natAbs : Int) = 0) := by omega
    have hloop := forLoop_stateAt x1 y1 (if x2 - x1 ≥ 0 then 1 else -1)
      (if y2 - y1 ≥ 0 then 1 else -1) (x2 - x1).natAbs (y2 - y1).natAbs fuel (by omega)
      (by omega) ((x2 - x1).natAbs + 1) 0 fuel (by omega) (by omega)
    rw [stateAt_zero _ _ _ _ _ _ (by omega)] at hloop
    simp only [stretchBresenhamPoints, clear, resize, List.take_nil, List.length_nil,
      List.nil_append, Nat.sub_zero, if_neg hdx', Int.toNat_ofNat_add_one]
    simp only [Nat.cast_zero] at hloop
    rw [hloop, hfun]
    simp [stateAt]

/-! ## A run that ends normally does not depend on the budget -/

theorem correctErrors_mono (s2 dx2 : Int) :
    ∀ (fuel fuel' : Nat) (y e : Int) (r : Int × Int), fuel ≤ fuel' →
      correctErrors s2 dx2 fuel y e = .ok r → correctErrors s2 dx2 fuel' y e = .ok r := by
  intro fuel
  induction fuel with
  | zero => intro fuel' y e r _ h; simp [correctErrors] at h
  | succ f ih =>
    intro fuel' y e r hle h
    obtain ⟨g, rfl⟩ : ∃ g, fuel' = g + 1 := ⟨fuel' - 1, by omega⟩
    by_cases he : e ≥ 0
    · simp only [correctErrors, he, if_true] at h ⊢
      exact ih g _ _ r (by omega) h
    · simp only [correctErrors, he, if_false] at h ⊢
      exact h

theorem loopBody_mono (s1 s2 dx2 dy2 : Int) (fuel fuel' : Nat) (st st' : LoopState)
    (hle : fuel ≤ fuel') (h : loopBody s1 s2 dx2 dy2 fuel st = .ok st') :
    loopBody s1 s2 dx2 dy2 fuel' st = .ok st' := by
  unfold loopBody at h ⊢
  by_cases hp : st.p < st.points.length
  · rw [if_pos hp] at h ⊢
    cases hc : correctErrors s2 dx2 fuel st.y st.e with
    | error f => rw [hc] at h; simp at h
    | ok r =>
      rw [hc] at h
      rw [correctErrors_mono s2 dx2 fuel fuel' st.y st.e r hle hc]
      exact h
  · rw [if_neg hp] at h; simp at h

theorem forLoop_mono (s1 s2 dx dx2 dy2 : Int) (fuel fuel' : Nat) (hle : fuel ≤ fuel') :
    ∀ (steps steps' : Nat) (i : Int) (st r : LoopState), steps ≤ steps' →
      forLoop s1 s2 dx dx2 dy2 fuel steps i st = .ok r →
      forLoop s1 s2 dx dx2 dy2 fuel' steps' i st = .ok r := by
  intro steps
  induction steps with
  | zero => intro steps' i st r _ h; simp [forLoop] at h
  | succ t ih =>
    intro steps' i st r hs h
    obtain ⟨u, rfl⟩ : ∃ u, steps' = u + 1 := ⟨steps' - 1, by omega⟩
    by_cases hi : i ≤ dx
    · simp only [forLoop, hi, if_true] at h ⊢
      cases hb : loopBody s1 s2 dx2 dy2 fuel st with
      | error f => rw [hb] at h; simp at h
      | ok st' =>
        rw [hb] at h
        rw [loopBody_mono s1 s2 dx2 dy2 fuel fuel' st st' hle hb]
        exact ih u (i + 1) st' r (by omega) h
    · simp only [forLoop, hi, if_false] at h ⊢
      exact h

theorem stretchBresenhamPoints_mono (fuel fuel' : Nat) (x1 y1 x2 y2 : Int) (points : List Int)
    (r : Int × List Int) (hle : fuel ≤ fuel')
    (h : stretchBresenhamPoints fuel x1 y1 x2 y2 points = .ok r) :
    stretchBresenhamPoints fuel' x1 y1 x2 y2 points = .ok r := by
  unfold stretchBresenhamPoints at h ⊢
  simp only at h ⊢
  split at h
  · rename_i h0
    rw [if_pos h0]
    exact h
  · rename_i h0
    rw [if_neg h0]
    split at h
    · simp at h
    · rename_i st hst
      rw [forLoop_mono _ _ _ _ _ fuel fuel' hle fuel fuel' _ _ st hle hst]
      exact h

/-- Whatever the budget, a walk that ends normally returns `|x2 - x1| + 1` and the rounded
line. -/
theorem stretchBresenhamPoints_ok (fuel : Nat) (x1 y1 x2 y2 : Int) (points : List Int)
    (r : Int × List Int) (h : stretchBresenhamPoints fuel x1 y1 x2 y2 points = .ok r) :
    r = (((x2 - x1).natAbs : Int) + 1,
          (List.range ((x2 - x1).natAbs + 1)).map (roundedLine x1 y1 x2 y2)) := by
  have h' := stretchBresenhamPoints_mono fuel (max fuel (enoughFuel x1 y1 x2 y2)) x1 y1 x2 y2
    points r (le_max_left _ _) h
  rw [stretchBresenhamPoints_eq _ x1 y1 x2 y2 points (le_max_right _ _)] at h'
  exact (Except.ok.inj h').symm

/-! ## Arithmetic of the rounded line -/

/-- The quotient inside `roundedLine`, pinned down by two inequalities. -/
theorem roundedLine_quot (x1 y1 x2 y2 : Int) (i : Nat) (hx : x1 ≠ x2) :
    ∃ q : Int, roundedLine x1 y1 x2 y2 i = y1 + (if y2 ≥ y1 then 1 else -1) * q
      ∧ 2 * ((x2 - x1).natAbs : Int) * q ≤ 2 * ((y2 - y1).natAbs : Int) * i + (x2 - x1).natAbs
      ∧ 2 * ((y2 - y1).natAbs : Int) * i + (x2 - x1).natAbs
          < 2 * ((x2 - x1).natAbs : Int) * q + 2 * ((x2 - x1).natAbs : Int) := by
  have hdx : (0 : Int) < 2 * ((x2 - x1).natAbs : Int) := by omega
  refine ⟨(2 * ((y2 - y1).natAbs : Int) * i + (x2 - x1).natAbs)
      / (2 * ((x2 - x1).natAbs : Int)), rfl, ?_, ?_⟩
  · have := Int.ediv_add_emod (2 * ((y2 - y1).natAbs : Int) * i + (x2 - x1).natAbs)
      (2 * ((x2 - x1).natAbs : Int))
    have := Int.emod_nonneg (2 * ((y2 - y1).natAbs : Int) * i + (x2 - x1).natAbs) hdx.ne.symm
    linarith
  · have := Int.ediv_add_emod (2 * ((y2 - y1).natAbs : Int) * i + (x2 - x1).natAbs)
      (2 * ((x2 - x1).natAbs : Int))
    have := Int.emod_lt_of_pos (2 * ((y2 - y1).natAbs : Int) * i + (x2 - x1).natAbs) hdx
    linarith

/-- Two integers in the same half-open window of width `d` over multiples of `d` agree. -/
theorem quot_unique (d a q q' : Int) (hd : 0 < d) (h1 : d * q ≤ a) (h2 : a < d * q + d)
    (h1' : d * q' ≤ a) (h2' : a < d * q' + d) : q = q' := by
  have ha : d * (q - q') < d * 1 := by linarith
  have hb : d * (q' - q) < d * 1 := by linarith
  have ha' := lt_of_mul_lt_mul_left ha hd.le
  have hb' := lt_of_mul_lt_mul_left hb hd.le
  omega

theorem roundedLine_zero (x1 y1 x2 y2 : Int) : roundedLine x1 y1 x2 y2 0 = y1 := by
  have h0 : (((x2 - x1).natAbs : Int)) / (2 * ((x2 - x1).natAbs : Int)) = 0 := by
    by_cases h : (x2 - x1).natAbs = 0
    · rw [h]; simp
    · exact Int.ediv_eq_zero_of_lt (Int.ofNat_nonneg _) (by omega)
  simp only [roundedLine, Nat.cast_zero, mul_zero, zero_add, h0, add_zero]

theorem roundedLine_last (x1 y1 x2 y2 : Int) (hx : x1 ≠ x2) :
    roundedLine x1 y1 x2 y2 (x2 - x1).natAbs = y2 := by
  obtain ⟨q, hq, h1, h2⟩ := roundedLine_quot x1 y1 x2 y2 (x2 - x1).natAbs hx
  have hdx : (0 : Int) < 2 * ((x2 - x1).natAbs : Int) := by omega
  have hqe : q = ((y2 - y1).natAbs : Int) :=
    quot_unique (2 * ((x2 - x1).natAbs : Int))
      (2 * ((y2 - y1).natAbs : Int) * ((x2 - x1).natAbs : Nat) + (x2 - x1).natAbs) _ _ hdx
      h1 h2 (by nlinarith) (by nlinarith)
  rw [hq, hqe]
  by_cases h : y2 ≥ y1
  · rw [if_pos h]; omega
  · rw [if_neg h]; omega

theorem length_map_range {α : Type} (f : Nat → α) (n : Nat) :
    ((List.range n).map f).length = n := by simp

theorem getElem?_map_range {α : Type} (f : Nat → α) (n i : Nat) (h : i < n) :
    ((List.range n).map f)[i]? = some (f i) := by
  simp [List.getElem?_map, List.getElem?_range h]

theorem head?_map_range {α : Type} (f : Nat → α) (n : Nat) :
    ((List.range (n + 1)).map f).head? = some (f 0) := by
  rw [List.head?_eq_getElem?, getElem?_map_range f (n + 1) 0 (by omega)]

theorem getLast?_map_range {α : Type} (f : Nat → α) (n : Nat) :
    ((List.range (n + 1)).map f).getLast? = some (f n) := by
  rw [List.getLast?_eq_getElem?, length_map_range, Nat.add_sub_cancel,
    getElem?_map_range f (n + 1) n (by omega)]

theorem roundedLine_mono (x1 y1 x2 y2 : Int) (i j : Nat) (hy : y1 ≤ y2) (hij : i ≤ j) :
    roundedLine x1 y1 x2 y2 i ≤ roundedLine x1 y1 x2 y2 j := by
  have hnum : 2 * ((y2 - y1).natAbs : Int) * i + (x2 - x1).natAbs
      ≤ 2 * ((y2 - y1).natAbs : Int) * j + (x2 - x1).natAbs := by
    have h1 : (i : Int) ≤ j := by exact_mod_cast hij
    have h2 : (0 : Int) ≤ 2 * ((y2 - y1).natAbs : Int) := by omega
    nlinarith
  have hq : (2 * ((y2 - y1).natAbs : Int) * i + (x2 - x1).natAbs)
        / (2 * ((x2 - x1).natAbs : Int))
      ≤ (2 * ((y2 - y1).natAbs : Int) * j + (x2 - x1).natAbs)
        / (2 * ((x2 - x1).natAbs : Int)) := by
    by_cases hd : (x2 - x1).natAbs = 0
    · rw [hd]; simp
    · exact Int.ediv_le_ediv (by omega) hnum
  have hs : (if y2 ≥ y1 then (1 : Int) else -1) = 1 := if_pos hy
  simp only [roundedLine, hs, one_mul]
  linarith

theorem roundedLine_anti (x1 y1 x2 y2 : Int) (i j : Nat) (hy : y2 < y1) (hij : i ≤ j) :
    roundedLine x1 y1 x2 y2 j ≤ roundedLine x1 y1 x2 y2 i := by
  have hnum : 2 * ((y2 - y1).natAbs : Int) * i + (x2 - x1).natAbs
      ≤ 2 * ((y2 - y1).natAbs : Int) * j + (x2 - x1).natAbs := by
    have h1 : (i : Int) ≤ j := by exact_mod_cast hij
    have h2 : (0 : Int) ≤ 2 * ((y2 - y1).natAbs : Int) := by omega
    nlinarith
  have hq : (2 * ((y2 - y1).natAbs : Int) * i + (x2 - x1).natAbs)
        / (2 * ((x2 - x1).natAbs : Int))
      ≤ (2 * ((y2 - y1).natAbs : Int) * j + (x2 - x1).natAbs)
        / (2 * ((x2 - x1).natAbs : Int)) := by
    by_cases hd : (x2 - x1).natAbs = 0
    · rw [hd]; simp
    · exact Int.ediv_le_ediv (by omega) hnum
  have hs : (if y2 ≥ y1 then (1 : Int) else -1) = -1 := if_neg (by omega)
  simp only [roundedLine, hs]
  linarith

/-- Between the endpoints: for a rising line every value up to step `|x2 - x1|` lies in
`[y1, y2]`. -/
theorem roundedLine_bounds (x1 y1 x2 y2 : Int) (i : Nat) (hy : y1 ≤ y2)
    (hi : i ≤ (x2 - x1).natAbs) :
    y1 ≤ roundedLine x1 y1 x2 y2 i ∧ roundedLine x1 y1 x2 y2 i ≤ y2 := by
  constructor
  · have := roundedLine_mono x1 y1 x2 y2 0 i hy (Nat.zero_le i)
    rwa [roundedLine_zero] at this
  · by_cases hx : x1 = x2
    · have h0 : (x2 - x1).natAbs = 0 := by omega
      have hi0 : i = 0 := by omega
      rw [hi0, roundedLine_zero]
      exact hy
    · have := roundedLine_mono x1 y1 x2 y2 i _ hy hi
      rwa [roundedLine_last x1 y1 x2 y2 hx] at this

/-- The reversed walk agrees with the forward walk at step `i` exactly when step `i` is not an
exact half-step tie. -/
theorem roundedLine_reverse (x1 y1 x2 y2 : Int) (i : Nat) (hx : x1 ≠ x2)
    (hi : i ≤ (x2 - x1).natAbs) :
    roundedLine x2 y2 x1 y1 ((x2 - x1).natAbs - i) = roundedLine x1 y1 x2 y2 i
      ↔ (2 * ((y2 - y1).natAbs : Int) * i) % (2 * ((x2 - x1).natAbs : Int))
          ≠ ((x2 - x1).natAbs : Int) := by
  obtain ⟨q, hq, h1, h2⟩ := roundedLine_quot x1 y1 x2 y2 i hx
  obtain ⟨q', hq', h1', h2'⟩ :=
    roundedLine_quot x2 y2 x1 y1 ((x2 - x1).natAbs - i) (Ne.symm hx)
  have hD : (x1 - x2).natAbs = (x2 - x1).natAbs := by omega
  have hE : (y1 - y2).natAbs = (y2 - y1).natAbs := by omega
  rw [hD, hE] at h1' h2'
  rw [Nat.cast_sub hi] at h1' h2'
  obtain ⟨D, hDdef⟩ : ∃ D : Int, D = ((x2 - x1).natAbs : Int) := ⟨_, rfl⟩
  obtain ⟨E, hEdef⟩ : ∃ E : Int, E = ((y2 - y1).natAbs : Int) := ⟨_, rfl⟩
  rw [← hDdef, ← hEdef] at h1 h2 h1' h2'
  rw [← hDdef, ← hEdef]
  have hDpos : 0 < D := by omega
  have hE0 : 0 ≤ E := by omega
  have hi0 : (0 : Int) ≤ i := Int.ofNat_nonneg i
  -- the two quotients add up to `E` or to `E + 1`
  have hsum1 : 2 * D * (E - (q + q')) < 2 * D * 1 := by nlinarith
  have hsum2 : 2 * D * (-1) < 2 * D * (E - (q + q') + 1) := by nlinarith
  have hs1 := lt_of_mul_lt_mul_left hsum1 (by omega : (0 : Int) ≤ 2 * D)
  have hs2 := lt_of_mul_lt_mul_left hsum2 (by omega : (0 : Int) ≤ 2 * D)
  -- a tie is a forward window that starts exactly at its quotient
  have htie : (2 * E * i) % (2 * D) = D ↔ 2 * E * i + D = 2 * D * q := by
    constructor
    · intro hm
      have hdm := Int.ediv_add_emod (2 * E * i) (2 * D)
      rw [hm] at hdm
      have hqe : q = (2 * E * i) / (2 * D) + 1 :=
        quot_unique (2 * D) (2 * E * i + D) _ _ (by omega) h1 h2 (by linarith) (by linarith)
      rw [hqe]; linarith
    · intro hm
      have : 2 * E * i = D + 2 * D * (q - 1) := by linarith
      rw [this, Int.add_mul_emod_self_left]
      exact Int.emod_eq_of_lt hDpos.le (by omega)
  rw [Ne, htie, hq, hq']
  have hkey : (y2 + (if y1 ≥ y2 then 1 else -1) * q' = y1 + (if y2 ≥ y1 then 1 else -1) * q)
      ↔ q + q' = E := by
    rcases lt_trichotomy y1 y2 with hlt | heq | hgt
    · rw [if_neg (by omega), if_pos (by omega)]
      have : E = y2 - y1 := by omega
      constructor <;> intro h <;> omega
    · subst heq
      have hE' : E = 0 := by omega
      subst hE'
      have hq0 : q = 0 := quot_unique (2 * D) (2 * 0 * (i : Int) + D) _ _ (by omega) h1 h2
        (by omega) (by omega)
      have hq0' : q' = 0 := quot_unique (2 * D) (2 * 0 * (D - (i : Int)) + D) _ _ (by omega)
        h1' h2' (by omega) (by omega)
      simp [hq0, hq0']
    · rw [if_pos (by omega), if_neg (by omega)]
      have : E = y1 - y2 := by omega
      constructor <;> intro h <;> omega
  rw [hkey]
  constructor
  · intro hqq hm
    nlinarith
  · intro hm
    by_contra hne
    have hqq : q + q' = E + 1 := by omega
    apply hm
    have h3 : 2 * D * q' ≤ 2 * E * (D - i) + D := h1'
    nlinarith

theorem reverse_map_range (f g : Nat → Int) (n : Nat) :
    ((List.range (n + 1)).map g).reverse = (List.range (n + 1)).map f
      ↔ ∀ i : Nat, i ≤ n → g (n - i) = f i := by
  constructor
  · intro h i hi
    have h1 := congrArg (fun l : List Int => l[i]?) h
    simp only at h1
    rw [List.getElem?_reverse (by rw [length_map_range]; omega), length_map_range,
      getElem?_map_range f (n + 1) i (by omega),
      getElem?_map_range g (n + 1) (n + 1 - 1 - i) (by omega)] at h1
    have h2 := Option.some.inj h1
    rw [show n + 1 - 1 - i = n - i by omega] at h2
    exact h2
  · intro h
    apply List.ext_getElem?
    intro i
    by_cases hi : i < n + 1
    · rw [List.getElem?_reverse (by rw [length_map_range]; omega), length_map_range,
        getElem?_map_range f (n + 1) i (by omega),
        getElem?_map_range g (n + 1) (n + 1 - 1 - i) (by omega),
        show n + 1 - 1 - i = n - i by omega, h i (by omega)]
    · rw [List.getElem?_eq_none (by simp; omega), List.getElem?_eq_none (by simp; omega)]

theorem enoughFuel_symm (x1 y1 x2 y2 : Int) :
    enoughFuel x2 y2 x1 y1 = enoughFuel x1 y1 x2 y2 := by
  unfold enoughFuel; omega

/-! ## `decimatePoints` in closed form -/

theorem gatherPoints_eq {T : Type} (S : List T) (d : T) :
    ∀ (ranges : List Int) (acc : List T),
      (∀ r ∈ ranges, 0 ≤ r ∧ r < (S.length : Int)) →
      gatherPoints S ranges acc = .ok (acc ++ ranges.map (fun r => S.getD r.toNat d)) := by
  intro ranges
  induction ranges with
  | nil => intro acc _; simp [gatherPoints]
  | cons r rs ih =>
    intro acc h
    have hr := h r (List.mem_cons_self r rs)
    have hlt : r.toNat < S.length := by omega
    have hget : S.get? r.toNat = some (S.getD r.toNat d) := by
      rw [List.get?_eq_getElem?, List.getD_eq_getElem?_getD, List.getElem?_eq_getElem hlt]
      rfl
    simp only [gatherPoints, hr.1, if_true, hget]
    rw [ih (acc ++ [S.getD r.toNat d]) (fun r' hr' => h r' (List.mem_cons_of_mem r hr'))]
    simp

/-- The indices that `decimatePoints` reads lie inside the input vector. -/
theorem decimate_index_bounds (len : Nat) (numpoints : Int) (hlen : 1 ≤ len) (i : Nat)
    (hi : i ≤ (numpoints - 1 - 0).natAbs) :
    0 ≤ roundedLine 0 0 (numpoints - 1) ((len : Int) - 1) i
      ∧ roundedLine 0 0 (numpoints - 1) ((len : Int) - 1) i < (len : Int) := by
  have h := roundedLine_bounds 0 0 (numpoints - 1) ((len : Int) - 1) i (by omega) hi
  omega

theorem head?_eq_getD {T : Type} (S : List T) (d : T) (hS : S ≠ []) :
    S.head? = some (S.getD 0 d) := by
  cases S with
  | nil => exact absurd rfl hS
  | cons a l => rfl

theorem getLast?_eq_getD {T : Type} (S : List T) (d : T) (hS : S ≠ []) :
    S.getLast? = some (S.getD (S.length - 1) d) := by
  have hlen : 0 < S.length := List.length_pos.2 hS
  rw [List.getLast?_eq_getElem?, List.getD_eq_getElem?_getD,
    List.getElem?_eq_getElem (by omega)]
  rfl

theorem gatherPoints_decimate {T : Type} (S : List T) (numpoints : Int) (d : T) (hS : S ≠ []) :
    gatherPoints S ((List.range ((numpoints - 1 - 0).natAbs + 1)).map
        (roundedLine 0 0 (numpoints - 1) ((S.length : Int) - 1))) []
      = .ok (resampled S numpoints d) := by
  have hlen : 0 < S.length := List.length_pos.2 hS
  rw [gatherPoints_eq S d _ []]
  · simp [resampled, List.map_map, Function.comp_def]
  · intro r hr
    rw [List.mem_map] at hr
    obtain ⟨i, hi, rfl⟩ := hr
    rw [List.mem_range] at hi
    exact decimate_index_bounds S.length numpoints hlen i (by omega)

theorem decimatePoints_eq {T : Type} [DecidableEq T] (fuel : Nat) (S : List T)
    (numpoints : Int) (d : T) (hS : S ≠ [])
    (hf : enoughFuel 0 0 (numpoints - 1) ((S.length : Int) - 1) ≤ fuel)
    (hn : numpoints ≠ 1 ∨ S.head? = S.getLast?) :
    decimatePoints fuel S numpoints = .ok (resampled S numpoints d) := by
  have hlen : 0 < S.length := List.length_pos.2 hS
  have hhead : (resampled S numpoints d).head? = S.head? := by
    rw [resampled, head?_map_range]
    simp only [roundedLine_zero, Int.toNat_zero]
    exact (head?_eq_getD S d hS).symm
  have hlast : (resampled S numpoints d).getLast? = S.getLast? := by
    rw [resampled, getLast?_map_range]
    by_cases h1 : numpoints = 1
    · rcases hn with h | h
      · exact absurd h1 h
      · subst h1
        simp only [sub_self, Int.natAbs_zero, roundedLine_zero, Int.toNat_zero]
        rw [← h]
        exact (head?_eq_getD S d hS).symm
    · rw [roundedLine_last 0 0 (numpoints - 1) ((S.length : Int) - 1) (by omega)]
      rw [getLast?_eq_getD S d hS]
      congr 2
      omega
  unfold decimatePoints
  rw [stretchBresenhamPoints_eq fuel 0 0 (numpoints - 1) ((S.length : Int) - 1) [] hf]
  simp only
  rw [gatherPoints_decimate S numpoints d hS]
  simp only [hhead, hlast]
  rw [head?_eq_getD S d hS, getLast?_eq_getD S d hS]
  simp

/-- The defect: asked for one point, `decimatePoints` keeps only the first element, and its
second assert fails as soon as the last element differs from the first. -/
theorem decimatePoints_one {T : Type} [DecidableEq T] (fuel : Nat) (S : List T)
    (h : S.head? ≠ S.getLast?) :
    decimatePoints fuel S 1 = .error .assertFailed := by
  have hS : S ≠ [] := by
    rintro rfl
    exact h rfl
  obtain ⟨d, hd⟩ : ∃ d, S.head? = some d := by
    cases S with
    | nil => exact absurd rfl hS
    | cons a l => exact ⟨a, rfl⟩
  have h0 : stretchBresenhamPoints fuel 0 0 (1 - 1) ((S.length : Int) - 1) []
      = .ok (1, [0]) := by
    simp [stretchBresenhamPoints, clear, resize]
  have hg : gatherPoints S [0] [] = .ok [d] := by
    have := gatherPoints_eq S d [0] [] (by
      intro r hr
      have hlen : 0 < S.length := List.length_pos.2 hS
      simp at hr; omega)
    rw [this]
    have h2 := head?_eq_getD S d hS
    rw [hd] at h2
    have h3 : S.getD 0 d = d := (Option.some.inj h2).symm
    simp only [List.nil_append, List.map_cons, List.map_nil, Int.toNat_zero, h3]
  unfold decimatePoints
  rw [h0]
  simp only
  rw [hg, hd]
  have hl := getLast?_eq_getD S d hS
  rw [hl] at h ⊢
  rw [hd] at h
  have : ¬ d = S.getD (S.length - 1) d := fun e => h (congrArg some e)
  simp only [List.head?_cons, List.getLast?_singleton]
  rw [if_pos trivial, if_neg (fun e => this e.symm)]

/-! ## Rounding to nearest -/

/-- Rounding to nearest with halves away from zero, for a quotient `q` of a non-negative
rational `a`: the deviation is at most one half, a deviation of exactly one half is on the far
side, and `q` is the only integer with these two properties. -/
theorem nearest_away (a : ℚ) (q : Int) (ha : 0 ≤ a) (h1 : (q : ℚ) - a ≤ 1 / 2)
    (h2 : -(1 / 2) < (q : ℚ) - a) :
    |(q : ℚ) - a| ≤ 1 / 2 ∧ (|(q : ℚ) - a| = 1 / 2 → |a| < |(q : ℚ)|)
      ∧ ∀ u : Int, |(u : ℚ) - a| ≤ 1 / 2 → (|(u : ℚ) - a| = 1 / 2 → |a| < |(u : ℚ)|) → u = q := by
  refine ⟨abs_le.2 ⟨by linarith, h1⟩, ?_, ?_⟩
  · intro h
    have hq : (q : ℚ) - a = 1 / 2 := by
      rcases abs_eq (by norm_num : (0 : ℚ) ≤ 1 / 2) |>.1 h with h' | h'
      · exact h'
      · linarith
    have hqpos : (0 : ℚ) < q := by linarith
    rw [abs_of_nonneg ha, abs_of_pos hqpos]
    linarith
  · intro u hu htie
    have hu' := abs_le.1 hu
    by_cases hlow : (u : ℚ) - a = -(1 / 2)
    · exfalso
      have habs : |(u : ℚ) - a| = 1 / 2 := by rw [hlow, abs_neg]; norm_num
      have hlt := htie habs
      have hu1 : (-1 : ℚ) < (u : ℚ) := by linarith
      have hu0 : (0 : Int) ≤ u := by
        have : (-1 : Int) < u := by exact_mod_cast hu1
        omega
      have hu0' : (0 : ℚ) ≤ (u : ℚ) := by exact_mod_cast hu0
      rw [abs_of_nonneg ha, abs_of_nonneg hu0'] at hlt
      linarith
    · have hgt : -(1 / 2) < (u : ℚ) - a := lt_of_le_of_ne hu'.1 (Ne.symm hlow)
      have ha1 : ((u - q : Int) : ℚ) < 1 := by push_cast; linarith
      have ha2 : (-1 : ℚ) < ((u - q : Int) : ℚ) := by push_cast; linarith
      have hb1 : u - q < 1 := by exact_mod_cast ha1
      have hb2 : -1 < u - q := by exact_mod_cast ha2
      omega

/-- The rounded line is the exact line rounded to nearest, halves away from `y1`. -/
theorem roundedLine_nearest (x1 y1 x2 y2 : Int) (i : Nat) (hx : x1 ≠ x2) :
    |(roundedLine x1 y1 x2 y2 i : ℚ) - exactLine x1 y1 x2 y2 i| ≤ 1 / 2
      ∧ (|(roundedLine x1 y1 x2 y2 i : ℚ) - exactLine x1 y1 x2 y2 i| = 1 / 2 →
          |exactLine x1 y1 x2 y2 i - y1| < |(roundedLine x1 y1 x2 y2 i : ℚ) - y1|)
      ∧ ∀ w : Int, |(w : ℚ) - exactLine x1 y1 x2 y2 i| ≤ 1 / 2 →
          (|(w : ℚ) - exactLine x1 y1 x2 y2 i| = 1 / 2 →
            |exactLine x1 y1 x2 y2 i - y1| < |(w : ℚ) - y1|) →
          w = roundedLine x1 y1 x2 y2 i := by
  obtain ⟨q, hq, h1, h2⟩ := roundedLine_quot x1 y1 x2 y2 i hx
  obtain ⟨D, hDdef⟩ : ∃ D : Int, D = ((x2 - x1).natAbs : Int) := ⟨_, rfl⟩
  obtain ⟨E, hEdef⟩ : ∃ E : Int, E = ((y2 - y1).natAbs : Int) := ⟨_, rfl⟩
  rw [← hDdef, ← hEdef] at h1 h2
  have hDpos : 0 < D := by omega
  have hE0 : 0 ≤ E := by omega
  have hDq : (0 : ℚ) < (D : ℚ) := by exact_mod_cast hDpos
  have hEq : (0 : ℚ) ≤ (E : ℚ) := by exact_mod_cast hE0
  have hiq : (0 : ℚ) ≤ (i : ℚ) := Nat.cast_nonneg i
  have habsD : ((|x2 - x1| : Int) : ℚ) = (D : ℚ) := by
    rw [hDdef, Int.natCast_natAbs]
  obtain ⟨a, hadef⟩ : ∃ a : ℚ, a = (i : ℚ) * (E : ℚ) / (D : ℚ) := ⟨_, rfl⟩
  have ha0 : 0 ≤ a := by rw [hadef]; positivity
  have haD : a * D = i * E := by rw [hadef]; field_simp
  have c1 : ((2 * D * q : Int) : ℚ) ≤ ((2 * E * i + D : Int) : ℚ) := by exact_mod_cast h1
  have c2 : ((2 * E * i + D : Int) : ℚ) < ((2 * D * q + 2 * D : Int) : ℚ) := by exact_mod_cast h2
  push_cast at c1 c2
  have g1 : (q : ℚ) - a ≤ 1 / 2 := by
    by_contra hcon
    push_neg at hcon
    nlinarith
  have g2 : -(1 / 2) < (q : ℚ) - a := by
    by_contra hcon
    push_neg at hcon
    nlinarith
  obtain ⟨n1, n2, n3⟩ := nearest_away a q ha0 g1 g2
  by_cases hy : y2 ≥ y1
  · have hE' : ((y2 : ℚ) - y1) = E := by
      have : y2 - y1 = E := by omega
      exact_mod_cast this
    have hex : exactLine x1 y1 x2 y2 i = y1 + a := by
      rw [exactLine, habsD, hE', hadef]
    have hv : (roundedLine x1 y1 x2 y2 i : ℚ) = y1 + q := by
      rw [hq, if_pos hy]; push_cast; ring
    rw [hex, hv]
    have e1 : (y1 : ℚ) + q - (y1 + a) = q - a := by ring
    have e2 : (y1 : ℚ) + a - y1 = a := by ring
    have e3 : (y1 : ℚ) + q - y1 = q := by ring
    rw [e1, e2, e3]
    refine ⟨n1, n2, ?_⟩
    intro w hw1 hw2
    have e4 : (w : ℚ) - (y1 + a) = ((w - y1 : Int) : ℚ) - a := by push_cast; ring
    have e5 : (w : ℚ) - y1 = ((w - y1 : Int) : ℚ) := by push_cast; ring
    rw [e4] at hw1 hw2
    rw [e5] at hw2
    have := n3 (w - y1) hw1 hw2
    have hvz : roundedLine x1 y1 x2 y2 i = y1 + q := by rw [hq, if_pos hy]; ring
    rw [hvz] at *
    omega
  · have hE' : ((y2 : ℚ) - y1) = -E := by
      have : y2 - y1 = -E := by omega
      exact_mod_cast this
    have hex : exactLine x1 y1 x2 y2 i = y1 - a := by
      rw [exactLine, habsD, hE', hadef]; ring
    have hv : (roundedLine x1 y1 x2 y2 i : ℚ) = y1 - q := by
      rw [hq, if_neg hy]; push_cast; ring
    rw [hex, hv]
    have e1 : (y1 : ℚ) - q - (y1 - a) = -((q : ℚ) - a) := by ring
    have e2 : (y1 : ℚ) - a - y1 = -a := by ring
    have e3 : (y1 : ℚ) - q - y1 = -(q : ℚ) := by ring
    rw [e1, e2, e3, abs_neg, abs_neg, abs_neg]
    refine ⟨n1, n2, ?_⟩
    intro w hw1 hw2
    have e4 : (w : ℚ) - (y1 - a) = -(((y1 - w : Int) : ℚ) - a) := by push_cast; ring
    have e5 : (w : ℚ) - y1 = -((y1 - w : Int) : ℚ) := by push_cast; ring
    rw [e4, abs_neg] at hw1 hw2
    rw [e5, abs_neg] at hw2
    have := n3 (y1 - w) hw1 hw2
    have hvz : roundedLine x1 y1 x2 y2 i = y1 - q := by rw [hq, if_neg hy]; ring
    rw [hvz] at *
    omega

/-! ## `getRanges` in closed form -/

theorem getRanges_eq (fuel : Nat) (n numthreads : Int) (ranges : List Int)
    (hf : enoughFuel 0 0 numthreads n ≤ fuel) :
    getRanges fuel n numthreads ranges
      = .ok ((List.range ((numthreads - 0).natAbs + 1)).map (roundedLine 0 0 numthreads n)) := by
  unfold getRanges
  simp only [stretchBresenhamPoints_eq fuel 0 0 numthreads n _ hf]

theorem getRanges_ok (fuel : Nat) (n numthreads : Int) (ranges b : List Int)
    (h : getRanges fuel n numthreads ranges = .ok b) :
    b = (List.range ((numthreads - 0).natAbs + 1)).map (roundedLine 0 0 numthreads n) := by
  unfold getRanges at h
  simp only at h
  split at h
  · simp at h
  · rename_i r pts hs
    have := stretchBresenhamPoints_ok _ _ _ _ _ _ _ hs
    simp only [Prod.mk.injEq] at this
    rw [← this.2]
    exact (Except.ok.inj h).symm

/-! ## Ranges as a partition -/

theorem ownsIndex_map_range (f : Nat → Int) (K t : Nat) (j : Int) :
    ownsIndex ((List.range (K + 1)).map f) t j ↔ t < K ∧ f t ≤ j ∧ j < f (t + 1) := by
  unfold ownsIndex
  by_cases ht : t < K
  · rw [getElem?_map_range f (K + 1) t (by omega),
      getElem?_map_range f (K + 1) (t + 1) (by omega)]
    simp [ht]
  · have : ((List.range (K + 1)).map f)[t + 1]? = none :=
      List.getElem?_eq_none (by rw [length_map_range]; omega)
    rw [this]
    constructor
    · intro h
      split at h
      · rename_i h1 h2
        simp at h2
      · exact absurd h id
    · intro h
      exact absurd h.1 ht

theorem exists_window (f : Nat → Int) (j : Int) :
    ∀ K : Nat, f 0 ≤ j → j < f K → ∃ t : Nat, t < K ∧ f t ≤ j ∧ j < f (t + 1) := by
  intro K
  induction K with
  | zero => intro h0 hK; omega
  | succ K ih =>
    intro h0 hK
    by_cases h : j < f K
    · obtain ⟨t, ht, h1, h2⟩ := ih h0 h
      exact ⟨t, by omega, h1, h2⟩
    · exact ⟨K, by omega, by omega, hK⟩

/-- The size of a range: between `n / k - 1` and `n / k + 1`, exclusive, in units of `1 / k`. -/
theorem roundedLine_step (n k : Int) (t : Nat) (hn : 0 ≤ n) (hk : 1 ≤ k) :
    n - k < k * (roundedLine 0 0 k n (t + 1) - roundedLine 0 0 k n t)
      ∧ k * (roundedLine 0 0 k n (t + 1) - roundedLine 0 0 k n t) < n + k := by
  obtain ⟨q, hq, h1, h2⟩ := roundedLine_quot 0 0 k n t (by omega)
  obtain ⟨q', hq', h1', h2'⟩ := roundedLine_quot 0 0 k n (t + 1) (by omega)
  have hD : (((k - 0).natAbs : Nat) : Int) = k := by omega
  have hE : (((n - 0).natAbs : Nat) : Int) = n := by omega
  rw [hD, hE] at h1 h2 h1' h2'
  rw [hq, hq', if_pos (by omega : n ≥ 0)]
  push_cast at h1' h2'
  constructor <;> nlinarith

/-- The size of a range is the floor or the ceiling of `n / k`. -/
theorem roundedLine_step_floor_ceil (n k : Int) (t : Nat) (hn : 0 ≤ n) (hk : 1 ≤ k) :
    roundedLine 0 0 k n (t + 1) - roundedLine 0 0 k n t = ⌊(n : ℚ) / k⌋
      ∨ roundedLine 0 0 k n (t + 1) - roundedLine 0 0 k n t = ⌈(n : ℚ) / k⌉ := by
  have hkpos : (0 : ℚ) < (k : ℚ) := by exact_mod_cast (by omega : (0 : Int) < k)
  obtain ⟨h1, h2⟩ := roundedLine_step n k t hn hk
  obtain ⟨s, hs⟩ : ∃ s : Int,
      s = roundedLine 0 0 k n (t + 1) - roundedLine 0 0 k n t := ⟨_, rfl⟩
  rw [← hs] at h1 h2 ⊢
  by_cases hle : k * s ≤ n
  · left
    symm
    rw [Int.floor_eq_iff, le_div_iff₀ hkpos, div_lt_iff₀ hkpos]
    constructor
    · have : ((k * s : Int) : ℚ) ≤ (n : ℚ) := by exact_mod_cast hle
      push_cast at this; linarith
    · have : ((n : Int) : ℚ) < ((k * s + k : Int) : ℚ) := by
        exact_mod_cast (by linarith : n < k * s + k)
      push_cast at this; linarith
  · right
    symm
    rw [Int.ceil_eq_iff, lt_div_iff₀ hkpos, div_le_iff₀ hkpos]
    constructor
    · have : ((k * s - k : Int) : ℚ) < ((n : Int) : ℚ) := by
        exact_mod_cast (by linarith : k * s - k < n)
      push_cast at this; linarith
    · have : ((n : Int) : ℚ) ≤ ((k * s : Int) : ℚ) := by
        exact_mod_cast (by linarith : n ≤ k * s)
      push_cast at this; linarith

/-- Two range sizes differ by at most one. -/
theorem roundedLine_step_diff (n k : Int) (t u : Nat) (hn : 0 ≤ n) (hk : 1 ≤ k) :
    |(roundedLine 0 0 k n (t + 1) - roundedLine 0 0 k n t)
      - (roundedLine 0 0 k n (u + 1) - roundedLine 0 0 k n u)| ≤ 1 := by
  obtain ⟨h1, h2⟩ := roundedLine_step n k t hn hk
  obtain ⟨h1', h2'⟩ := roundedLine_step n k u hn hk
  obtain ⟨s, hs⟩ : ∃ s : Int,
      s = roundedLine 0 0 k n (t + 1) - roundedLine 0 0 k n t := ⟨_, rfl⟩
  obtain ⟨s', hs'⟩ : ∃ s' : Int,
      s' = roundedLine 0 0 k n (u + 1) - roundedLine 0 0 k n u := ⟨_, rfl⟩
  rw [← hs] at h1 h2 ⊢
  rw [← hs'] at h1' h2' ⊢
  have ha : k * (s - s') < k * 2 := by linarith
  have hb : k * (s' - s) < k * 2 := by linarith
  have ha' := lt_of_mul_lt_mul_left ha (by omega : (0 : Int) ≤ k)
  have hb' := lt_of_mul_lt_mul_left hb (by omega : (0 : Int) ≤ k)
  rw [abs_le]
  constructor <;> omega

/-- On the diagonal from `(0, 0)` to `(d, d)` the rounded line is the identity. -/
theorem roundedLine_diag (d : Int) (i : Nat) (hd : 0 < d) : roundedLine 0 0 d d i = i := by
  obtain ⟨q, hq, h1, h2⟩ := roundedLine_quot 0 0 d d i (by omega)
  have hD : (((d - 0).natAbs : Nat) : Int) = d := by omega
  rw [hD] at h1 h2
  have hqi : q = (i : Int) :=
    quot_unique (2 * d) (2 * d * (i : Int) + d) _ _ (by omega) h1 h2 (by linarith) (by linarith)
  rw [hq, hqi, if_pos (by omega)]
  ring

theorem map_getD_range {T : Type} (S : List T) (d : T) :
    (List.range S.length).map (fun i => S.getD i d) = S := by
  apply List.ext_getElem?
  intro i
  by_cases hi : i < S.length
  · rw [getElem?_map_range _ _ i hi, List.getD_eq_getElem?_getD, List.getElem?_eq_getElem hi]
    rfl
  · rw [List.getElem?_eq_none (by rw [length_map_range]; omega),
      List.getElem?_eq_none (by omega)]

theorem resampled_length_self {T : Type} (S : List T) (d : T) (hS : S ≠ []) :
    resampled S (S.length : Int) d = S := by
  have hlen : 0 < S.length := List.length_pos.2 hS
  have hN : ((S.length : Int) - 1 - 0).natAbs + 1 = S.length := by omega
  rw [resampled, hN]
  conv_rhs => rw [← map_getD_range S d]
  apply List.map_congr_left
  intro i hi
  rw [List.mem_range] at hi
  by_cases h1 : S.length = 1
  · have hi0 : i = 0 := by omega
    subst hi0
    rw [roundedLine_zero]; rfl
  · rw [roundedLine_diag ((S.length : Int) - 1) i (by omega)]
    rfl

/-! ## Steps of the rounded line -/

/-- The step of the rounded line from `i` to `i + 1`, as a multiple `s` of the sign, lies in the
window `dy - dx < dx * s < dy + dx`. -/
theorem roundedLine_step_window (x1 y1 x2 y2 : Int) (i : Nat) (hx : x1 ≠ x2) :
    ∃ s : Int,
      roundedLine x1 y1 x2 y2 (i + 1) - roundedLine x1 y1 x2 y2 i
          = (if y2 ≥ y1 then 1 else -1) * s
        ∧ ((y2 - y1).natAbs : Int) - (x2 - x1).natAbs < ((x2 - x1).natAbs : Int) * s
        ∧ ((x2 - x1).natAbs : Int) * s < ((y2 - y1).natAbs : Int) + (x2 - x1).natAbs := by
  obtain ⟨q, hq, h1, h2⟩ := roundedLine_quot x1 y1 x2 y2 i hx
  obtain ⟨q', hq', h1', h2'⟩ := roundedLine_quot x1 y1 x2 y2 (i + 1) hx
  simp only [Nat.cast_add, Nat.cast_one] at h1' h2'
  refine ⟨q' - q, ?_, ?_, ?_⟩
  · rw [hq, hq']; ring
  · nlinarith
  · nlinarith

theorem abs_sign_mul (c : Prop) [Decidable c] (s : Int) (hs : 0 ≤ s) :
    |(if c then (1 : Int) else -1) * s| = s := by
  by_cases h : c
  · rw [if_pos h, one_mul, abs_of_nonneg hs]
  · rw [if_neg h, neg_one_mul, abs_neg, abs_of_nonneg hs]

/-- An integer in the window `e - d < d * s < e + d` is the floor or the ceiling of `e / d`. -/
theorem floor_or_ceil_of_window (e d s : Int) (hd : 0 < d) (h1 : e - d < d * s)
    (h2 : d * s < e + d) : s = ⌊(e : ℚ) / d⌋ ∨ s = ⌈(e : ℚ) / d⌉ := by
  have hdq : (0 : ℚ) < (d : ℚ) := by exact_mod_cast hd
  by_cases hle : d * s ≤ e
  · left
    symm
    rw [Int.floor_eq_iff, le_div_iff₀ hdq, div_lt_iff₀ hdq]
    constructor
    · have : ((d * s : Int) : ℚ) ≤ (e : ℚ) := by exact_mod_cast hle
      push_cast at this; linarith
    · have : ((e : Int) : ℚ) < ((d * s + d : Int) : ℚ) := by
        exact_mod_cast (by linarith : e < d * s + d)
      push_cast at this; linarith
  · right
    symm
    rw [Int.ceil_eq_iff, lt_div_iff₀ hdq, div_le_iff₀ hdq]
    constructor
    · have : ((d * s - d : Int) : ℚ) < ((e : Int) : ℚ) := by
        exact_mod_cast (by linarith : d * s - d < e)
      push_cast at this; linarith
    · have : ((e : Int) : ℚ) ≤ ((d * s : Int) : ℚ) := by
        exact_mod_cast (by linarith : e ≤ d * s)
      push_cast at this; linarith

/-- The size of a step of the rounded line: the floor or the ceiling of `dy / dx`, and at most
one when `dy ≤ dx`. -/
theorem roundedLine_step_size (x1 y1 x2 y2 : Int) (i : Nat) (hx : x1 ≠ x2) :
    (|roundedLine x1 y1 x2 y2 (i + 1) - roundedLine x1 y1 x2 y2 i|
          = ⌊((|y2 - y1| : Int) : ℚ) / (|x2 - x1| : Int)⌋
        ∨ |roundedLine x1 y1 x2 y2 (i + 1) - roundedLine x1 y1 x2 y2 i|
          = ⌈((|y2 - y1| : Int) : ℚ) / (|x2 - x1| : Int)⌉)
      ∧ (|y2 - y1| ≤ |x2 - x1| →
          |roundedLine x1 y1 x2 y2 (i + 1) - roundedLine x1 y1 x2 y2 i| ≤ 1) := by
  obtain ⟨s, hs, h1, h2⟩ := roundedLine_step_window x1 y1 x2 y2 i hx
  rw [← Int.natCast_natAbs (y2 - y1), ← Int.natCast_natAbs (x2 - x1)]
  obtain ⟨D, hDdef⟩ : ∃ D : Int, D = ((x2 - x1).natAbs : Int) := ⟨_, rfl⟩
  obtain ⟨E, hEdef⟩ : ∃ E : Int, E = ((y2 - y1).natAbs : Int) := ⟨_, rfl⟩
  rw [← hDdef, ← hEdef] at h1 h2 ⊢
  have hD : 0 < D := by omega
  have hE : 0 ≤ E := by omega
  have hs0 : 0 ≤ s := by
    by_contra hneg
    have : s ≤ -1 := by omega
    nlinarith
  rw [hs, abs_sign_mul _ s hs0]
  refine ⟨floor_or_ceil_of_window E D s hD h1 h2, ?_⟩
  intro hle
  by_contra hgt
  have : 2 ≤ s := by omega
  nlinarith

theorem pairwise_map_range (f : Nat → Int) (r : Int → Int → Prop) (n : Nat)
    (h : ∀ i j : Nat, i < j → j < n → r (f i) (f j)) : ((List.range n).map f).Pairwise r := by
  rw [List.pairwise_map]
  have h1 : (List.range n).Pairwise (fun i j => i < j ∧ i < n ∧ j < n) := by
    have := List.pairwise_lt_range n
    have hmem : ∀ i ∈ List.range n, i < n := fun i hi => List.mem_range.1 hi
    exact (List.pairwise_and_iff.2 ⟨this, List.pairwise_of_forall_mem_list
      (fun a ha b hb => ⟨hmem a ha, hmem b hb⟩)⟩)
  exact h1.imp (fun hij => h _ _ hij.1 hij.2.2)

/-- For a falling line every value up to step `|x2 - x1|` lies in `[y2, y1]`. -/
theorem roundedLine_bounds_falling (x1 y1 x2 y2 : Int) (i : Nat) (hy : y2 < y1)
    (hi : i ≤ (x2 - x1).natAbs) :
    y2 ≤ roundedLine x1 y1 x2 y2 i ∧ roundedLine x1 y1 x2 y2 i ≤ y1 := by
  constructor
  · by_cases hx : x1 = x2
    · have h0 : (x2 - x1).natAbs = 0 := by omega
      have hi0 : i = 0 := by omega
      rw [hi0, roundedLine_zero]
      omega
    · have := roundedLine_anti x1 y1 x2 y2 i _ hy hi
      rwa [roundedLine_last x1 y1 x2 y2 hx] at this
  · have := roundedLine_anti x1 y1 x2 y2 0 i hy (Nat.zero_le i)
    rwa [roundedLine_zero] at this

/-- A line that rises at least as fast as it runs has strictly increasing values. -/
theorem roundedLine_strictMono (x1 y1 x2 y2 : Int) (hx : x1 ≠ x2) (hy : y1 ≤ y2)
    (hsteep : (x2 - x1).natAbs ≤ (y2 - y1).natAbs) :
    ∀ i j : Nat, i < j → roundedLine x1 y1 x2 y2 i < roundedLine x1 y1 x2 y2 j := by
  have hstep : ∀ i : Nat, roundedLine x1 y1 x2 y2 i < roundedLine x1 y1 x2 y2 (i + 1) := by
    intro i
    obtain ⟨s, hs, h1, h2⟩ := roundedLine_step_window x1 y1 x2 y2 i hx
    rw [if_pos hy, one_mul] at hs
    have hs1 : 1 ≤ s := by
      by_contra hneg
      have h0 : s ≤ 0 := by omega
      have hD : (0 : Int) < ((x2 - x1).natAbs : Int) := by omega
      have hle : ((x2 - x1).natAbs : Int) ≤ ((y2 - y1).natAbs : Int) := by exact_mod_cast hsteep
      nlinarith
    omega
  intro i j hij
  induction j with
  | zero => omega
  | succ j ih =>
    by_cases h : i = j
    · subst h; exact hstep i
    · exact lt_trans (ih (by omega)) (hstep j)

/-- A line that runs at least as fast as it rises moves by at most one per step. -/
theorem roundedLine_step_le_one (x1 y1 x2 y2 : Int) (i : Nat) (hx : x1 ≠ x2) (hy : y1 ≤ y2)
    (hflat : (y2 - y1).natAbs ≤ (x2 - x1).natAbs) :
    roundedLine x1 y1 x2 y2 (i + 1) ≤ roundedLine x1 y1 x2 y2 i + 1 := by
  obtain ⟨s, hs, h1, h2⟩ := roundedLine_step_window x1 y1 x2 y2 i hx
  rw [if_pos hy, one_mul] at hs
  have hs1 : s ≤ 1 := by
    by_contra hneg
    have h0 : 2 ≤ s := by omega
    have hD : (0 : Int) < ((x2 - x1).natAbs : Int) := by omega
    have hle : ((y2 - y1).natAbs : Int) ≤ ((x2 - x1).natAbs : Int) := by exact_mod_cast hflat
    nlinarith
  omega

/-- A flat enough rising line takes every value between its endpoints. -/
theorem roundedLine_surj (x1 y1 x2 y2 : Int) (m : Int) (hy : y1 ≤ y2)
    (hflat : (y2 - y1).natAbs ≤ (x2 - x1).natAbs) (hm1 : y1 ≤ m) (hm2 : m ≤ y2) :
    ∃ i : Nat, i ≤ (x2 - x1).natAbs ∧ roundedLine x1 y1 x2 y2 i = m := by
  by_cases hx : x1 = x2
  · have h0 : (y2 - y1).natAbs = 0 := by omega
    exact ⟨0, Nat.zero_le _, by rw [roundedLine_zero]; omega⟩
  · by_cases hlast : m = y2
    · exact ⟨(x2 - x1).natAbs, le_refl _, by rw [roundedLine_last x1 y1 x2 y2 hx, hlast]⟩
    · obtain ⟨t, ht, h1, h2⟩ := exists_window (roundedLine x1 y1 x2 y2) m (x2 - x1).natAbs
        (by rw [roundedLine_zero]; exact hm1)
        (by rw [roundedLine_last x1 y1 x2 y2 hx]; omega)
      have := roundedLine_step_le_one x1 y1 x2 y2 t hx hy hflat
      exact ⟨t, by omega, by omega⟩

theorem sublist_range_of_sorted_lt (L : List Nat) (n : Nat) (hs : L.Sorted (· < ·))
    (hb : ∀ a ∈ L, a < n) : L.Sublist (List.range n) := by
  have hnd : L.Nodup := hs.imp (fun h => Nat.ne_of_lt h)
  have hsub : L ⊆ List.range n := fun a ha => List.mem_range.2 (hb a ha)
  exact List.sublist_of_subperm_of_sorted (List.subperm_of_subset hnd hsub)
    (hs.imp (fun h => Nat.le_of_lt h)) (List.sorted_le_range n)

theorem range_sublist_of_sorted_le (L : List Nat) (n : Nat) (hs : L.Sorted (· ≤ ·))
    (hb : ∀ a : Nat, a < n → a ∈ L) : (List.range n).Sublist L := by
  have hsub : List.range n ⊆ L := fun a ha => hb a (List.mem_range.1 ha)
  exact List.sublist_of_subperm_of_sorted (List.subperm_of_subset (List.nodup_range n) hsub)
    (List.sorted_le_range n) hs

/-- The vector built by `decimatePoints`, as the input read at a list of natural indices. -/
theorem resampled_eq_map {T : Type} (S : List T) (numpoints : Int) (d : T) :
    resampled S numpoints d
      = ((List.range ((numpoints - 1 - 0).natAbs + 1)).map
          (fun i => (roundedLine 0 0 (numpoints - 1) ((S.length : Int) - 1) i).toNat)).map
          (fun a => S.getD a d) := by
  rw [resampled, List.map_map]
  rfl

theorem sorted_map_range (f : Nat → Nat) (r : Nat → Nat → Prop) (n : Nat)
    (h : ∀ i j : Nat, i < j → j < n → r (f i) (f j)) : ((List.range n).map f).Sorted r := by
  unfold List.Sorted
  rw [List.pairwise_map]
  have h1 : (List.range n).Pairwise (fun i j => i < j ∧ i < n ∧ j < n) := by
    have := List.pairwise_lt_range n
    have hmem : ∀ i ∈ List.range n, i < n := fun i hi => List.mem_range.1 hi
    exact (List.pairwise_and_iff.2 ⟨this, List.pairwise_of_forall_mem_list
      (fun a ha b hb => ⟨hmem a ha, hmem b hb⟩)⟩)
  exact h1.imp (fun hij => h _ _ hij.1 hij.2.2)

/-- Decimation: the vector built by `decimatePoints` is a sublist of the input. -/
theorem resampled_sublist {T : Type} (S : List T) (numpoints : Int) (d : T)
    (hS : S ≠ []) (h1 : 1 ≤ numpoints) (h2 : numpoints ≤ S.length) :
    (resampled S numpoints d).Sublist S := by
  have hlen : 0 < S.length := List.length_pos.2 hS
  rw [resampled_eq_map]
  conv_rhs => rw [← map_getD_range S d]
  apply List.Sublist.map
  apply sublist_range_of_sorted_lt
  · apply sorted_map_range
    intro i j hij hj
    by_cases hone : numpoints = 1
    · subst hone
      simp at hj
      omega
    · have := roundedLine_strictMono 0 0 (numpoints - 1) ((S.length : Int) - 1) (by omega)
        (by omega) (by omega) i j hij
      have hi0 := (decimate_index_bounds S.length numpoints hlen i (by omega)).1
      omega
  · intro a ha
    rw [List.mem_map] at ha
    obtain ⟨i, hi, rfl⟩ := ha
    rw [List.mem_range] at hi
    have := decimate_index_bounds S.length numpoints hlen i (by omega)
    omega

/-- Expansion: the input is a sublist of the vector built by `decimatePoints`. -/
theorem sublist_resampled {T : Type} (S : List T) (numpoints : Int) (d : T)
    (hS : S ≠ []) (h2 : (S.length : Int) ≤ numpoints) :
    S.Sublist (resampled S numpoints d) := by
  have hlen : 0 < S.length := List.length_pos.2 hS
  rw [resampled_eq_map]
  conv_lhs => rw [← map_getD_range S d]
  apply List.Sublist.map
  apply range_sublist_of_sorted_le
  · apply sorted_map_range
    intro i j hij hj
    have := roundedLine_mono 0 0 (numpoints - 1) ((S.length : Int) - 1) i j (by omega) (by omega)
    have hi0 := (decimate_index_bounds S.length numpoints hlen i (by omega)).1
    omega
  · intro a ha
    obtain ⟨i, hi, hv⟩ := roundedLine_surj 0 0 (numpoints - 1) ((S.length : Int) - 1) (a : Int)
      (by omega) (by omega) (by omega) (by omega)
    rw [List.mem_map]
    exact ⟨i, List.mem_range.2 (by omega), by rw [hv]; rfl⟩

/-! ## The logged walk is the walk -/

theorem correctErrorsCounted_erase (s2 dx2 : Int) :
    ∀ (fuel : Nat) (y e : Int),
      (correctErrorsCounted s2 dx2 fuel y e).map (fun r => (r.1, r.2.1))
        = correctErrors s2 dx2 fuel y e := by
  intro fuel
  induction fuel with
  | zero => intro y e; rfl
  | succ f ih =>
    intro y e
    by_cases he : e ≥ 0
    · simp only [correctErrorsCounted, correctErrors, he, if_true]
      rw [← ih (y + s2) (e - dx2)]
      cases correctErrorsCounted s2 dx2 f (y + s2) (e - dx2) with
      | error f => rfl
      | ok r => rfl
    · simp only [correctErrorsCounted, correctErrors, he, if_false]
      rfl

theorem loopBodyLogged_erase (s1 s2 dx2 dy2 : Int) (fuel : Nat) (st : LoopState) :
    (loopBodyLogged s1 s2 dx2 dy2 fuel st).map Prod.fst = loopBody s1 s2 dx2 dy2 fuel st := by
  unfold loopBodyLogged loopBody
  by_cases hp : st.p < st.points.length
  · rw [if_pos hp, if_pos hp, ← correctErrorsCounted_erase s2 dx2 fuel st.y st.e]
    cases correctErrorsCounted s2 dx2 fuel st.y st.e with
    | error f => rfl
    | ok r => rfl
  · rw [if_neg hp, if_neg hp]
    rfl

theorem forLoopLogged_erase (s1 s2 dx dx2 dy2 : Int) (fuel : Nat) :
    ∀ (steps : Nat) (i : Int) (st : LoopState),
      (forLoopLogged s1 s2 dx dx2 dy2 fuel steps i st).map Prod.fst
        = forLoop s1 s2 dx dx2 dy2 fuel steps i st := by
  intro steps
  induction steps with
  | zero => intro i st; rfl
  | succ t ih =>
    intro i st
    by_cases hi : i ≤ dx
    · simp only [forLoopLogged, forLoop, hi, if_true]
      rw [← loopBodyLogged_erase s1 s2 dx2 dy2 fuel st]
      cases loopBodyLogged s1 s2 dx2 dy2 fuel st with
      | error f => rfl
      | ok r =>
        obtain ⟨st', rec⟩ := r
        simp only [Except.map]
        rw [← ih (i + 1) st']
        cases forLoopLogged s1 s2 dx dx2 dy2 fuel t (i + 1) st' with
        | error f => rfl
        | ok r' => rfl
    · simp only [forLoopLogged, forLoop, hi, if_false]
      rfl

/-- Forgetting the records of `stretchBresenhamPointsLogged` gives `stretchBresenhamPoints`,
for every input and every budget. -/
theorem stretchBresenhamPointsLogged_erase (fuel : Nat) (x1 y1 x2 y2 : Int)
    (points : List Int) :
    (stretchBresenhamPointsLogged fuel x1 y1 x2 y2 points).map Prod.fst
      = stretchBresenhamPoints fuel x1 y1 x2 y2 points := by
  unfold stretchBresenhamPointsLogged stretchBresenhamPoints
  simp only
  split
  · split <;> rfl
  · rw [← forLoopLogged_erase]
    cases forLoopLogged _ _ _ _ _ fuel fuel 0 _ with
    | error f => rfl
    | ok r => rfl

/-! ## The records of the passes -/

theorem correctErrorsCounted_of_ok (s2 dx2 : Int) :
    ∀ (fuel : Nat) (y e y' e' : Int), correctErrors s2 dx2 fuel y e = .ok (y', e') →
      ∃ k : Nat, correctErrorsCounted s2 dx2 fuel y e = .ok (y', e', k) ∧ e' = e - dx2 * k := by
  intro fuel
  induction fuel with
  | zero => intro y e y' e' h; simp [correctErrors] at h
  | succ f ih =>
    intro y e y' e' h
    by_cases he : e ≥ 0
    · simp only [correctErrors, he, if_true] at h
      obtain ⟨k, hk, hek⟩ := ih _ _ _ _ h
      refine ⟨k + 1, ?_, ?_⟩
      · simp only [correctErrorsCounted, he, if_true, hk]
      · rw [hek]; push_cast; ring
    · simp only [correctErrors, he, if_false] at h
      have h' := Except.ok.inj h
      simp only [Prod.mk.injEq] at h'
      obtain ⟨hy, hee⟩ := h'
      subst hy hee
      refine ⟨0, ?_, ?_⟩
      · simp only [correctErrorsCounted, he, if_false]
      · simp

theorem loopBodyLogged_of_ok (s1 s2 dx2 dy2 : Int) (fuel : Nat) (st st' : LoopState)
    (h : loopBody s1 s2 dx2 dy2 fuel st = .ok st') :
    ∃ r : PassLog, loopBodyLogged s1 s2 dx2 dy2 fuel st = .ok (st', r)
      ∧ r.e = st'.e - dy2 ∧ dx2 * r.firings = st.e - r.e := by
  unfold loopBody at h
  unfold loopBodyLogged
  by_cases hp : st.p < st.points.length
  · rw [if_pos hp] at h ⊢
    cases hc : correctErrors s2 dx2 fuel st.y st.e with
    | error f => rw [hc] at h; simp at h
    | ok r =>
      obtain ⟨y', e'⟩ := r
      rw [hc] at h
      obtain ⟨k, hk, hek⟩ := correctErrorsCounted_of_ok s2 dx2 fuel _ _ _ _ hc
      rw [hk]
      have h' := Except.ok.inj h
      refine ⟨{ firings := k, e := e' }, ?_, ?_, ?_⟩
      · simp only [h']
      · rw [← h']; simp
      · simp only [hek]; ring
  · rw [if_neg hp] at h; simp at h

/-- The value of `e` that the correction loop of pass `i` leaves, and the value it starts
from. -/
theorem stateAt_e_bounds (x1 y1 s1 s2 : Int) (dx dy i : Nat) (hdx : 0 < dx) :
    -((dx : Int) + dx) ≤ (stateAt x1 y1 s1 s2 dx dy (i + 1)).e - ((dy : Int) + dy)
      ∧ (stateAt x1 y1 s1 s2 dx dy (i + 1)).e - ((dy : Int) + dy) ≤ -1
      ∧ (stateAt x1 y1 s1 s2 dx dy i).e < (dy : Int) + dy := by
  have hdx2 : (0 : Int) < (dx : Int) + dx := by omega
  have hdm := Int.ediv_add_emod (((dy : Int) + dy) * i + dx) ((dx : Int) + dx)
  have hm0 := Int.emod_nonneg (((dy : Int) + dy) * i + dx) hdx2.ne.symm
  have hm1 := Int.emod_lt_of_pos (((dy : Int) + dy) * i + dx) hdx2
  have hdm' := Int.ediv_add_emod (((dy : Int) + dy) * ((i : Int) + 1) + dx) ((dx : Int) + dx)
  have hm0' := Int.emod_nonneg (((dy : Int) + dy) * ((i : Int) + 1) + dx) hdx2.ne.symm
  have hm1' := Int.emod_lt_of_pos (((dy : Int) + dy) * ((i : Int) + 1) + dx) hdx2
  simp only [stateAt, Nat.cast_add, Nat.cast_one]
  refine ⟨?_, ?_, ?_⟩ <;> linarith

/-! ## The walk on machine integers -/

theorem correctErrors_ok_form (s2 dx2 : Int) :
    ∀ (fuel : Nat) (y e y' e' : Int), correctErrors s2 dx2 fuel y e = .ok (y', e') →
      ∃ k : Nat, y' = y + s2 * k ∧ e' = e - dx2 * k := by
  intro fuel
  induction fuel with
  | zero => intro y e y' e' h; simp [correctErrors] at h
  | succ f ih =>
    intro y e y' e' h
    by_cases he : e ≥ 0
    · simp only [correctErrors, he, if_true] at h
      obtain ⟨k, hk1, hk2⟩ := ih _ _ _ _ h
      exact ⟨k + 1, by rw [hk1]; push_cast; ring, by rw [hk2]; push_cast; ring⟩
    · simp only [correctErrors, he, if_false] at h
      have h' := Except.ok.inj h
      simp only [Prod.mk.injEq] at h'
      exact ⟨0, by simp [h'.1], by simp [h'.2]⟩

theorem correctErrorsOn_of_ok (ar : Int → Except Trap Int)
    (har : ∀ a : Int, -2147483648 ≤ a → a ≤ 2147483647 → ar a = .ok a)
    (s2 dx2 : Int) (hs2 : s2 = 1 ∨ s2 = -1) (hpos : 0 < dx2) (hdx2 : dx2 ≤ 2147483648) :
    ∀ (fuel : Nat) (y e y' e' : Int), correctErrors s2 dx2 fuel y e = .ok (y', e') →
      -2147483648 ≤ y → y ≤ 2147483647 → -2147483648 ≤ y' → y' ≤ 2147483647 →
      e ≤ 2147483647 →
      correctErrorsOn ar s2 dx2 fuel y e = .ok (y', e') := by
  intro fuel
  induction fuel with
  | zero => intro y e y' e' h; simp [correctErrors] at h
  | succ f ih =>
    intro y e y' e' h hy1 hy2 hy1' hy2' he2
    by_cases he : e ≥ 0
    · simp only [correctErrors, he, if_true] at h
      obtain ⟨k, hk1, _⟩ := correctErrors_ok_form s2 dx2 f _ _ _ _ h
      have hk0 : (0 : Int) ≤ k := Int.ofNat_nonneg k
      have hyr : -2147483648 ≤ y + s2 ∧ y + s2 ≤ 2147483647 := by
        rcases hs2 with hs | hs <;> subst hs <;> constructor <;> omega
      have her : -2147483648 ≤ e - dx2 ∧ e - dx2 ≤ 2147483647 := by
        constructor <;> omega
      simp only [correctErrorsOn, he, if_true, har _ hyr.1 hyr.2, har _ her.1 her.2]
      exact ih _ _ _ _ h hyr.1 hyr.2 hy1' hy2' her.2
    · simp only [correctErrors, he, if_false] at h
      simp only [correctErrorsOn, he, if_false]
      rw [Except.ok.inj h]

theorem loopBodyOn_of_ok (ar : Int → Except Trap Int)
    (har : ∀ a : Int, -2147483648 ≤ a → a ≤ 2147483647 → ar a = .ok a)
    (s1 s2 dx2 dy2 : Int) (hs2 : s2 = 1 ∨ s2 = -1) (hpos : 0 < dx2) (hdx2 : dx2 ≤ 2147483648)
    (fuel : Nat) (st st' : LoopState) (h : loopBody s1 s2 dx2 dy2 fuel st = .ok st')
    (hy1 : -2147483648 ≤ st.y) (hy2 : st.y ≤ 2147483647)
    (hy1' : -2147483648 ≤ st'.y) (hy2' : st'.y ≤ 2147483647)
    (he : st.e ≤ 2147483647)
    (hx1 : -2147483648 ≤ st'.x) (hx2 : st'.x ≤ 2147483647)
    (he1 : -2147483648 ≤ st'.e) (he2 : st'.e ≤ 2147483647) :
    loopBodyOn ar s1 s2 dx2 dy2 fuel st = .ok st' := by
  unfold loopBody at h
  unfold loopBodyOn
  by_cases hp : st.p < st.points.length
  · rw [if_pos hp] at h ⊢
    cases hc : correctErrors s2 dx2 fuel st.y st.e with
    | error f => rw [hc] at h; simp at h
    | ok r =>
      obtain ⟨y', e'⟩ := r
      rw [hc] at h
      have h' := Except.ok.inj h
      subst h'
      simp only at hy1' hy2' hx1 hx2 he1 he2
      rw [correctErrorsOn_of_ok ar har s2 dx2 hs2 hpos hdx2 fuel _ _ _ _ hc hy1 hy2 hy1' hy2' he]
      simp only [bind, Except.bind, har _ hx1 hx2, har _ he1 he2]
      rfl
  · rw [if_neg hp] at h; simp at h

/-- The fields of the loop state stay far inside the 32-bit range when the coordinates lie in
`[-2^28, 2^28]`. -/
theorem stateAt_range (x1 y1 s1 s2 : Int) (dx dy j : Nat) (hdx : 0 < dx) (hj : j ≤ dx + 1)
    (hs1 : s1 = 1 ∨ s1 = -1) (hs2 : s2 = 1 ∨ s2 = -1)
    (hx : -268435456 ≤ x1 ∧ x1 ≤ 268435456) (hy : -268435456 ≤ y1 ∧ y1 ≤ 268435456)
    (hdxb : dx ≤ 536870912) (hdyb : dy ≤ 536870912) :
    (-2147483648 ≤ (stateAt x1 y1 s1 s2 dx dy j).x ∧ (stateAt x1 y1 s1 s2 dx dy j).x ≤ 2147483647)
      ∧ (-2147483648 ≤ (stateAt x1 y1 s1 s2 dx dy j).y
          ∧ (stateAt x1 y1 s1 s2 dx dy j).y ≤ 2147483647)
      ∧ (-2147483648 ≤ (stateAt x1 y1 s1 s2 dx dy j).e
          ∧ (stateAt x1 y1 s1 s2 dx dy j).e ≤ 2147483647) := by
  have hdx2 : (0 : Int) < (dx : Int) + dx := by omega
  obtain ⟨K, hK⟩ : ∃ K : Int, K = (((dy : Int) + dy) * j + dx) / ((dx : Int) + dx) := ⟨_, rfl⟩
  have hdm := Int.ediv_add_emod (((dy : Int) + dy) * j + dx) ((dx : Int) + dx)
  have hm0 := Int.emod_nonneg (((dy : Int) + dy) * j + dx) hdx2.ne.symm
  have hm1 := Int.emod_lt_of_pos (((dy : Int) + dy) * j + dx) hdx2
  rw [← hK] at hdm
  have hdy0 : (0 : Int) ≤ dy := Int.ofNat_nonneg dy
  have hj0 : (0 : Int) ≤ j := Int.ofNat_nonneg j
  have hjb : (j : Int) ≤ dx + 1 := by exact_mod_cast hj
  have hK0 : 0 ≤ K := by
    rw [hK]
    exact Int.ediv_nonneg (by positivity) hdx2.le
  have hKb : K ≤ 2 * dy + 1 := by
    by_contra hcon
    have h1 : 2 * (dy : Int) + 2 ≤ K := by omega
    have h2 : ((dx : Int) + dx) * (2 * (dy : Int) + 2) ≤ ((dx : Int) + dx) * K :=
      mul_le_mul_of_nonneg_left h1 hdx2.le
    have h3 : ((dy : Int) + dy) * j ≤ ((dy : Int) + dy) * (dx + 1) :=
      mul_le_mul_of_nonneg_left hjb (by omega)
    have h4 : (0 : Int) ≤ dy * ((dx : Int) - 1) := mul_nonneg hdy0 (by omega)
    nlinarith
  simp only [stateAt, ← hK]
  refine ⟨?_, ?_, ?_⟩
  · rcases hs1 with h | h <;> subst h <;> constructor <;> omega
  · rcases hs2 with h | h <;> subst h <;> constructor <;> omega
  · constructor
    · have : ((dy : Int) + dy) * (↑j + 1) - ↑dx - (↑dx + ↑dx) * K
          = ((dy : Int) + dy) + (((dy : Int) + dy) * j + dx) % ((dx : Int) + dx)
            - ((dx : Int) + dx) := by linarith
      omega
    · have : ((dy : Int) + dy) * (↑j + 1) - ↑dx - (↑dx + ↑dx) * K
          = ((dy : Int) + dy) + (((dy : Int) + dy) * j + dx) % ((dx : Int) + dx)
            - ((dx : Int) + dx) := by linarith
      omega

theorem forLoopOn_stateAt (ar : Int → Except Trap Int)
    (har : ∀ a : Int, -2147483648 ≤ a → a ≤ 2147483647 → ar a = .ok a)
    (x1 y1 s1 s2 : Int) (dx dy fuel : Nat) (hdx : 0 < dx) (hf : dy < fuel)
    (hs1 : s1 = 1 ∨ s1 = -1) (hs2 : s2 = 1 ∨ s2 = -1)
    (hx : -268435456 ≤ x1 ∧ x1 ≤ 268435456) (hy : -268435456 ≤ y1 ∧ y1 ≤ 268435456)
    (hdxb : dx ≤ 536870912) (hdyb : dy ≤ 536870912) :
    ∀ (m i steps : Nat), i + m = dx + 1 → m < steps →
      forLoopOn ar s1 s2 dx ((dx : Int) + dx) ((dy : Int) + dy) fuel steps i
          (stateAt x1 y1 s1 s2 dx dy i)
        = .ok (stateAt x1 y1 s1 s2 dx dy (dx + 1)) := by
  intro m
  induction m with
  | zero =>
    intro i steps him hs
    obtain ⟨t, rfl⟩ : ∃ t, steps = t + 1 := ⟨steps - 1, by omega⟩
    have hi : i = dx + 1 := by omega
    subst hi
    have : ¬ (((dx + 1 : Nat) : Int) ≤ (dx : Int)) := by push_cast; omega
    simp only [forLoopOn, this, if_false]
  | succ m ih =>
    intro i steps him hs
    obtain ⟨t, rfl⟩ : ∃ t, steps = t + 1 := ⟨steps - 1, by omega⟩
    have hi : (i : Int) ≤ (dx : Int) := by omega
    obtain ⟨_, ⟨a1, a2⟩, ⟨a3, a4⟩⟩ := stateAt_range x1 y1 s1 s2 dx dy i hdx (by omega)
      hs1 hs2 hx hy hdxb hdyb
    obtain ⟨⟨b1, b2⟩, ⟨b3, b4⟩, ⟨b5, b6⟩⟩ := stateAt_range x1 y1 s1 s2 dx dy (i + 1) hdx
      (by omega) hs1 hs2 hx hy hdxb hdyb
    have hbody := loopBodyOn_of_ok ar har s1 s2 ((dx : Int) + dx) ((dy : Int) + dy) hs2
      (by omega) (by omega) fuel _ _
      (loopBody_stateAt x1 y1 s1 s2 dx dy fuel i hdx (by omega) hf)
      a1 a2 b3 b4 a4 b1 b2 b5 b6
    have hnext := ih (i + 1) t (by omega) (by omega)
    push_cast at hnext
    simp only [forLoopOn, hi, if_true, hbody, bind, Except.bind,
      har ((i : Int) + 1) (by omega) (by omega)]
    exact hnext

theorem toSize_of_nonneg (n : Nat) (h : n ≤ 2147483647) : toSize (n : Int) = n := by
  unfold toSize
  omega

/-- On coordinates in `[-2^28, 2^28]`, and with enough fuel, the walk on machine integers gives
the result of the walk on unbounded integers, for every `ar` that leaves the values of the
signed 32-bit range as they are. -/
theorem stretchBresenhamPointsOn_eq (ar : Int → Except Trap Int)
    (har : ∀ a : Int, -2147483648 ≤ a → a ≤ 2147483647 → ar a = .ok a)
    (fuel : Nat) (x1 y1 x2 y2 : Int) (points : List Int)
    (hx1 : -268435456 ≤ x1 ∧ x1 ≤ 268435456) (hy1 : -268435456 ≤ y1 ∧ y1 ≤ 268435456)
    (hx2 : -268435456 ≤ x2 ∧ x2 ≤ 268435456) (hy2 : -268435456 ≤ y2 ∧ y2 ≤ 268435456)
    (hf : enoughFuel x1 y1 x2 y2 ≤ fuel) :
    stretchBresenhamPointsOn ar fuel x1 y1 x2 y2 points
      = .ok (((x2 - x1).natAbs : Int) + 1,
          (List.range ((x2 - x1).natAbs + 1)).map (roundedLine x1 y1 x2 y2)) := by
  have hfun : roundedLine x1 y1 x2 y2 = fun i : Nat =>
      y1 + (if y2 - y1 ≥ 0 then 1 else -1)
          * (((((y2 - y1).natAbs : Int) + (y2 - y1).natAbs) * (i : Int) + (x2 - x1).natAbs)
              / (((x2 - x1).natAbs : Int) + (x2 - x1).natAbs)) :=
    funext (roundedLine_eq x1 y1 x2 y2)
  unfold enoughFuel at hf
  have r1 := har (x2 - x1) (by omega) (by omega)
  have r2 := har (y2 - y1) (by omega) (by omega)
  have r3 := har ((x2 - x1).natAbs : Int) (by omega) (by omega)
  have r4 := har ((y2 - y1).natAbs : Int) (by omega) (by omega)
  have r5 := har (((x2 - x1).natAbs : Int) + 1) (by omega) (by omega)
  have r6 := har (((x2 - x1).natAbs : Int) + (x2 - x1).natAbs) (by omega) (by omega)
  have r7 := har (((y2 - y1).natAbs : Int) + (y2 - y1).natAbs) (by omega) (by omega)
  have r8 := har (((y2 - y1).natAbs : Int) + (y2 - y1).natAbs - (x2 - x1).natAbs)
    (by omega) (by omega)
  have hsize : toSize (((x2 - x1).natAbs : Int) + 1) = (x2 - x1).natAbs + 1 := by
    have := toSize_of_nonneg ((x2 - x1).natAbs + 1) (by omega)
    push_cast at this
    rw [← Int.natCast_natAbs] at this
    exact this
  by_cases hdx : (x2 - x1).natAbs = 0
  · have h0 : roundedLine x1 y1 x2 y2 0 = y1 := by
      rw [roundedLine_eq, hdx]; simp
    have hrange : List.range 1 = [0] := rfl
    have r9 := har (1 : Int) (by omega) (by omega)
    unfold stretchBresenhamPointsOn
    simp only [bind, Except.bind, r1, r2, r3, r4, r5, hsize]
    simp only [hdx, clear, resize, List.take_nil, List.length_nil,
      List.nil_append, Nat.cast_zero, zero_add, Nat.sub_zero, List.replicate_one,
      if_true, List.length_singleton, Nat.lt_one_iff, List.set_cons_zero, Nat.cast_one, hrange,
      List.map_cons, List.map_nil, h0, List.length_cons, pos_of_gt, Nat.lt_add_one, r9]
    rfl
  · have hdx' : ¬ (((x2 - x1).natAbs : Int) = 0) := by omega
    have hloop := forLoopOn_stateAt ar har x1 y1 (if x2 - x1 ≥ 0 then 1 else -1)
      (if y2 - y1 ≥ 0 then 1 else -1) (x2 - x1).natAbs (y2 - y1).natAbs fuel (by omega)
      (by omega) (by split <;> simp) (by split <;> simp) hx1 hy1 (by omega) (by omega)
      ((x2 - x1).natAbs + 1) 0 fuel (by omega) (by omega)
    rw [stateAt_zero _ _ _ _ _ _ (by omega)] at hloop
    simp only [Nat.cast_zero] at hloop
    have hlen : (stateAt x1 y1 (if x2 - x1 ≥ 0 then 1 else -1) (if y2 - y1 ≥ 0 then 1 else -1)
        (x2 - x1).natAbs (y2 - y1).natAbs ((x2 - x1).natAbs + 1)).points.length
          = (x2 - x1).natAbs + 1 := by
      simp [stateAt]
    have r9 := har (((x2 - x1).natAbs + 1 : Nat) : Int) (by omega) (by omega)
    unfold stretchBresenhamPointsOn
    simp only [bind, Except.bind, r1, r2, r3, r4, r5, hsize]
    simp only [clear, resize, List.take_nil, List.length_nil, List.nil_append, Nat.sub_zero,
      if_neg hdx', r6, r7, r8, hloop, hlen, r9]
    rw [hfun]
    simp [stateAt, pure, Except.pure]

theorem int32Checked_of_range (a : Int) (h1 : -2147483648 ≤ a) (h2 : a ≤ 2147483647) :
    int32Checked a = .ok a := by
  unfold int32Checked
  rw [if_pos ⟨h1, h2⟩]

theorem int32Wrapped_of_range (a : Int) (h1 : -2147483648 ≤ a) (h2 : a ≤ 2147483647) :
    int32Wrapped a = .ok a := by
  unfold int32Wrapped
  have : (a + 2147483648) % 4294967296 - 2147483648 = a := by omega
  rw [this]

/-- The check of `int32Checked` is a real one: a difference of `2^31` is trapped. -/
theorem stretchBresenhamPointsOn_checked_traps :
    stretchBresenhamPointsOn int32Checked 5 (-2147483647) 0 1 0 [] = .error .overflow := by
  decide

/-! ## `getRanges` and `decimatePoints` on machine integers -/

theorem getRangesOn_eq (ar : Int → Except Trap Int)
    (har : ∀ a : Int, -2147483648 ≤ a → a ≤ 2147483647 → ar a = .ok a)
    (fuel : Nat) (n numthreads : Int) (ranges : List Int)
    (hn : -268435456 ≤ n ∧ n ≤ 268435456)
    (hk : -268435456 ≤ numthreads ∧ numthreads ≤ 268435456)
    (hf : enoughFuel 0 0 numthreads n ≤ fuel) :
    getRangesOn ar fuel n numthreads ranges
      = .ok ((List.range ((numthreads - 0).natAbs + 1)).map (roundedLine 0 0 numthreads n)) := by
  unfold getRangesOn
  simp only [stretchBresenhamPointsOn_eq ar har fuel 0 0 numthreads n (clear ranges)
    (by omega) (by omega) hk hn hf, bind, Except.bind]
  rfl

theorem gatherPointsOn_eq (ar : Int → Except Trap Int)
    (har : ∀ a : Int, -2147483648 ≤ a → a ≤ 2147483647 → ar a = .ok a)
    {T : Type} (S : List T) (d : T) :
    ∀ (ranges : List Int) (i n : Int) (acc : List T),
      (∀ r ∈ ranges, 0 ≤ r ∧ r < (S.length : Int)) →
      0 ≤ i → i + ranges.length = n → n ≤ 2147483647 →
      gatherPointsOn ar S ranges i n acc
        = .ok (acc ++ ranges.map (fun r => S.getD r.toNat d)) := by
  intro ranges
  induction ranges with
  | nil =>
    intro i n acc _ _ hin _
    have : ¬ i < n := by simp at hin; omega
    simp [gatherPointsOn, this]
  | cons r rs ih =>
    intro i n acc h hi hin hn
    have hr := h r (List.mem_cons_self r rs)
    have hlt : r.toNat < S.length := by omega
    have hget : S.get? r.toNat = some (S.getD r.toNat d) := by
      rw [List.get?_eq_getElem?, List.getD_eq_getElem?_getD, List.getElem?_eq_getElem hlt]
      rfl
    have hlen : ((r :: rs).length : Int) = (rs.length : Int) + 1 := by simp
    have hlt' : i < n := by omega
    simp only [gatherPointsOn, hlt', hr.1, if_true, hget, bind, Except.bind,
      har (i + 1) (by omega) (by omega)]
    rw [ih (i + 1) n (acc ++ [S.getD r.toNat d])
      (fun r' hr' => h r' (List.mem_cons_of_mem r hr')) (by omega) (by omega) hn]
    simp

theorem gatherPointsOn_decimate (ar : Int → Except Trap Int)
    (har : ∀ a : Int, -2147483648 ≤ a → a ≤ 2147483647 → ar a = .ok a)
    {T : Type} (S : List T) (numpoints : Int) (d : T) (hS : S ≠ [])
    (hnp : (numpoints - 1 - 0).natAbs ≤ 268435456) :
    gatherPointsOn ar S ((List.range ((numpoints - 1 - 0).natAbs + 1)).map
        (roundedLine 0 0 (numpoints - 1) ((S.length : Int) - 1))) 0
        ((((List.range ((numpoints - 1 - 0).natAbs + 1)).map
          (roundedLine 0 0 (numpoints - 1) ((S.length : Int) - 1))).length : Nat) : Int) []
      = .ok (resampled S numpoints d) := by
  have hlen : 0 < S.length := List.length_pos.2 hS
  rw [gatherPointsOn_eq ar har S d _ 0 _ []]
  · simp [resampled, List.map_map, Function.comp_def]
  · intro r hr
    rw [List.mem_map] at hr
    obtain ⟨i, hi, rfl⟩ := hr
    rw [List.mem_range] at hi
    exact decimate_index_bounds S.length numpoints hlen i (by omega)
  · exact le_refl _
  · simp
  · rw [length_map_range]
    omega

theorem resampled_head? {T : Type} (S : List T) (numpoints : Int) (d : T) :
    (resampled S numpoints d).head? = some (S.getD 0 d) := by
  rw [resampled, head?_map_range]
  simp only [roundedLine_zero, Int.toNat_zero]

theorem resampled_getLast? {T : Type} (S : List T) (numpoints : Int) (d : T)
    (hn : numpoints ≠ 1 ∨ S.length = 1) :
    (resampled S numpoints d).getLast? = some (S.getD (S.length - 1) d) := by
  rw [resampled, getLast?_map_range]
  by_cases h1 : numpoints = 1
  · rcases hn with h | h
    · exact absurd h1 h
    · subst h1
      simp only [sub_self, Int.natAbs_zero, roundedLine_zero, Int.toNat_zero, h]
  · rw [roundedLine_last 0 0 (numpoints - 1) ((S.length : Int) - 1) (by omega)]
    congr 2
    omega

/-- On a non-empty vector of at most `2^28 + 1` elements and a target length `numpoints` with
`|numpoints - 1| ≤ 2^28`, and with enough fuel, `decimatePoints` on machine integers ends
normally with the closed form `resampled`, provided the first and the last element of the
vector compare equal to themselves under the `operator==` of the element type, and the target
length is not `1` unless the vector has one element. -/
theorem decimatePointsOn_eq (ar : Int → Except Trap Int)
    (har : ∀ a : Int, -2147483648 ≤ a → a ≤ 2147483647 → ar a = .ok a)
    {T : Type} (eq : T → T → Bool) (fuel : Nat) (S : List T) (numpoints : Int) (d : T)
    (hS : S ≠ []) (hlen : (S.length : Int) - 1 ≤ 268435456)
    (hnp : -268435456 ≤ numpoints - 1 ∧ numpoints - 1 ≤ 268435456)
    (hf : enoughFuel 0 0 (numpoints - 1) ((S.length : Int) - 1) ≤ fuel)
    (hn : numpoints ≠ 1 ∨ S.length = 1)
    (hfront : eq (S.getD 0 d) (S.getD 0 d) = true)
    (hback : eq (S.getD (S.length - 1) d) (S.getD (S.length - 1) d) = true) :
    decimatePointsOn ar eq fuel S numpoints = .ok (resampled S numpoints d) := by
  have hpos : 0 < S.length := List.length_pos.2 hS
  have r1 := har (numpoints - 1) (by omega) (by omega)
  have r2 := har (S.length : Int) (by omega) (by omega)
  have r3 := har ((S.length : Int) - 1) (by omega) (by omega)
  have hw := stretchBresenhamPointsOn_eq ar har fuel 0 0 (numpoints - 1) ((S.length : Int) - 1)
    [] (by omega) (by omega) hnp (by omega) hf
  have r4 := har ((((List.range ((numpoints - 1 - 0).natAbs + 1)).map
      (roundedLine 0 0 (numpoints - 1) ((S.length : Int) - 1))).length : Nat) : Int)
    (by omega) (by rw [length_map_range]; omega)
  have hg := gatherPointsOn_decimate ar har S numpoints d hS (by omega)
  unfold decimatePointsOn
  simp only [bind, Except.bind, r1, r2, r3, hw, r4, hg, resampled_head?,
    resampled_getLast? S numpoints d hn, head?_eq_getD S d hS, getLast?_eq_getD S d hS,
    hfront, hback, if_true]

/-- A value that `decimatePoints` on machine integers returns is the closed form `resampled`. -/
theorem decimatePointsOn_ok_eq (ar : Int → Except Trap Int)
    (har : ∀ a : Int, -2147483648 ≤ a → a ≤ 2147483647 → ar a = .ok a)
    {T : Type} (eq : T → T → Bool) (fuel : Nat) (S out : List T) (numpoints : Int) (d : T)
    (hS : S ≠ []) (hlen : (S.length : Int) - 1 ≤ 268435456)
    (hnp : -268435456 ≤ numpoints - 1 ∧ numpoints - 1 ≤ 268435456)
    (hf : enoughFuel 0 0 (numpoints - 1) ((S.length : Int) - 1) ≤ fuel)
    (h : decimatePointsOn ar eq fuel S numpoints = .ok out) :
    out = resampled S numpoints d := by
  have hpos : 0 < S.length := List.length_pos.2 hS
  have r1 := har (numpoints - 1) (by omega) (by omega)
  have r2 := har (S.length : Int) (by omega) (by omega)
  have r3 := har ((S.length : Int) - 1) (by omega) (by omega)
  have hw := stretchBresenhamPointsOn_eq ar har fuel 0 0 (numpoints - 1) ((S.length : Int) - 1)
    [] (by omega) (by omega) hnp (by omega) hf
  have r4 := har ((((List.range ((numpoints - 1 - 0).natAbs + 1)).map
      (roundedLine 0 0 (numpoints - 1) ((S.length : Int) - 1))).length : Nat) : Int)
    (by omega) (by rw [length_map_range]; omega)
  have hg := gatherPointsOn_decimate ar har S numpoints d hS (by omega)
  unfold decimatePointsOn at h
  simp only [bind, Except.bind, r1, r2, r3, hw, r4, hg] at h
  split at h
  · split at h
    · split at h
      · exact (Except.ok.inj h).symm
      · exact Except.noConfusion h
    · exact Except.noConfusion h
  · exact Except.noConfusion h

/-! ## The records of the passes on machine integers -/

theorem correctErrors_of_counted (s2 dx2 : Int) (fuel : Nat) (y e y' e' : Int) (k : Nat)
    (h : correctErrorsCounted s2 dx2 fuel y e = .ok (y', e', k)) :
    correctErrors s2 dx2 fuel y e = .ok (y', e') := by
  rw [← correctErrorsCounted_erase, h]
  rfl

theorem correctErrorsCountedOn_of_ok (ar : Int → Except Trap Int)
    (har : ∀ a : Int, -2147483648 ≤ a → a ≤ 2147483647 → ar a = .ok a)
    (s2 dx2 : Int) (hs2 : s2 = 1 ∨ s2 = -1) (hpos : 0 < dx2) (hdx2 : dx2 ≤ 2147483648) :
    ∀ (fuel : Nat) (y e y' e' : Int) (k : Nat),
      correctErrorsCounted s2 dx2 fuel y e = .ok (y', e', k) →
      -2147483648 ≤ y → y ≤ 2147483647 → -2147483648 ≤ y' → y' ≤ 2147483647 →
      e ≤ 2147483647 →
      correctErrorsCountedOn ar s2 dx2 fuel y e = .ok (y', e', k) := by
  intro fuel
  induction fuel with
  | zero => intro y e y' e' k h; simp [correctErrorsCounted] at h
  | succ f ih =>
    intro y e y' e' k h hy1 hy2 hy1' hy2' he2
    by_cases he : e ≥ 0
    · simp only [correctErrorsCounted, he, if_true] at h
      cases hc : correctErrorsCounted s2 dx2 f (y + s2) (e - dx2) with
      | error g => rw [hc] at h; exact Except.noConfusion h
      | ok r =>
        obtain ⟨a, b, c⟩ := r
        rw [hc] at h
        have h' := Except.ok.inj h
        simp only [Prod.mk.injEq] at h'
        obtain ⟨ha, hb, hcc⟩ := h'
        subst ha hb hcc
        obtain ⟨j, hj1, _⟩ := correctErrors_ok_form s2 dx2 f _ _ _ _
          (correctErrors_of_counted s2 dx2 f _ _ _ _ _ hc)
        have hj0 : (0 : Int) ≤ j := Int.ofNat_nonneg j
        have hyr : -2147483648 ≤ y + s2 ∧ y + s2 ≤ 2147483647 := by
          rcases hs2 with hs | hs <;> subst hs <;> constructor <;> omega
        have her : -2147483648 ≤ e - dx2 ∧ e - dx2 ≤ 2147483647 := by
          constructor <;> omega
        simp only [correctErrorsCountedOn, he, if_true, har _ hyr.1 hyr.2, har _ her.1 her.2,
          bind, Except.bind, ih _ _ _ _ _ hc hyr.1 hyr.2 hy1' hy2' her.2]
        rfl
    · simp only [correctErrorsCounted, he, if_false] at h
      simp only [correctErrorsCountedOn, he, if_false]
      rw [Except.ok.inj h]

theorem loopBodyLoggedOn_of_ok (ar : Int → Except Trap Int)
    (har : ∀ a : Int, -2147483648 ≤ a → a ≤ 2147483647 → ar a = .ok a)
    (s1 s2 dx2 dy2 : Int) (hs2 : s2 = 1 ∨ s2 = -1) (hpos : 0 < dx2) (hdx2 : dx2 ≤ 2147483648)
    (fuel : Nat) (st st' : LoopState) (r : PassLog)
    (h : loopBodyLogged s1 s2 dx2 dy2 fuel st = .ok (st', r))
    (hy1 : -2147483648 ≤ st.y) (hy2 : st.y ≤ 2147483647)
    (hy1' : -2147483648 ≤ st'.y) (hy2' : st'.y ≤ 2147483647)
    (he : st.e ≤ 2147483647)
    (hx1 : -2147483648 ≤ st'.x) (hx2 : st'.x ≤ 2147483647)
    (he1 : -2147483648 ≤ st'.e) (he2 : st'.e ≤ 2147483647) :
    loopBodyLoggedOn ar s1 s2 dx2 dy2 fuel st = .ok (st', r) := by
  unfold loopBodyLogged at h
  unfold loopBodyLoggedOn
  by_cases hp : st.p < st.points.length
  · rw [if_pos hp] at h ⊢
    cases hc : correctErrorsCounted s2 dx2 fuel st.y st.e with
    | error f => rw [hc] at h; simp at h
    | ok q =>
      obtain ⟨y', e', k⟩ := q
      rw [hc] at h
      have h' := Except.ok.inj h
      simp only [Prod.mk.injEq] at h'
      obtain ⟨hst, hr⟩ := h'
      subst hst hr
      simp only at hy1' hy2' hx1 hx2 he1 he2
      rw [correctErrorsCountedOn_of_ok ar har s2 dx2 hs2 hpos hdx2 fuel _ _ _ _ _ hc hy1 hy2
        hy1' hy2' he]
      simp only [bind, Except.bind, har _ hx1 hx2, har _ he1 he2]
      rfl
  · rw [if_neg hp] at h; simp at h

theorem forLoopLoggedOn_stateAt (ar : Int → Except Trap Int)
    (har : ∀ a : Int, -2147483648 ≤ a → a ≤ 2147483647 → ar a = .ok a)
    (x1 y1 s1 s2 : Int) (dx dy fuel : Nat) (hdx : 0 < dx) (hf : dy < fuel)
    (hs1 : s1 = 1 ∨ s1 = -1) (hs2 : s2 = 1 ∨ s2 = -1)
    (hx : -268435456 ≤ x1 ∧ x1 ≤ 268435456) (hy : -268435456 ≤ y1 ∧ y1 ≤ 268435456)
    (hdxb : dx ≤ 536870912) (hdyb : dy ≤ 536870912) :
    ∀ (m i steps : Nat), i + m = dx + 1 → m < steps →
      ∃ log : List PassLog,
        forLoopLoggedOn ar s1 s2 dx ((dx : Int) + dx) ((dy : Int) + dy) fuel steps i
            (stateAt x1 y1 s1 s2 dx dy i)
          = .ok (stateAt x1 y1 s1 s2 dx dy (dx + 1), log)
        ∧ log.length = m
        ∧ ∀ r ∈ log, -((dx : Int) + dx) ≤ r.e ∧ r.e ≤ -1
            ∧ ((dx : Int) + dx) * r.firings < ((dy : Int) + dy) + ((dx : Int) + dx) := by
  intro m
  induction m with
  | zero =>
    intro i steps him hs
    obtain ⟨t, rfl⟩ : ∃ t, steps = t + 1 := ⟨steps - 1, by omega⟩
    have hi : i = dx + 1 := by omega
    subst hi
    have : ¬ (((dx + 1 : Nat) : Int) ≤ (dx : Int)) := by push_cast; omega
    refine ⟨[], ?_, rfl, ?_⟩
    · simp only [forLoopLoggedOn, this, if_false]
    · intro r hr; simp at hr
  | succ m ih =>
    intro i steps him hs
    obtain ⟨t, rfl⟩ : ∃ t, steps = t + 1 := ⟨steps - 1, by omega⟩
    have hi : (i : Int) ≤ (dx : Int) := by omega
    obtain ⟨r, hr, hre, hrk⟩ := loopBodyLogged_of_ok _ _ _ _ _ _ _
      (loopBody_stateAt x1 y1 s1 s2 dx dy fuel i hdx (by omega) hf)
    obtain ⟨_, ⟨a1, a2⟩, ⟨a3, a4⟩⟩ := stateAt_range x1 y1 s1 s2 dx dy i hdx (by omega)
      hs1 hs2 hx hy hdxb hdyb
    obtain ⟨⟨b1, b2⟩, ⟨b3, b4⟩, ⟨b5, b6⟩⟩ := stateAt_range x1 y1 s1 s2 dx dy (i + 1) hdx
      (by omega) hs1 hs2 hx hy hdxb hdyb
    have hbody := loopBodyLoggedOn_of_ok ar har s1 s2 ((dx : Int) + dx) ((dy : Int) + dy) hs2
      (by omega) (by omega) fuel _ _ _ hr a1 a2 b3 b4 a4 b1 b2 b5 b6
    obtain ⟨log, hlog, hlen, hall⟩ := ih (i + 1) t (by omega) (by omega)
    obtain ⟨c1, c2, c3⟩ := stateAt_e_bounds x1 y1 s1 s2 dx dy i hdx
    push_cast at hlog
    refine ⟨r :: log, ?_, by simp [hlen], ?_⟩
    · simp only [forLoopLoggedOn, hi, if_true, hbody, bind, Except.bind,
        har ((i : Int) + 1) (by omega) (by omega), hlog]
      rfl
    · intro r' hr'
      rcases List.mem_cons.1 hr' with h | h
      · subst h
        rw [← hre] at c1 c2
        exact ⟨c1, c2, by linarith⟩
      · exact hall r' h

/-- On coordinates in `[-2^28, 2^28]`, and with enough fuel, the logged walk on machine integers
ends normally with the rounded line; its `for` loop makes no pass when `x1 = x2` and
`|x2 - x1| + 1` passes otherwise, and in every pass the correction loop runs at most `|y2 - y1|`
times (at most once when `|y2 - y1| ≤ |x2 - x1|`) and leaves `-2 * dx ≤ e ≤ -1`. -/
theorem stretchBresenhamPointsLoggedOn_eq (ar : Int → Except Trap Int)
    (har : ∀ a : Int, -2147483648 ≤ a → a ≤ 2147483647 → ar a = .ok a)
    (fuel : Nat) (x1 y1 x2 y2 : Int) (points : List Int)
    (hx1 : -268435456 ≤ x1 ∧ x1 ≤ 268435456) (hy1 : -268435456 ≤ y1 ∧ y1 ≤ 268435456)
    (hx2 : -268435456 ≤ x2 ∧ x2 ≤ 268435456) (hy2 : -268435456 ≤ y2 ∧ y2 ≤ 268435456)
    (hf : enoughFuel x1 y1 x2 y2 ≤ fuel) :
    ∃ log : List PassLog,
      stretchBresenhamPointsLoggedOn ar fuel x1 y1 x2 y2 points
        = .ok ((((x2 - x1).natAbs : Int) + 1,
            (List.range ((x2 - x1).natAbs + 1)).map (roundedLine x1 y1 x2 y2)), log)
      ∧ (x1 = x2 → log = [])
      ∧ (x1 ≠ x2 → log.length = (x2 - x1).natAbs + 1)
      ∧ ∀ r ∈ log, -(2 * ((x2 - x1).natAbs : Int)) ≤ r.e ∧ r.e ≤ -1
          ∧ r.firings ≤ (y2 - y1).natAbs
          ∧ ((y2 - y1).natAbs ≤ (x2 - x1).natAbs → r.firings ≤ 1) := by
  have hfun : roundedLine x1 y1 x2 y2 = fun i : Nat =>
      y1 + (if y2 - y1 ≥ 0 then 1 else -1)
          * (((((y2 - y1).natAbs : Int) + (y2 - y1).natAbs) * (i : Int) + (x2 - x1).natAbs)
              / (((x2 - x1).natAbs : Int) + (x2 - x1).natAbs)) :=
    funext (roundedLine_eq x1 y1 x2 y2)
  unfold enoughFuel at hf
  have r1 := har (x2 - x1) (by omega) (by omega)
  have r2 := har (y2 - y1) (by omega) (by omega)
  have r3 := har ((x2 - x1).natAbs : Int) (by omega) (by omega)
  have r4 := har ((y2 - y1).natAbs : Int) (by omega) (by omega)
  have r5 := har (((x2 - x1).natAbs : Int) + 1) (by omega) (by omega)
  have r6 := har (((x2 - x1).natAbs : Int) + (x2 - x1).natAbs) (by omega) (by omega)
  have r7 := har (((y2 - y1).natAbs : Int) + (y2 - y1).natAbs) (by omega) (by omega)
  have r8 := har (((y2 - y1).natAbs : Int) + (y2 - y1).natAbs - (x2 - x1).natAbs)
    (by omega) (by omega)
  have hsize : toSize (((x2 - x1).natAbs : Int) + 1) = (x2 - x1).natAbs + 1 := by
    have := toSize_of_nonneg ((x2 - x1).natAbs + 1) (by omega)
    push_cast at this
    rw [← Int.natCast_natAbs] at this
    exact this
  by_cases hdx : (x2 - x1).natAbs = 0
  · refine ⟨[], ?_, fun _ => rfl, fun h => absurd hdx (by omega), fun r hr => by simp at hr⟩
    have h0 : roundedLine x1 y1 x2 y2 0 = y1 := by
      rw [roundedLine_eq, hdx]; simp
    have hrange : List.range 1 = [0] := rfl
    have r9 := har (1 : Int) (by omega) (by omega)
    unfold stretchBresenhamPointsLoggedOn
    simp only [bind, Except.bind, r1, r2, r3, r4, r5, hsize]
    simp only [hdx, clear, resize, List.take_nil, List.length_nil,
      List.nil_append, Nat.cast_zero, zero_add, Nat.sub_zero, List.replicate_one,
      if_true, List.length_singleton, Nat.lt_one_iff, List.set_cons_zero, Nat.cast_one, hrange,
      List.map_cons, List.map_nil, h0, List.length_cons, pos_of_gt, Nat.lt_add_one, r9]
    rfl
  · have hdx' : ¬ (((x2 - x1).natAbs : Int) = 0) := by omega
    obtain ⟨log, hlog, hlen, hall⟩ := forLoopLoggedOn_stateAt ar har x1 y1
      (if x2 - x1 ≥ 0 then 1 else -1)
      (if y2 - y1 ≥ 0 then 1 else -1) (x2 - x1).natAbs (y2 - y1).natAbs fuel (by omega)
      (by omega) (by split <;> simp) (by split <;> simp) hx1 hy1 (by omega) (by omega)
      ((x2 - x1).natAbs + 1) 0 fuel (by omega) (by omega)
    rw [stateAt_zero _ _ _ _ _ _ (by omega)] at hlog
    simp only [Nat.cast_zero] at hlog
    have hlen' : (stateAt x1 y1 (if x2 - x1 ≥ 0 then 1 else -1) (if y2 - y1 ≥ 0 then 1 else -1)
        (x2 - x1).natAbs (y2 - y1).natAbs ((x2 - x1).natAbs + 1)).points.length
          = (x2 - x1).natAbs + 1 := by
      simp [stateAt]
    have r9 := har (((x2 - x1).natAbs + 1 : Nat) : Int) (by omega) (by omega)
    refine ⟨log, ?_, fun h => absurd h (by omega), fun _ => hlen, ?_⟩
    · unfold stretchBresenhamPointsLoggedOn
      simp only [bind, Except.bind, r1, r2, r3, r4, r5, hsize]
      simp only [clear, resize, List.take_nil, List.length_nil, List.nil_append, Nat.sub_zero,
        if_neg hdx', r6, r7, r8, hlog, hlen', r9]
      rw [hfun]
      simp [stateAt, pure, Except.pure]
    · intro r hr
      obtain ⟨h1, h2, h3⟩ := hall r hr
      have hD : (1 : Int) ≤ ((x2 - x1).natAbs : Int) := by omega
      have hE : (0 : Int) ≤ ((y2 - y1).natAbs : Int) := Int.ofNat_nonneg _
      refine ⟨by linarith, h2, ?_, ?_⟩
      · by_contra hcon
        have h4 : ((y2 - y1).natAbs : Int) + 1 ≤ (r.firings : Int) := by omega
        have h5 := mul_le_mul_of_nonneg_left h4
          (by omega : (0 : Int) ≤ ((x2 - x1).natAbs : Int) + (x2 - x1).natAbs)
        have h6 : (0 : Int) ≤ (((x2 - x1).natAbs : Int) - 1) * (y2 - y1).natAbs :=
          mul_nonneg (sub_nonneg.2 hD) hE
        linarith
      · intro hle
        by_contra hcon
        have h4 : (2 : Int) ≤ (r.firings : Int) := by omega
        have h5 := mul_le_mul_of_nonneg_left h4
          (by omega : (0 : Int) ≤ ((x2 - x1).natAbs : Int) + (x2 - x1).natAbs)
        have h7 : ((y2 - y1).natAbs : Int) ≤ ((x2 - x1).natAbs : Int) := by exact_mod_cast hle
        linarith

/-! ## The logged walk on machine integers is the walk on machine integers -/

theorem correctErrorsCountedOn_erase (ar : Int → Except Trap Int) (s2 dx2 : Int) :
    ∀ (fuel : Nat) (y e : Int),
      (correctErrorsCountedOn ar s2 dx2 fuel y e).map (fun r => (r.1, r.2.1))
        = correctErrorsOn ar s2 dx2 fuel y e := by
  intro fuel
  induction fuel with
  | zero => intro y e; rfl
  | succ f ih =>
    intro y e
    by_cases he : e ≥ 0
    · simp only [correctErrorsCountedOn, correctErrorsOn, he, if_true]
      cases ar (y + s2) with
      | error t => rfl
      | ok y' =>
        cases ar (e - dx2) with
        | error t => rfl
        | ok e' =>
          simp only [bind, Except.bind]
          rw [← ih y' e']
          cases correctErrorsCountedOn ar s2 dx2 f y' e' with
          | error t => rfl
          | ok r => rfl
    · simp only [correctErrorsCountedOn, correctErrorsOn, he, if_false]
      rfl

theorem loopBodyLoggedOn_erase (ar : Int → Except Trap Int) (s1 s2 dx2 dy2 : Int) (fuel : Nat)
    (st : LoopState) :
    (loopBodyLoggedOn ar s1 s2 dx2 dy2 fuel st).map Prod.fst
      = loopBodyOn ar s1 s2 dx2 dy2 fuel st := by
  unfold loopBodyLoggedOn loopBodyOn
  by_cases hp : st.p < st.points.length
  · rw [if_pos hp, if_pos hp, ← correctErrorsCountedOn_erase ar s2 dx2 fuel st.y st.e]
    cases correctErrorsCountedOn ar s2 dx2 fuel st.y st.e with
    | error t => rfl
    | ok r =>
      simp only [bind, Except.bind, Except.map]
      cases ar (st.x + s1) with
      | error t => rfl
      | ok x =>
        simp only
        cases ar (r.2.1 + dy2) with
        | error t => rfl
        | ok e => rfl
  · rw [if_neg hp, if_neg hp]
    rfl

theorem forLoopLoggedOn_erase (ar : Int → Except Trap Int) (s1 s2 dx dx2 dy2 : Int)
    (fuel : Nat) :
    ∀ (steps : Nat) (i : Int) (st : LoopState),
      (forLoopLoggedOn ar s1 s2 dx dx2 dy2 fuel steps i st).map Prod.fst
        = forLoopOn ar s1 s2 dx dx2 dy2 fuel steps i st := by
  intro steps
  induction steps with
  | zero => intro i st; rfl
  | succ t ih =>
    intro i st
    by_cases hi : i ≤ dx
    · simp only [forLoopLoggedOn, forLoopOn, hi, if_true]
      rw [← loopBodyLoggedOn_erase ar s1 s2 dx2 dy2 fuel st]
      cases loopBodyLoggedOn ar s1 s2 dx2 dy2 fuel st with
      | error t => rfl
      | ok r =>
        simp only [bind, Except.bind, Except.map]
        cases ar (i + 1) with
        | error t => rfl
        | ok i' =>
          simp only
          rw [← ih i' r.1]
          cases forLoopLoggedOn ar s1 s2 dx dx2 dy2 fuel t i' r.1 with
          | error t => rfl
          | ok r' => rfl
    · simp only [forLoopLoggedOn, forLoopOn, hi, if_false]
      rfl

/-- Forgetting the records of `stretchBresenhamPointsLoggedOn` gives `stretchBresenhamPointsOn`,
for every `ar`, every input and every budget. -/
theorem stretchBresenhamPointsLoggedOn_erase (ar : Int → Except Trap Int) (fuel : Nat)
    (x1 y1 x2 y2 : Int) (points : List Int) :
    (stretchBresenhamPointsLoggedOn ar fuel x1 y1 x2 y2 points).map Prod.fst
      = stretchBresenhamPointsOn ar fuel x1 y1 x2 y2 points := by
  unfold stretchBresenhamPointsLoggedOn stretchBresenhamPointsOn
  cases ar (x2 - x1) with
  | error t => rfl
  | ok dx0 =>
    cases ar (y2 - y1) with
    | error t => rfl
    | ok dy0 =>
      simp only [bind, Except.bind]
      cases ar (dx0.natAbs : Int) with
      | error t => rfl
      | ok dx =>
        cases ar (dy0.natAbs : Int) with
        | error t => rfl
        | ok dy =>
          simp only
          cases ar (dx + 1) with
          | error t => rfl
          | ok size =>
            simp only
            by_cases hdx : dx = 0
            · simp only [hdx, if_true]
              split
              · cases ar (((resize (clear points) (toSize size)).set 0 y1).length : Int) with
                | error t => rfl
                | ok n => rfl
              · rfl
            · simp only [hdx, if_false]
              cases ar (dx + dx) with
              | error t => rfl
              | ok dx2 =>
                cases ar (dy + dy) with
                | error t => rfl
                | ok dy2 =>
                  simp only
                  cases ar (dy2 - dx) with
                  | error t => rfl
                  | ok e =>
                    simp only
                    rw [← forLoopLoggedOn_erase]
                    cases forLoopLoggedOn ar (if dx0 ≥ 0 then 1 else -1)
                        (if dy0 ≥ 0 then 1 else -1) dx dx2 dy2 fuel fuel 0
                        { points := resize (clear points) (toSize size), p := 0, x := x1,
                          y := y1, e := e } with
                    | error t => rfl
                    | ok r =>
                      simp only [Except.map]
                      cases ar (r.1.points.length : Int) with
                      | error t => rfl
                      | ok n => rfl

/-! ## A walk on which `dx + dx` wraps around -/

theorem forLoopOn_chain (ar : Int → Except Trap Int) (s1 s2 dx2 dy2 : Int) (dx fuel : Nat)
    (st : Nat → LoopState)
    (hstep : ∀ i : Nat, i ≤ dx → loopBodyOn ar s1 s2 dx2 dy2 fuel (st i) = .ok (st (i + 1)))
    (hctr : ∀ i : Nat, i ≤ dx → ar ((i : Int) + 1) = .ok ((i : Int) + 1)) :
    ∀ (m i steps : Nat), i + m = dx + 1 → m < steps →
      forLoopOn ar s1 s2 dx dx2 dy2 fuel steps i (st i) = .ok (st (dx + 1)) := by
  intro m
  induction m with
  | zero =>
    intro i steps him hs
    obtain ⟨t, rfl⟩ : ∃ t, steps = t + 1 := ⟨steps - 1, by omega⟩
    have hi : i = dx + 1 := by omega
    subst hi
    have : ¬ (((dx + 1 : Nat) : Int) ≤ (dx : Int)) := by push_cast; omega
    simp only [forLoopOn, this, if_false]
  | succ m ih =>
    intro i steps him hs
    obtain ⟨t, rfl⟩ : ∃ t, steps = t + 1 := ⟨steps - 1, by omega⟩
    have hi : (i : Int) ≤ (dx : Int) := by omega
    have hnext := ih (i + 1) t (by omega) (by omega)
    push_cast at hnext
    simp only [forLoopOn, hi, if_true, hstep i (by omega), bind, Except.bind,
      hctr i (by omega)]
    exact hnext

/-- The walk on machine integers, read off from the values of its `int` operations before the
`for` loop and from the state in which the `for` loop ends. -/
theorem stretchBresenhamPointsOn_of_forLoop (ar : Int → Except Trap Int) (fuel : Nat)
    (x1 y1 x2 y2 : Int) (points : List Int) (dx0 dy0 dx dy size dx2 dy2 e n : Int)
    (st : LoopState)
    (h1 : ar (x2 - x1) = .ok dx0) (h2 : ar (y2 - y1) = .ok dy0)
    (h3 : ar (dx0.natAbs : Int) = .ok dx) (h4 : ar (dy0.natAbs : Int) = .ok dy)
    (h5 : ar (dx + 1) = .ok size) (hdx : dx ≠ 0)
    (h6 : ar (dx + dx) = .ok dx2) (h7 : ar (dy + dy) = .ok dy2) (h8 : ar (dy2 - dx) = .ok e)
    (hloop : forLoopOn ar (if dx0 ≥ 0 then 1 else -1) (if dy0 ≥ 0 then 1 else -1) dx dx2 dy2
        fuel fuel 0 { points := resize [] (toSize size), p := 0, x := x1, y := y1, e := e }
      = .ok st)
    (h9 : ar (st.points.length : Int) = .ok n) :
    stretchBresenhamPointsOn ar fuel x1 y1 x2 y2 points = .ok (n, st.points) := by
  unfold stretchBresenhamPointsOn
  simp only [bind, Except.bind, h1, h2, h3, h4, h5, clear, if_neg hdx, h6, h7, h8, hloop, h9]
  rfl

theorem wrapped_cases (i : Nat) (hi : i ≤ 1073741825) :
    (0 ≤ wrappedIndex i ∧ wrappedIndex i ≤ 1073741824) ∧
    ((wrappedError i < 0 ∧ wrappedIndex (i + 1) = wrappedIndex i
        ∧ wrappedError (i + 1) = wrappedError i + 4)
      ∨ (wrappedError i = 3 ∧ wrappedIndex (i + 1) = wrappedIndex i + 1
        ∧ wrappedError (i + 1) = -2147483647 + 4)
      ∨ (wrappedError i = 1 ∧ wrappedIndex (i + 1) = wrappedIndex i + 2
        ∧ wrappedError (i + 1) = -3 + 4)) := by
  unfold wrappedIndex wrappedError
  push_cast
  split_ifs <;> omega

theorem correctErrorsOn_wrapped_zero (fuel : Nat) (y e : Int) (he : e < 0) :
    correctErrorsOn int32Wrapped 1 (-2147483646) (fuel + 1) y e = .ok (y, e) := by
  have : ¬ e ≥ 0 := by omega
  simp only [correctErrorsOn, this, if_false]

theorem correctErrorsOn_wrapped_one (fuel : Nat) (y : Int) (h1 : 0 ≤ y) (h2 : y ≤ 1073741824) :
    correctErrorsOn int32Wrapped 1 (-2147483646) (fuel + 2) y 3 = .ok (y + 1, -2147483647) := by
  have a1 : int32Wrapped (y + 1) = .ok (y + 1) :=
    int32Wrapped_of_range _ (by omega) (by omega)
  have a2 : int32Wrapped ((3 : Int) - (-2147483646)) = .ok (-2147483647) := by decide
  have a3 : (3 : Int) ≥ 0 := by decide
  rw [correctErrorsOn, if_pos a3]
  simp only [bind, Except.bind, a1, a2]
  exact correctErrorsOn_wrapped_zero fuel _ _ (by decide)

theorem correctErrorsOn_wrapped_two (fuel : Nat) (y : Int) (h1 : 0 ≤ y) (h2 : y ≤ 1073741824) :
    correctErrorsOn int32Wrapped 1 (-2147483646) (fuel + 3) y 1 = .ok (y + 2, -3) := by
  have a1 : int32Wrapped (y + 1) = .ok (y + 1) :=
    int32Wrapped_of_range _ (by omega) (by omega)
  have a2 : int32Wrapped ((1 : Int) - (-2147483646)) = .ok 2147483647 := by decide
  have a3 : (1 : Int) ≥ 0 := by decide
  have b1 : int32Wrapped (y + 1 + 1) = .ok (y + 2) := by
    rw [int32Wrapped_of_range _ (by omega) (by omega)]
    congr 1
    omega
  have b2 : int32Wrapped ((2147483647 : Int) - (-2147483646)) = .ok (-3) := by decide
  have b3 : (2147483647 : Int) ≥ 0 := by decide
  rw [correctErrorsOn, if_pos a3]
  simp only [bind, Except.bind, a1, a2]
  rw [correctErrorsOn, if_pos b3]
  simp only [bind, Except.bind, b1, b2]
  exact correctErrorsOn_wrapped_zero fuel _ _ (by decide)

theorem loopBodyOn_wrappedStateAt (s1 : Int) (hs1 : s1 = 1 ∨ s1 = -1) (fuel i : Nat)
    (hf : 3 ≤ fuel) (hi : i ≤ 1073741825) :
    loopBodyOn int32Wrapped s1 1 (-2147483646) 4 fuel (wrappedStateAt s1 i)
      = .ok (wrappedStateAt s1 (i + 1)) := by
  obtain ⟨f, rfl⟩ : ∃ f, fuel = f + 3 := ⟨fuel - 3, by omega⟩
  obtain ⟨⟨y0, y1⟩, hcase⟩ := wrapped_cases i hi
  have hce : correctErrorsOn int32Wrapped 1 (-2147483646) (f + 3) (wrappedIndex i)
      (wrappedError i) = .ok (wrappedIndex (i + 1), wrappedError (i + 1) - 4) := by
    rcases hcase with ⟨c1, c2, c3⟩ | ⟨c1, c2, c3⟩ | ⟨c1, c2, c3⟩
    · rw [correctErrorsOn_wrapped_zero (f + 2) _ _ c1, c2, c3]
      congr 2
      omega
    · rw [c1, correctErrorsOn_wrapped_one (f + 1) _ y0 y1, c2, c3]
      rfl
    · rw [c1, correctErrorsOn_wrapped_two f _ y0 y1, c2, c3]
      rfl
  have he : -2147483648 ≤ wrappedError (i + 1) ∧ wrappedError (i + 1) ≤ 2147483647 := by
    unfold wrappedError
    push_cast
    split_ifs <;> omega
  have hx : int32Wrapped (s1 * (i : Int) + s1) = .ok (s1 * ((i : Int) + 1)) := by
    rw [int32Wrapped_of_range _ (by rcases hs1 with h | h <;> subst h <;> omega)
      (by rcases hs1 with h | h <;> subst h <;> omega)]
    congr 1
    ring
  have hee : int32Wrapped (wrappedError (i + 1) - 4 + 4) = .ok (wrappedError (i + 1)) := by
    rw [int32Wrapped_of_range _ (by omega) (by omega)]
    congr 1
    omega
  have hp : i < ((List.range i).map wrappedIndex
      ++ List.replicate (1073741826 - i) (0 : Int)).length := by
    simp only [List.length_append, List.length_map, List.length_range, List.length_replicate]
    omega
  unfold loopBodyOn
  simp only [wrappedStateAt, Nat.cast_add, Nat.cast_one]
  rw [if_pos hp, hce]
  simp only [bind, Except.bind, hx, hee, pure, Except.pure]
  rw [set_prefix_replicate _ i 1073741826 _ (by omega), List.range_succ, List.map_append,
    List.append_assoc]
  rfl

/-- The walk from `(0, 0)` to `(x2, 2)` with `|x2| = 2^30 + 1` on 32-bit integers with
wrap-around, given a budget of `2^30 + 3`: it ends normally, and position `i` of its output
holds `wrappedIndex i`. -/
theorem stretchBresenhamPointsOn_wrapped_overflow (fuel : Nat) (hf : 1073741827 ≤ fuel)
    (x2 : Int) (hx2 : x2 = 1073741825 ∨ x2 = -1073741825) (points : List Int) :
    stretchBresenhamPointsOn int32Wrapped fuel 0 0 x2 2 points
      = .ok (1073741826, (List.range 1073741826).map wrappedIndex) := by
  have hsize : toSize 1073741826 = 1073741826 := by
    unfold toSize
    decide
  have hloop : ∀ s1 : Int, s1 = 1 ∨ s1 = -1 →
      forLoopOn int32Wrapped s1 1 1073741825 (-2147483646) 4 fuel fuel 0
          { points := resize [] (toSize 1073741826), p := 0, x := 0, y := 0,
            e := -1073741821 }
        = .ok (wrappedStateAt s1 1073741826) := by
    intro s1 hs1
    have h := forLoopOn_chain int32Wrapped s1 1 (-2147483646) 4 1073741825 fuel
      (wrappedStateAt s1)
      (fun i hi => loopBodyOn_wrappedStateAt s1 hs1 fuel i (by omega) hi)
      (fun i hi => int32Wrapped_of_range _ (by omega) (by omega))
      1073741826 0 fuel (by decide) (by omega)
    have h0 : wrappedStateAt s1 0
        = { points := resize [] (toSize 1073741826), p := 0, x := 0, y := 0,
            e := -1073741821 } := by
      simp only [wrappedStateAt, wrappedIndex, wrappedError, hsize, resize, List.range_zero,
        List.map_nil, List.nil_append, List.take_nil, List.length_nil, Nat.sub_zero,
        Nat.cast_zero, mul_zero, zero_le, if_true, zero_sub]
    rw [h0] at h
    exact h
  have hlen : ∀ s1 : Int, ((wrappedStateAt s1 1073741826).points.length : Int) = 1073741826 := by
    intro s1
    simp only [wrappedStateAt, List.length_append, List.length_map, List.length_range,
      List.length_replicate, Nat.sub_self, Nat.add_zero]
    rfl
  have hpts : ∀ s1 : Int, (wrappedStateAt s1 1073741826).points
      = (List.range 1073741826).map wrappedIndex := by
    intro s1
    simp only [wrappedStateAt, Nat.sub_self, List.replicate_zero, List.append_nil]
  rcases hx2 with h | h <;> subst h
  · have := stretchBresenhamPointsOn_of_forLoop int32Wrapped fuel 0 0 1073741825 2 points
      1073741825 2 1073741825 2 1073741826 (-2147483646) 4 (-1073741821) 1073741826
      (wrappedStateAt 1 1073741826)
      (by decide) (by decide) (by decide) (by decide) (by decide) (by decide) (by decide)
      (by decide) (by decide) (hloop 1 (Or.inl rfl))
      (by rw [hlen]; decide)
    rw [this, hpts]
  · have := stretchBresenhamPointsOn_of_forLoop int32Wrapped fuel 0 0 (-1073741825) 2 points
      (-1073741825) 2 1073741825 2 1073741826 (-2147483646) 4 (-1073741821) 1073741826
      (wrappedStateAt (-1) 1073741826)
      (by decide) (by decide) (by decide) (by decide) (by decide) (by decide) (by decide)
      (by decide) (by decide) (hloop (-1) (Or.inr rfl))
      (by rw [hlen]; decide)
    rw [this, hpts]

theorem gatherPointsOn_outOfBounds (ar : Int → Except Trap Int)
    (har : ∀ a : Int, -2147483648 ≤ a → a ≤ 2147483647 → ar a = .ok a)
    {T : Type} (S : List T) :
    ∀ (pre : List Int) (r : Int) (post : List Int) (i n : Int) (acc : List T),
      (∀ m ∈ pre, 0 ≤ m ∧ m < (S.length : Int)) → (S.length : Int) ≤ r →
      0 ≤ i → i + pre.length < n → n ≤ 2147483647 →
      gatherPointsOn ar S (pre ++ r :: post) i n acc = .error (.fault .outOfBounds) := by
  intro pre
  induction pre with
  | nil =>
    intro r post i n acc _ hr hi hin hn
    have hlt : i < n := by simpa using hin
    have h0 : 0 ≤ r := by omega
    have hget : S.get? r.toNat = none := by
      rw [List.get?_eq_getElem?, List.getElem?_eq_none_iff]
      omega
    simp only [List.nil_append, gatherPointsOn, hlt, h0, if_true, hget]
  | cons m pre ih =>
    intro r post i n acc h hr hi hin hn
    have hm := h m (List.mem_cons_self m pre)
    have hlen : ((m :: pre).length : Int) = (pre.length : Int) + 1 := by simp
    have hlt : i < n := by omega
    obtain ⟨v, hv⟩ : ∃ v, S.get? m.toNat = some v := by
      rw [List.get?_eq_getElem?]
      exact ⟨_, List.getElem?_eq_getElem (by omega)⟩
    simp only [List.cons_append, gatherPointsOn, hlt, hm.1, if_true, hv, bind, Except.bind,
      har (i + 1) (by omega) (by omega)]
    exact ih r post (i + 1) n _ (fun m' hm' => h m' (List.mem_cons_of_mem m hm')) hr
      (by omega) (by omega) hn

theorem range_split_wrapped :
    (List.range 1073741826).map wrappedIndex
      = (List.range 805306369).map wrappedIndex
        ++ 3 :: (((List.range 268435456).map Nat.succ).map (fun j => 805306369 + j)).map
            wrappedIndex := by
  have h : (1073741826 : Nat) = 805306369 + (268435456 + 1) := by decide
  have h3 : wrappedIndex (805306369 + 0) = 3 := by decide
  rw [h, List.range_add, List.range_succ_eq_map 268435456, List.map_append, List.map_cons,
    List.map_cons, h3]

theorem gatherPointsOn_wrapped_overflow {T : Type} (S : List T) (hS : S.length = 3) :
    gatherPointsOn int32Wrapped S ((List.range 1073741826).map wrappedIndex) 0
      1073741826 [] = .error (.fault .outOfBounds) := by
  rw [range_split_wrapped]
  apply gatherPointsOn_outOfBounds int32Wrapped int32Wrapped_of_range S
  · intro m hm
    rw [List.mem_map] at hm
    obtain ⟨j, hj, rfl⟩ := hm
    rw [List.mem_range] at hj
    rw [hS]
    unfold wrappedIndex
    split_ifs <;> omega
  · rw [hS]; decide
  · decide
  · rw [List.length_map, List.length_range]; decide
  · decide

/-- A run of `decimatePoints` on machine integers in which the copying loop ends in a fault
ends in that fault. -/
theorem decimatePointsOn_of_gather_error (ar : Int → Except Trap Int) {T : Type}
    (eq : T → T → Bool) (fuel : Nat) (S : List T) (numpoints x2 size y2 m n : Int)
    (ranges : List Int) (t : Trap)
    (h1 : ar (numpoints - 1) = .ok x2) (h2 : ar (S.length : Int) = .ok size)
    (h3 : ar (size - 1) = .ok y2)
    (hw : stretchBresenhamPointsOn ar fuel 0 0 x2 y2 [] = .ok (m, ranges))
    (h4 : ar (ranges.length : Int) = .ok n)
    (hg : gatherPointsOn ar S ranges 0 n [] = .error t) :
    decimatePointsOn ar eq fuel S numpoints = .error t := by
  unfold decimatePointsOn
  simp only [bind, Except.bind, h1, h2, h3, hw, h4, hg]

/-- Resampling a vector of three elements to `2^30 + 2` points, or to `-2^30` points, on 32-bit
integers with wrap-around: the walk hands out the index `3` at position `3 * 2^28 + 1`, and the
copying loop reads outside the vector. -/
theorem decimatePointsOn_wrapped_overflow {T : Type} (eq : T → T → Bool) (fuel : Nat)
    (hf : 1073741827 ≤ fuel) (S : List T) (hS : S.length = 3) (numpoints : Int)
    (hnp : numpoints = 1073741826 ∨ numpoints = -1073741824) :
    decimatePointsOn int32Wrapped eq fuel S numpoints = .error (.fault .outOfBounds) := by
  have hx2 : numpoints - 1 = 1073741825 ∨ numpoints - 1 = -1073741825 := by omega
  have r1 : int32Wrapped (numpoints - 1) = .ok (numpoints - 1) :=
    int32Wrapped_of_range _ (by omega) (by omega)
  have r2 : int32Wrapped ((S.length : Nat) : Int) = .ok 3 := by rw [hS]; decide
  have r3 : int32Wrapped ((3 : Int) - 1) = .ok 2 := by decide
  have r4 : int32Wrapped ((((List.range 1073741826).map wrappedIndex).length : Nat) : Int)
      = .ok 1073741826 := by
    rw [List.length_map, List.length_range]
    decide
  exact decimatePointsOn_of_gather_error int32Wrapped eq fuel S numpoints _ _ _ _ _ _ _
    r1 r2 r3 (stretchBresenhamPointsOn_wrapped_overflow fuel hf (numpoints - 1) hx2 []) r4
    (gatherPointsOn_wrapped_overflow S hS)

/-- Resampling to the own length on machine integers: enough fuel gives back the input. -/
theorem decimatePointsOn_length_self (ar : Int → Except Trap Int)
    (har : ∀ a : Int, -2147483648 ≤ a → a ≤ 2147483647 → ar a = .ok a)
    {T : Type} (eq : T → T → Bool) (fuel : Nat) (S : List T) (hS : S ≠ [])
    (hlen : (S.length : Int) ≤ 268435456)
    (hfront : ∀ a : T, S.head? = some a → eq a a = true)
    (hback : ∀ c : T, S.getLast? = some c → eq c c = true)
    (hf : enoughFuel 0 0 ((S.length : Int) - 1) ((S.length : Int) - 1) ≤ fuel) :
    decimatePointsOn ar eq fuel S (S.length : Int) = .ok S := by
  have hpos : 0 < S.length := List.length_pos.2 hS
  obtain ⟨d, hd⟩ : ∃ d, S.head? = some d := by
    cases S with
    | nil => exact absurd rfl hS
    | cons a l => exact ⟨a, rfl⟩
  have hn : (S.length : Int) ≠ 1 ∨ S.length = 1 := by omega
  rw [decimatePointsOn_eq ar har eq fuel S (S.length : Int) d hS (by omega) (by omega) hf hn
    (hfront _ (head?_eq_getD S d hS)) (hback _ (getLast?_eq_getD S d hS)),
    resampled_length_self S d hS]

/-- A run of `decimatePoints` on machine integers in which the walk ends in a trap ends in that
trap. -/
theorem decimatePointsOn_of_walk_error (ar : Int → Except Trap Int) {T : Type}
    (eq : T → T → Bool) (fuel : Nat) (S : List T) (numpoints x2 size y2 : Int) (t : Trap)
    (h1 : ar (numpoints - 1) = .ok x2) (h2 : ar (S.length : Int) = .ok size)
    (h3 : ar (size - 1) = .ok y2)
    (hw : stretchBresenhamPointsOn ar fuel 0 0 x2 y2 [] = .error t) :
    decimatePointsOn ar eq fuel S numpoints = .error t := by
  unfold decimatePointsOn
  simp only [bind, Except.bind, h1, h2, h3, hw]

/-- A run of the walk on machine integers in which `dx + dx` is trapped ends in that trap. -/
theorem stretchBresenhamPointsOn_of_dx2_error (ar : Int → Except Trap Int) (fuel : Nat)
    (x1 y1 x2 y2 : Int) (points : List Int) (dx0 dy0 dx dy size : Int) (t : Trap)
    (h1 : ar (x2 - x1) = .ok dx0) (h2 : ar (y2 - y1) = .ok dy0)
    (h3 : ar (dx0.natAbs : Int) = .ok dx) (h4 : ar (dy0.natAbs : Int) = .ok dy)
    (h5 : ar (dx + 1) = .ok size) (hdx : dx ≠ 0) (h6 : ar (dx + dx) = .error t) :
    stretchBresenhamPointsOn ar fuel x1 y1 x2 y2 points = .error t := by
  unfold stretchBresenhamPointsOn
  simp only [bind, Except.bind, h1, h2, h3, h4, h5, clear, if_neg hdx, h6]

/-- Resampling a vector of `2^30 + 1` elements to its own length: `dx + dx = 2^31` is a signed
overflow, which the 32-bit `int` with trapped overflow reports. -/
theorem decimatePointsOn_checked_overflow {T : Type} (eq : T → T → Bool) (fuel : Nat)
    (S : List T) (hS : S.length = 1073741825) :
    decimatePointsOn int32Checked eq fuel S (S.length : Int) = .error .overflow := by
  rw [hS]
  exact decimatePointsOn_of_walk_error int32Checked eq fuel S _ 1073741824 1073741825
    1073741824 _ (by decide) (by rw [hS]; decide) (by decide)
    (stretchBresenhamPointsOn_of_dx2_error int32Checked fuel 0 0 1073741824 1073741824 []
      1073741824 1073741824 1073741824 1073741824 1073741825 _
      (by decide) (by decide) (by decide) (by decide) (by decide) (by decide) (by decide))

/-! ## The claims -/

/-- C1, at the failing input: asked to resample the two-element vector `[0, 1]` to one point,
`decimatePoints` keeps `[0]`, and its assert `points.back() == newpoints.back()` fails. -/
theorem decimatePoints_assert_fails :
    ∀ fuel : Nat, decimatePoints fuel [(0 : Int), 1] 1 = .error .assertFailed := by
  intro fuel
  rfl

/-- Away from the defect: for a target length of at least 2 both asserts of `decimatePoints`
hold, and the result has the target length, the first and the last element of the input. -/
theorem decimatePoints_front_back {T : Type} [DecidableEq T] (fuel : Nat) (S : List T)
    (targetLength : Int) (hS : 1 ≤ S.length) (ht : 2 ≤ targetLength)
    (hf : enoughFuel 0 0 (targetLength - 1) ((S.length : Int) - 1) ≤ fuel) :
    ∃ out : List T, decimatePoints fuel S targetLength = .ok out
      ∧ (out.length : Int) = targetLength
      ∧ out.head? = S.head? ∧ out.getLast? = S.getLast? := by
  have hne : S ≠ [] := List.length_pos.1 (by omega)
  obtain ⟨d, hd⟩ : ∃ d, S.head? = some d := by
    cases S with
    | nil => exact absurd rfl hne
    | cons a l => exact ⟨a, rfl⟩
  refine ⟨_, decimatePoints_eq fuel S targetLength d hne hf (Or.inl (by omega)), ?_, ?_, ?_⟩
  · rw [resampled, length_map_range]; omega
  · rw [resampled, head?_map_range, roundedLine_zero, Int.toNat_zero]
    exact (head?_eq_getD S d hne).symm
  · rw [resampled, getLast?_map_range,
      roundedLine_last 0 0 (targetLength - 1) ((S.length : Int) - 1) (by omega),
      getLast?_eq_getD S d hne]
    congr 2
    omega

/-- The call of EXAMPLE 2: 276 points resampled to 201 keep the first point 0 and the last
point 275. -/
theorem decimatePoints_front_back_example :
    ∃ out : List Int,
      decimatePoints 477 ((List.range 276).map (fun n : Nat => (n : Int))) 201 = .ok out
      ∧ out.length = 201 ∧ out.head? = some 0 ∧ out.getLast? = some 275 := by
  obtain ⟨out, h1, h2, h3, h4⟩ := decimatePoints_front_back 477
    ((List.range 276).map (fun n : Nat => (n : Int))) 201 (by simp) (by decide)
    (by simp [enoughFuel])
  refine ⟨out, h1, by exact_mod_cast h2, ?_, ?_⟩
  · rw [h3, head?_map_range]; rfl
  · rw [h4, getLast?_map_range]; rfl

/-- C2 as stated fails on 32-bit integers: for `n = 2^30 + 1` elements and 2 workers the sum
`dy + dy` wraps around, and `getRanges` yields the boundaries `[0, 0, 1]`, whose last one is `1`
and not `n`. -/
theorem getRanges_partition_overflow :
    (0 : Int) ≤ 1073741825 ∧ (1 : Int) ≤ 2 ∧
    ∃ b : List Int, getRangesOn int32Wrapped 5 1073741825 2 [] = .ok b
      ∧ b = [0, 0, 1] ∧ b[(2 : Int).toNat]? ≠ some 1073741825 :=
  ⟨by decide, by decide, [0, 0, 1], by decide, rfl, by decide⟩

/-- C2, amended: for `0 ≤ n ≤ 2^28`, `1 ≤ numthreads ≤ 2^28` and enough fuel, `getRanges` on
32-bit integers ends normally with `numthreads + 1` boundaries, the first `0`, the last `n`, each
at most the next; an index lies in `[0, n)` exactly when some worker owns it, and no index is
owned by two workers. -/
theorem getRanges_partition (fuel : Nat) (n numthreads : Int) (ranges : List Int)
    (hn : 0 ≤ n ∧ n ≤ 2 ^ 28) (hk : 1 ≤ numthreads ∧ numthreads ≤ 2 ^ 28)
    (hf : enoughFuel 0 0 numthreads n ≤ fuel) :
    ∃ b : List Int, getRangesOn int32Wrapped fuel n numthreads ranges = .ok b
      ∧ (b.length : Int) = numthreads + 1
      ∧ b[0]? = some 0
      ∧ b[numthreads.toNat]? = some n
      ∧ (∀ t : Nat, (t : Int) < numthreads →
          ∃ lo hi : Int, b[t]? = some lo ∧ b[t + 1]? = some hi ∧ lo ≤ hi)
      ∧ (∀ j : Int, (0 ≤ j ∧ j < n) ↔ ∃ t : Nat, (t : Int) < numthreads ∧ ownsIndex b t j)
      ∧ (∀ (j : Int) (t u : Nat), ownsIndex b t j → ownsIndex b u j → t = u) := by
  norm_num at hn hk
  obtain ⟨hn, hn'⟩ := hn
  obtain ⟨hk, hk'⟩ := hk
  have hK : (numthreads - 0).natAbs = numthreads.toNat := by omega
  have hmono : ∀ i j : Nat, i ≤ j →
      roundedLine 0 0 numthreads n i ≤ roundedLine 0 0 numthreads n j :=
    fun i j hij => roundedLine_mono 0 0 numthreads n i j hn hij
  have hfirst : roundedLine 0 0 numthreads n 0 = 0 := roundedLine_zero 0 0 numthreads n
  have hlast : roundedLine 0 0 numthreads n numthreads.toNat = n := by
    rw [← hK]; exact roundedLine_last 0 0 numthreads n (by omega)
  refine ⟨_, getRangesOn_eq int32Wrapped int32Wrapped_of_range fuel n numthreads ranges
    (by omega) (by omega) hf, ?_, ?_, ?_, ?_, ?_, ?_⟩
  · rw [length_map_range, hK]; push_cast; omega
  · rw [getElem?_map_range _ _ 0 (by omega), hfirst]
  · rw [hK, getElem?_map_range _ _ _ (by omega), hlast]
  · intro t ht
    refine ⟨_, _, getElem?_map_range _ _ t (by omega), getElem?_map_range _ _ (t + 1) (by omega),
      hmono t (t + 1) (by omega)⟩
  · intro j
    rw [hK]
    constructor
    · rintro ⟨h0, h1⟩
      obtain ⟨t, ht, h2, h3⟩ := exists_window (roundedLine 0 0 numthreads n) j numthreads.toNat
        (by rw [hfirst]; exact h0) (by rw [hlast]; exact h1)
      exact ⟨t, by omega, (ownsIndex_map_range _ _ t j).2 ⟨ht, h2, h3⟩⟩
    · rintro ⟨t, _, ht⟩
      obtain ⟨ht, h2, h3⟩ := (ownsIndex_map_range _ _ t j).1 ht
      have h4 := hmono 0 t (by omega)
      have h5 := hmono (t + 1) numthreads.toNat (by omega)
      rw [hfirst] at h4
      rw [hlast] at h5
      omega
  · intro j t u ht hu
    rw [hK] at ht hu
    obtain ⟨ht, h2, h3⟩ := (ownsIndex_map_range _ _ t j).1 ht
    obtain ⟨hu, h2', h3'⟩ := (ownsIndex_map_range _ _ u j).1 hu
    by_contra hne
    rcases Nat.lt_or_gt_of_ne hne with h | h
    · have := hmono (t + 1) u (by omega); omega
    · have := hmono (u + 1) t (by omega); omega

/-- C2, amended, at the call of EXAMPLE 3: 55 elements over 3 workers. -/
theorem getRanges_partition_witness :
    ∃ b : List Int, getRangesOn int32Wrapped 60 55 3 [] = .ok b
      ∧ (b.length : Int) = 3 + 1
      ∧ b[0]? = some 0
      ∧ b[(3 : Int).toNat]? = some 55
      ∧ (∀ t : Nat, (t : Int) < 3 →
          ∃ lo hi : Int, b[t]? = some lo ∧ b[t + 1]? = some hi ∧ lo ≤ hi)
      ∧ (∀ j : Int, (0 ≤ j ∧ j < 55) ↔ ∃ t : Nat, (t : Int) < 3 ∧ ownsIndex b t j)
      ∧ (∀ (j : Int) (t u : Nat), ownsIndex b t j → ownsIndex b u j → t = u) :=
  getRanges_partition 60 55 3 [] (by norm_num) (by norm_num) (by decide)

/-- C3 as stated fails: for no budget and no previous content does `getRanges(55, 3, ranges)`
yield `[0, 19, 37, 55]`. -/
theorem getRanges_55_3_not_19 :
    ¬ ∃ (fuel : Nat) (ranges : List Int), getRanges fuel 55 3 ranges = .ok [0, 19, 37, 55] := by
  rintro ⟨fuel, ranges, h⟩
  have := getRanges_ok fuel 55 3 ranges _ h
  revert this
  decide

/-- C3, amended: with enough fuel `getRanges(55, 3, ranges)` yields exactly the 4-element
sequence `[0, 18, 37, 55]`. -/
theorem getRanges_55_3 (fuel : Nat) (ranges : List Int) (hf : enoughFuel 0 0 3 55 ≤ fuel) :
    getRanges fuel 55 3 ranges = .ok [0, 18, 37, 55] := by
  rw [getRanges_eq fuel 55 3 ranges hf]
  decide

/-- C3, amended, at the call of EXAMPLE 3, which passes a fresh vector. -/
theorem getRanges_55_3_witness : getRanges 60 55 3 [] = .ok [0, 18, 37, 55] :=
  getRanges_55_3 60 [] (by decide)

/-- C4 as stated fails, on 32-bit integers as on unbounded ones: the walk from `(0, 0)` to
`(2, 1)` is `[0, 1, 1]`, the walk back from `(2, 1)` to `(0, 0)` is `[1, 0, 0]`, and its reverse
`[0, 0, 1]` is a different sequence.  On 32-bit integers the symmetry also fails without any
half-step tie once `dy + dy` wraps around: the walk from `(0, 0)` to `(3, 2^31 - 1)` is
`[0, 0, 0, 0]`, the walk back is four times `2^31 - 1`. -/
theorem stretchBresenhamPoints_reverse_differs :
    ((0 : Int) ≠ 2 ∧
      ∃ (out back : List Int),
        stretchBresenhamPointsOn int32Wrapped 5 0 0 2 1 [] = .ok (3, out)
          ∧ stretchBresenhamPointsOn int32Wrapped 5 2 1 0 0 [] = .ok (3, back)
          ∧ back.reverse ≠ out)
    ∧ ((0 : Int) ≠ 3
      ∧ (∀ i : Nat, (i : Int) ≤ 3 → (2 * (2147483647 : Int) * i) % (2 * 3) ≠ 3)
      ∧ ∃ (out back : List Int),
        stretchBresenhamPointsOn int32Wrapped 5 0 0 3 2147483647 [] = .ok (4, out)
          ∧ stretchBresenhamPointsOn int32Wrapped 5 3 2147483647 0 0 [] = .ok (4, back)
          ∧ out = [0, 0, 0, 0]
          ∧ back = [2147483647, 2147483647, 2147483647, 2147483647]
          ∧ back.reverse ≠ out) :=
  ⟨⟨by decide, [0, 1, 1], [1, 0, 0], by decide, by decide, by decide⟩,
    by decide, fun i _ => by omega,
    [0, 0, 0, 0], [2147483647, 2147483647, 2147483647, 2147483647],
    by decide, by decide, rfl, rfl, by decide⟩

/-- C4, amended: for `x1 ≠ x2`, coordinates in `[-2^28, 2^28]` and enough fuel, both walks on
32-bit integers end normally, and the reverse of the walk from `(x2, y2)` to `(x1, y1)` equals
the walk from `(x1, y1)` to `(x2, y2)` exactly when no step `0 ≤ i ≤ dx` is an exact half-step
tie, `2 * dy * i ≡ dx (mod 2 * dx)`. -/
theorem stretchBresenhamPoints_reverse_iff (fuel : Nat) (x1 y1 x2 y2 : Int)
    (points points' : List Int) (hx : x1 ≠ x2)
    (hx1 : -2 ^ 28 ≤ x1 ∧ x1 ≤ 2 ^ 28) (hy1 : -2 ^ 28 ≤ y1 ∧ y1 ≤ 2 ^ 28)
    (hx2 : -2 ^ 28 ≤ x2 ∧ x2 ≤ 2 ^ 28) (hy2 : -2 ^ 28 ≤ y2 ∧ y2 ≤ 2 ^ 28)
    (hf : enoughFuel x1 y1 x2 y2 ≤ fuel) :
    ∃ (n n' : Int) (out back : List Int),
      stretchBresenhamPointsOn int32Wrapped fuel x1 y1 x2 y2 points = .ok (n, out)
        ∧ stretchBresenhamPointsOn int32Wrapped fuel x2 y2 x1 y1 points' = .ok (n', back)
        ∧ (back.reverse = out ↔
            ∀ i : Nat, (i : Int) ≤ |x2 - x1| →
              (2 * |y2 - y1| * i) % (2 * |x2 - x1|) ≠ |x2 - x1|) := by
  norm_num at hx1 hy1 hx2 hy2
  refine ⟨_, _, _, _,
    stretchBresenhamPointsOn_eq int32Wrapped int32Wrapped_of_range fuel x1 y1 x2 y2 points
      hx1 hy1 hx2 hy2 hf,
    stretchBresenhamPointsOn_eq int32Wrapped int32Wrapped_of_range fuel x2 y2 x1 y1 points'
      hx2 hy2 hx1 hy1 (by rw [enoughFuel_symm]; exact hf), ?_⟩
  have hD : (x1 - x2).natAbs = (x2 - x1).natAbs := by omega
  rw [hD, reverse_map_range, ← Int.natCast_natAbs, ← Int.natCast_natAbs]
  constructor
  · intro h i hi
    have hi' : i ≤ (x2 - x1).natAbs := by exact_mod_cast hi
    exact (roundedLine_reverse x1 y1 x2 y2 i hx hi').1 (h i hi')
  · intro h i hi
    exact (roundedLine_reverse x1 y1 x2 y2 i hx hi).2 (h i (by exact_mod_cast hi))

/-- C4, amended, on a line without ties: `dx = 3` is odd, so the walk from `(0, 0)` to `(3, 2)`
is the reverse of the walk from `(3, 2)` to `(0, 0)`. -/
theorem stretchBresenhamPoints_reverse_iff_witness :
    ∃ (n n' : Int) (out back : List Int),
      stretchBresenhamPointsOn int32Wrapped 7 0 0 3 2 [] = .ok (n, out)
        ∧ stretchBresenhamPointsOn int32Wrapped 7 3 2 0 0 [] = .ok (n', back)
        ∧ back.reverse = out := by
  obtain ⟨n, n', out, back, h1, h2, h3⟩ :=
    stretchBresenhamPoints_reverse_iff 7 0 0 3 2 [] [] (by decide) (by norm_num) (by norm_num)
      (by norm_num) (by norm_num) (by decide)
  refine ⟨n, n', out, back, h1, h2, h3.2 ?_⟩
  intro i hi
  have hi3 : i ≤ 3 := by
    have : |(3 : Int) - 0| = 3 := by norm_num
    rw [this] at hi
    exact_mod_cast hi
  interval_cases i <;> norm_num

/-- C5: over unbounded integers and with enough fuel, `stretchBresenhamPoints` ends normally
with an output of exactly `|x2 - x1| + 1` elements, returns that length, and the result is the
same for every previous content of the output vector. -/
theorem stretchBresenhamPoints_length (fuel : Nat) (x1 y1 x2 y2 : Int)
    (points points' : List Int) (hf : enoughFuel x1 y1 x2 y2 ≤ fuel) :
    ∃ out : List Int,
      stretchBresenhamPoints fuel x1 y1 x2 y2 points = .ok ((out.length : Int), out)
        ∧ (out.length : Int) = |x2 - x1| + 1
        ∧ stretchBresenhamPoints fuel x1 y1 x2 y2 points' = .ok ((out.length : Int), out) := by
  refine ⟨(List.range ((x2 - x1).natAbs + 1)).map (roundedLine x1 y1 x2 y2), ?_, ?_, ?_⟩
  · rw [stretchBresenhamPoints_eq fuel x1 y1 x2 y2 points hf, length_map_range]
    push_cast; rfl
  · rw [length_map_range, ← Int.natCast_natAbs]
    push_cast; rfl
  · rw [stretchBresenhamPoints_eq fuel x1 y1 x2 y2 points' hf, length_map_range]
    push_cast; rfl

/-- C5, at the line of EXAMPLE 1: the walk from `(330, 8)` to `(206, 33)` returns 125 and
leaves 125 elements, also over a vector that was not empty. -/
theorem stretchBresenhamPoints_length_witness :
    ∃ out : List Int,
      stretchBresenhamPoints 151 330 8 206 33 [7, 7, 7] = .ok (125, out) ∧ out.length = 125 := by
  obtain ⟨out, h1, h2, _⟩ :=
    stretchBresenhamPoints_length 151 330 8 206 33 [7, 7, 7] [] (by decide)
  have h3 : (out.length : Int) = 125 := by rw [h2]; norm_num
  refine ⟨out, ?_, by exact_mod_cast h3⟩
  rw [h1, h3]

/-- C6 as stated fails on 32-bit integers: on the walk from `(0, 0)` to `(2, 2^30 + 1)` the sum
`dy + dy` wraps around, the output is `[0, 0, 1]`, and its last element is `1`, not `y2`. -/
theorem stretchBresenhamPoints_endpoints_overflow :
    (0 : Int) ≠ 2 ∧
    ∃ out : List Int,
      stretchBresenhamPointsOn int32Wrapped 5 0 0 2 1073741825 [] = .ok (3, out)
        ∧ out = [0, 0, 1] ∧ out.getLast? ≠ some 1073741825 :=
  ⟨by decide, [0, 0, 1], by decide, rfl, by decide⟩

/-- C6, amended: for coordinates in `[-2^28, 2^28]` and enough fuel, the output of
`stretchBresenhamPoints` on 32-bit integers starts with `y1`; it ends with `y2` when `x1 ≠ x2`;
and it is exactly `[y1]` when `x1 = x2`, whatever `y2` is. -/
theorem stretchBresenhamPoints_endpoints (fuel : Nat) (x1 y1 x2 y2 : Int) (points : List Int)
    (hx1 : -2 ^ 28 ≤ x1 ∧ x1 ≤ 2 ^ 28) (hy1 : -2 ^ 28 ≤ y1 ∧ y1 ≤ 2 ^ 28)
    (hx2 : -2 ^ 28 ≤ x2 ∧ x2 ≤ 2 ^ 28) (hy2 : -2 ^ 28 ≤ y2 ∧ y2 ≤ 2 ^ 28)
    (hf : enoughFuel x1 y1 x2 y2 ≤ fuel) :
    ∃ (n : Int) (out : List Int),
      stretchBresenhamPointsOn int32Wrapped fuel x1 y1 x2 y2 points = .ok (n, out)
        ∧ out.head? = some y1
        ∧ (x1 ≠ x2 → out.getLast? = some y2)
        ∧ (x1 = x2 → out = [y1]) := by
  norm_num at hx1 hy1 hx2 hy2
  refine ⟨_, _, stretchBresenhamPointsOn_eq int32Wrapped int32Wrapped_of_range fuel x1 y1 x2 y2
    points hx1 hy1 hx2 hy2 hf, ?_, ?_, ?_⟩
  · rw [head?_map_range, roundedLine_zero]
  · intro hx
    rw [getLast?_map_range, roundedLine_last x1 y1 x2 y2 hx]
  · intro hx
    have h0 : (x2 - x1).natAbs = 0 := by omega
    have hrange : List.range 1 = [0] := rfl
    rw [h0, hrange, List.map_cons, List.map_nil, roundedLine_zero]

/-- C6, amended, at the line of EXAMPLE 1: the walk from `(330, 8)` to `(206, 33)` starts with
8 and ends with 33. -/
theorem stretchBresenhamPoints_endpoints_witness :
    ∃ (n : Int) (out : List Int),
      stretchBresenhamPointsOn int32Wrapped 151 330 8 206 33 [] = .ok (n, out)
        ∧ out.head? = some 8 ∧ out.getLast? = some 33 := by
  obtain ⟨n, out, h1, h2, h3, _⟩ :=
    stretchBresenhamPoints_endpoints 151 330 8 206 33 [] (by norm_num) (by norm_num)
      (by norm_num) (by norm_num) (by decide)
  exact ⟨n, out, h1, h2, h3 (by decide)⟩

/-- C7 as stated fails on 32-bit integers: on the walk from `(0, 0)` to `(2, 2^30 + 1)` the sum
`dy + dy` wraps around and the output at step 1 is `0`, while
`y1 + sy * floor((2 * dy * 1 + dx) / (2 * dx))` is `536870913`. -/
theorem stretchBresenhamPoints_rounded_overflow :
    (0 : Int) ≠ 2 ∧
    (∃ out : List Int,
      stretchBresenhamPointsOn int32Wrapped 5 0 0 2 1073741825 [] = .ok (3, out)
        ∧ out[1]? = some 0)
    ∧ (0 : Int) + (if (1073741825 : Int) ≥ 0 then 1 else -1)
          * ((2 * |(1073741825 : Int) - 0| * (1 : Nat) + |(2 : Int) - 0|) / (2 * |(2 : Int) - 0|))
        = 536870913 :=
  ⟨by decide, ⟨[0, 0, 1], by decide, by decide⟩, by norm_num⟩

/-- C7, amended: for `x1 ≠ x2`, coordinates in `[-2^28, 2^28]` and enough fuel, the output of
the walk on 32-bit integers at every step `0 ≤ i ≤ dx` is
`y1 + sy * floor((2 * dy * i + dx) / (2 * dx))`; it deviates from the exact line by at most one
half, a deviation of exactly one half is on the side away from `y1`, and it is the only integer
with these two properties. -/
theorem stretchBresenhamPoints_rounded (fuel : Nat) (x1 y1 x2 y2 : Int) (points : List Int)
    (hx : x1 ≠ x2)
    (hx1 : -2 ^ 28 ≤ x1 ∧ x1 ≤ 2 ^ 28) (hy1 : -2 ^ 28 ≤ y1 ∧ y1 ≤ 2 ^ 28)
    (hx2 : -2 ^ 28 ≤ x2 ∧ x2 ≤ 2 ^ 28) (hy2 : -2 ^ 28 ≤ y2 ∧ y2 ≤ 2 ^ 28)
    (hf : enoughFuel x1 y1 x2 y2 ≤ fuel) :
    ∃ (n : Int) (out : List Int),
      stretchBresenhamPointsOn int32Wrapped fuel x1 y1 x2 y2 points = .ok (n, out)
        ∧ ∀ i : Nat, (i : Int) ≤ |x2 - x1| →
          ∃ v : Int, out[i]? = some v
            ∧ v = y1 + (if y2 ≥ y1 then 1 else -1)
                    * ((2 * |y2 - y1| * i + |x2 - x1|) / (2 * |x2 - x1|))
            ∧ |(v : ℚ) - exactLine x1 y1 x2 y2 i| ≤ 1 / 2
            ∧ (|(v : ℚ) - exactLine x1 y1 x2 y2 i| = 1 / 2 →
                |exactLine x1 y1 x2 y2 i - y1| < |(v : ℚ) - y1|)
            ∧ ∀ w : Int, |(w : ℚ) - exactLine x1 y1 x2 y2 i| ≤ 1 / 2 →
                (|(w : ℚ) - exactLine x1 y1 x2 y2 i| = 1 / 2 →
                  |exactLine x1 y1 x2 y2 i - y1| < |(w : ℚ) - y1|) →
                w = v := by
  norm_num at hx1 hy1 hx2 hy2
  refine ⟨_, _, stretchBresenhamPointsOn_eq int32Wrapped int32Wrapped_of_range fuel x1 y1 x2 y2
    points hx1 hy1 hx2 hy2 hf, ?_⟩
  intro i hi
  rw [← Int.natCast_natAbs] at hi
  have hi' : i ≤ (x2 - x1).natAbs := by exact_mod_cast hi
  obtain ⟨n1, n2, n3⟩ := roundedLine_nearest x1 y1 x2 y2 i hx
  refine ⟨roundedLine x1 y1 x2 y2 i, getElem?_map_range _ _ i (by omega), ?_, n1, n2, n3⟩
  rw [← Int.natCast_natAbs, ← Int.natCast_natAbs]
  rfl

/-- C7, amended, at the line of EXAMPLE 1, from `(330, 8)` to `(206, 33)`. -/
theorem stretchBresenhamPoints_rounded_witness :
    ∃ (n : Int) (out : List Int),
      stretchBresenhamPointsOn int32Wrapped 151 330 8 206 33 [] = .ok (n, out)
        ∧ ∀ i : Nat, (i : Int) ≤ |(206 : Int) - 330| →
          ∃ v : Int, out[i]? = some v
            ∧ v = 8 + (if (33 : Int) ≥ 8 then 1 else -1)
                    * ((2 * |(33 : Int) - 8| * i + |(206 : Int) - 330|)
                        / (2 * |(206 : Int) - 330|))
            ∧ |(v : ℚ) - exactLine 330 8 206 33 i| ≤ 1 / 2
            ∧ (|(v : ℚ) - exactLine 330 8 206 33 i| = 1 / 2 →
                |exactLine 330 8 206 33 i - (8 : Int)| < |(v : ℚ) - (8 : Int)|)
            ∧ ∀ w : Int, |(w : ℚ) - exactLine 330 8 206 33 i| ≤ 1 / 2 →
                (|(w : ℚ) - exactLine 330 8 206 33 i| = 1 / 2 →
                  |exactLine 330 8 206 33 i - (8 : Int)| < |(w : ℚ) - (8 : Int)|) →
                w = v :=
  stretchBresenhamPoints_rounded 151 330 8 206 33 [] (by decide) (by norm_num) (by norm_num)
    (by norm_num) (by norm_num) (by decide)

/-- C8, at the failing input: asked to resample the two-element vector `[0, 1]` to one point,
`decimatePoints` returns no vector at all, for any budget: the run ends in the failed assert. -/
theorem decimatePoints_one_point_no_result :
    ¬ ∃ (fuel : Nat) (out : List Int), decimatePoints fuel [0, 1] 1 = .ok out := by
  rintro ⟨fuel, out, h⟩
  have h' : decimatePoints fuel [(0 : Int), 1] 1 = .error .assertFailed := rfl
  rw [h'] at h
  exact Except.noConfusion h

/-- C9 as stated fails on 32-bit integers: for a vector of three elements and the target length
`2^30 + 2` the sum `dx + dx` wraps around, the walk from `(0, 0)` to `(2^30 + 1, 2)` hands out
the index `3` at position `3 * 2^28 + 1`, and the copying loop of `decimatePoints` reads outside
the vector. -/
theorem decimatePoints_index_overflow :
    1 ≤ [(10 : Int), 20, 30].length ∧ (1 : Int) ≤ 1073741826 ∧
    ∃ (n : Int) (ranges : List Int),
      stretchBresenhamPointsOn int32Wrapped 1073741827 0 0 (1073741826 - 1)
          ((([(10 : Int), 20, 30].length : Nat) : Int) - 1) [] = .ok (n, ranges)
        ∧ ranges[805306369]? = some 3
        ∧ decimatePointsOn int32Wrapped (fun a b : Int => decide (a = b)) 1073741827
            [10, 20, 30] 1073741826 = .error (.fault .outOfBounds) := by
  refine ⟨by decide, by decide, _, _,
    stretchBresenhamPointsOn_wrapped_overflow 1073741827 (by decide) _ (Or.inl (by decide)) [],
    ?_, ?_⟩
  · rw [getElem?_map_range _ _ _ (by decide)]
    decide
  · exact decimatePointsOn_wrapped_overflow (fun a b : Int => decide (a = b)) 1073741827
      (by decide) [10, 20, 30] rfl 1073741826 (Or.inl rfl)

/-- C9, amended: for a vector of `1 ≤ size ≤ 2^28` elements, a target length
`1 ≤ targetLength ≤ 2^28` and enough fuel, the walk on 32-bit integers from `(0, 0)` to
`(targetLength - 1, size - 1)` yields `targetLength` indices, each between `0` and `size - 1`;
the copying loop of `decimatePoints` therefore reads no element out of bounds, and every element
it copies is an element of the input. -/
theorem decimatePoints_index_safe {T : Type} (fuel : Nat) (S : List T) (targetLength : Int)
    (hS : 1 ≤ S.length) (hlen : (S.length : Int) ≤ 2 ^ 28)
    (ht : 1 ≤ targetLength ∧ targetLength ≤ 2 ^ 28)
    (hf : enoughFuel 0 0 (targetLength - 1) ((S.length : Int) - 1) ≤ fuel) :
    ∃ (n : Int) (ranges : List Int),
      stretchBresenhamPointsOn int32Wrapped fuel 0 0 (targetLength - 1) ((S.length : Int) - 1) []
          = .ok (n, ranges)
        ∧ (ranges.length : Int) = targetLength
        ∧ (∀ m ∈ ranges, 0 ≤ m ∧ m ≤ (S.length : Int) - 1)
        ∧ ∃ newpoints : List T,
            gatherPointsOn int32Wrapped S ranges 0 (ranges.length : Int) [] = .ok newpoints
            ∧ newpoints.length = ranges.length
            ∧ ∀ v ∈ newpoints, v ∈ S := by
  have hlen' : (S.length : Int) ≤ 268435456 := by norm_num at hlen; omega
  have ht' : 1 ≤ targetLength ∧ targetLength ≤ 268435456 := by norm_num at ht; omega
  have hne : S ≠ [] := List.length_pos.1 (by omega)
  obtain ⟨d, hd⟩ : ∃ d, S.head? = some d := by
    cases S with
    | nil => exact absurd rfl hne
    | cons a l => exact ⟨a, rfl⟩
  refine ⟨_, _, stretchBresenhamPointsOn_eq int32Wrapped int32Wrapped_of_range fuel 0 0
    (targetLength - 1) ((S.length : Int) - 1) [] (by omega) (by omega) (by omega) (by omega) hf,
    ?_, ?_, resampled S targetLength d,
    gatherPointsOn_decimate int32Wrapped int32Wrapped_of_range S targetLength d hne (by omega),
    ?_, ?_⟩
  · rw [length_map_range]; omega
  · intro m hm
    rw [List.mem_map] at hm
    obtain ⟨i, hi, rfl⟩ := hm
    rw [List.mem_range] at hi
    have := decimate_index_bounds S.length targetLength hS i (by omega)
    omega
  · rw [resampled, length_map_range, length_map_range]
  · intro v hv
    rw [resampled, List.mem_map] at hv
    obtain ⟨i, hi, rfl⟩ := hv
    rw [List.mem_range] at hi
    have := decimate_index_bounds S.length targetLength hS i (by omega)
    rw [List.getD_eq_getElem?_getD, List.getElem?_eq_getElem (by omega)]
    exact List.getElem_mem _

/-- C9, amended, at the call of EXAMPLE 2: 276 points resampled to 201. -/
theorem decimatePoints_index_safe_witness :
    ∃ (n : Int) (ranges : List Int),
      stretchBresenhamPointsOn int32Wrapped 477 0 0 (201 - 1)
          ((((List.range 276).map (fun n : Nat => (n : Int))).length : Int) - 1) []
          = .ok (n, ranges)
        ∧ (ranges.length : Int) = 201
        ∧ (∀ m ∈ ranges,
            0 ≤ m ∧ m ≤ (((List.range 276).map (fun n : Nat => (n : Int))).length : Int) - 1)
        ∧ ∃ newpoints : List Int,
            gatherPointsOn int32Wrapped ((List.range 276).map (fun n : Nat => (n : Int))) ranges
              0 (ranges.length : Int) [] = .ok newpoints
            ∧ newpoints.length = ranges.length
            ∧ ∀ v ∈ newpoints, v ∈ (List.range 276).map (fun n : Nat => (n : Int)) :=
  decimatePoints_index_safe 477 ((List.range 276).map (fun n : Nat => (n : Int))) 201
    (by simp) (by simp) (by norm_num) (by simp [enoughFuel])

/-- C10 as stated fails on 32-bit integers: for `n = 2^30 + 1` elements and 2 workers the sum
`dy + dy` wraps around and `getRanges` yields `[0, 0, 1]`, ranges of `0` and of `1` elements,
while `floor(n / 2) = 536870912` and `ceil(n / 2) = 536870913`. -/
theorem getRanges_near_equal_overflow :
    (0 : Int) ≤ 1073741825 ∧ (1 : Int) ≤ 2 ∧
    (∃ b : List Int, getRangesOn int32Wrapped 5 1073741825 2 [] = .ok b
      ∧ b[0]? = some 0 ∧ b[0 + 1]? = some 0)
    ∧ ⌊((1073741825 : Int) : ℚ) / (2 : Int)⌋ = 536870912
    ∧ ⌈((1073741825 : Int) : ℚ) / (2 : Int)⌉ = 536870913 := by
  refine ⟨by decide, by decide, ⟨[0, 0, 1], by decide, by decide, by decide⟩, ?_, ?_⟩
  · rw [Int.floor_eq_iff]; norm_num
  · rw [Int.ceil_eq_iff]; norm_num

/-- C10, amended: for `0 ≤ n ≤ 2^28`, `1 ≤ numthreads ≤ 2^28` and enough fuel, every range of
`getRanges` on 32-bit integers has `floor(n / numthreads)` or `ceil(n / numthreads)` elements,
and any two ranges differ in size by at most one. -/
theorem getRanges_near_equal (fuel : Nat) (n numthreads : Int) (ranges : List Int)
    (hn : 0 ≤ n ∧ n ≤ 2 ^ 28) (hk : 1 ≤ numthreads ∧ numthreads ≤ 2 ^ 28)
    (hf : enoughFuel 0 0 numthreads n ≤ fuel) :
    ∃ b : List Int, getRangesOn int32Wrapped fuel n numthreads ranges = .ok b
      ∧ (∀ t : Nat, (t : Int) < numthreads →
          ∃ lo hi : Int, b[t]? = some lo ∧ b[t + 1]? = some hi
            ∧ (hi - lo = ⌊(n : ℚ) / numthreads⌋ ∨ hi - lo = ⌈(n : ℚ) / numthreads⌉))
      ∧ (∀ t u : Nat, (t : Int) < numthreads → (u : Int) < numthreads →
          ∃ lo hi lo' hi' : Int, b[t]? = some lo ∧ b[t + 1]? = some hi
            ∧ b[u]? = some lo' ∧ b[u + 1]? = some hi'
            ∧ |(hi - lo) - (hi' - lo')| ≤ 1) := by
  norm_num at hn hk
  obtain ⟨hn, hn'⟩ := hn
  obtain ⟨hk, hk'⟩ := hk
  have hK : (numthreads - 0).natAbs = numthreads.toNat := by omega
  refine ⟨_, getRangesOn_eq int32Wrapped int32Wrapped_of_range fuel n numthreads ranges
    (by omega) (by omega) hf, ?_, ?_⟩
  · intro t ht
    rw [hK]
    exact ⟨_, _, getElem?_map_range _ _ t (by omega), getElem?_map_range _ _ (t + 1) (by omega),
      roundedLine_step_floor_ceil n numthreads t hn hk⟩
  · intro t u ht hu
    rw [hK]
    exact ⟨_, _, _, _, getElem?_map_range _ _ t (by omega),
      getElem?_map_range _ _ (t + 1) (by omega), getElem?_map_range _ _ u (by omega),
      getElem?_map_range _ _ (u + 1) (by omega), roundedLine_step_diff n numthreads t u hn hk⟩

/-- C10, amended, at the call of EXAMPLE 3: 55 elements over 3 workers. -/
theorem getRanges_near_equal_witness :
    ∃ b : List Int, getRangesOn int32Wrapped 60 55 3 [] = .ok b
      ∧ (∀ t : Nat, (t : Int) < 3 →
          ∃ lo hi : Int, b[t]? = some lo ∧ b[t + 1]? = some hi
            ∧ (hi - lo = ⌊((55 : Int) : ℚ) / (3 : Int)⌋ ∨ hi - lo = ⌈((55 : Int) : ℚ) / (3 : Int)⌉))
      ∧ (∀ t u : Nat, (t : Int) < 3 → (u : Int) < 3 →
          ∃ lo hi lo' hi' : Int, b[t]? = some lo ∧ b[t + 1]? = some hi
            ∧ b[u]? = some lo' ∧ b[u + 1]? = some hi'
            ∧ |(hi - lo) - (hi' - lo')| ≤ 1) :=
  getRanges_near_equal 60 55 3 [] (by norm_num) (by norm_num) (by decide)

/-- C11 as stated fails for an element type whose `operator==` is not reflexive, and on 32-bit
integers for a very long vector: resampling the two `double`s `[NaN, 1]` to 2 points copies both,
and the assert `points.front() == newpoints.front()` fails; resampling `2^30 + 1` elements to
their own number computes `dx + dx = 2^31`, a signed overflow. -/
theorem decimatePoints_identity_fails :
    decimatePointsOn int32Wrapped doubleEq 5 [Double.nan, Double.num 1]
        (([Double.nan, Double.num 1].length : Nat) : Int) = .error (.fault .assertFailed)
    ∧ ∀ fuel : Nat,
        decimatePointsOn int32Checked doubleEq fuel (List.replicate 1073741825 (Double.num 0))
          (((List.replicate 1073741825 (Double.num 0)).length : Nat) : Int)
          = .error .overflow :=
  ⟨by decide, fun fuel => decimatePointsOn_checked_overflow doubleEq fuel _
    (List.length_replicate _ _)⟩

/-- C11, amended: for a vector of `1 ≤ size ≤ 2^28` elements whose first and last element
compare equal to themselves under `operator==`, and with enough fuel, `decimatePoints` on 32-bit
integers with the own length as target returns the input unchanged, and the index that the walk
maps to position `i` is `i`. -/
theorem decimatePoints_identity {T : Type} (eq : T → T → Bool) (fuel : Nat) (S : List T)
    (hS : 1 ≤ S.length) (hlen : (S.length : Int) ≤ 2 ^ 28)
    (hfront : ∀ a : T, S.head? = some a → eq a a = true)
    (hback : ∀ c : T, S.getLast? = some c → eq c c = true)
    (hf : enoughFuel 0 0 ((S.length : Int) - 1) ((S.length : Int) - 1) ≤ fuel) :
    decimatePointsOn int32Wrapped eq fuel S (S.length : Int) = .ok S
      ∧ ∃ (n : Int) (ranges : List Int),
          stretchBresenhamPointsOn int32Wrapped fuel 0 0 ((S.length : Int) - 1)
              ((S.length : Int) - 1) [] = .ok (n, ranges)
            ∧ ranges.length = S.length
            ∧ ∀ i : Nat, i < S.length → ranges[i]? = some (i : Int) := by
  have hlen' : (S.length : Int) ≤ 268435456 := by norm_num at hlen; omega
  have hne : S ≠ [] := List.length_pos.1 (by omega)
  have hN : ((S.length : Int) - 1 - 0).natAbs + 1 = S.length := by omega
  refine ⟨decimatePointsOn_length_self int32Wrapped int32Wrapped_of_range eq fuel S hne hlen'
    hfront hback hf, _, _,
    stretchBresenhamPointsOn_eq int32Wrapped int32Wrapped_of_range fuel 0 0 _ _ []
      (by omega) (by omega) (by omega) (by omega) hf, ?_, ?_⟩
  · rw [length_map_range, hN]
  · intro i hi
    rw [getElem?_map_range _ _ i (by omega)]
    by_cases h1 : S.length = 1
    · have hi0 : i = 0 := by omega
      subst hi0
      rw [roundedLine_zero]; rfl
    · rw [roundedLine_diag ((S.length : Int) - 1) i (by omega)]

/-- C11, amended, on a vector of four `double`s. -/
theorem decimatePoints_identity_witness :
    decimatePointsOn int32Wrapped doubleEq 8
        [Double.num 10, Double.num 20, Double.num 30, Double.num 40]
        (([Double.num 10, Double.num 20, Double.num 30, Double.num 40].length : Nat) : Int)
        = .ok [Double.num 10, Double.num 20, Double.num 30, Double.num 40]
      ∧ ∃ (n : Int) (ranges : List Int),
          stretchBresenhamPointsOn int32Wrapped 8 0 0
              ((([Double.num 10, Double.num 20, Double.num 30, Double.num 40].length : Nat)
                : Int) - 1)
              ((([Double.num 10, Double.num 20, Double.num 30, Double.num 40].length : Nat)
                : Int) - 1) []
              = .ok (n, ranges)
            ∧ ranges.length = [Double.num 10, Double.num 20, Double.num 30, Double.num 40].length
            ∧ ∀ i : Nat,
                i < [Double.num 10, Double.num 20, Double.num 30, Double.num 40].length →
                  ranges[i]? = some (i : Int) :=
  decimatePoints_identity doubleEq 8 [Double.num 10, Double.num 20, Double.num 30, Double.num 40]
    (by decide) (by norm_num)
    (fun a h => by cases h; rfl) (fun c h => by cases h; rfl) (by decide)

/-- C12 as stated fails for an element type whose `operator==` is not reflexive, and on 32-bit
integers for a very long vector: resampling the two `double`s `[NaN, 1]` to 2 points ends in the
failed assert `points.front() == newpoints.front()`, so there is no first result to resample
again; resampling `2^30 + 1` elements to their own number computes `dx + dx = 2^31`, a signed
overflow. -/
theorem decimatePoints_twice_fails :
    (¬ ∃ once : List Double,
        decimatePointsOn int32Wrapped doubleEq 5 [Double.nan, Double.num 1]
          (([Double.nan, Double.num 1].length : Nat) : Int) = .ok once)
    ∧ ∀ fuel : Nat,
        ¬ ∃ once : List Double,
          decimatePointsOn int32Checked doubleEq fuel
            (List.replicate 1073741825 (Double.num 0))
            (((List.replicate 1073741825 (Double.num 0)).length : Nat) : Int) = .ok once := by
  constructor
  · rintro ⟨once, h⟩
    have h' : decimatePointsOn int32Wrapped doubleEq 5 [Double.nan, Double.num 1]
        (([Double.nan, Double.num 1].length : Nat) : Int) = .error (.fault .assertFailed) := by
      decide
    rw [h'] at h
    exact Except.noConfusion h
  · rintro fuel ⟨once, h⟩
    rw [decimatePointsOn_checked_overflow doubleEq fuel _ (List.length_replicate _ _)] at h
    exact Except.noConfusion h

/-- C12, amended: for a vector of `1 ≤ size ≤ 2^28` elements whose first and last element
compare equal to themselves under `operator==`, and with enough fuel, resampling to the own
length and resampling the result to that length again both end normally on 32-bit integers, and
the second result equals the first. -/
theorem decimatePoints_twice {T : Type} (eq : T → T → Bool) (fuel : Nat) (S : List T)
    (hS : 1 ≤ S.length) (hlen : (S.length : Int) ≤ 2 ^ 28)
    (hfront : ∀ a : T, S.head? = some a → eq a a = true)
    (hback : ∀ c : T, S.getLast? = some c → eq c c = true)
    (hf : enoughFuel 0 0 ((S.length : Int) - 1) ((S.length : Int) - 1) ≤ fuel) :
    ∃ once twice : List T,
      decimatePointsOn int32Wrapped eq fuel S (S.length : Int) = .ok once
        ∧ decimatePointsOn int32Wrapped eq fuel once (S.length : Int) = .ok twice
        ∧ twice = once := by
  have hlen' : (S.length : Int) ≤ 268435456 := by norm_num at hlen; omega
  have hne : S ≠ [] := List.length_pos.1 (by omega)
  have h := decimatePointsOn_length_self int32Wrapped int32Wrapped_of_range eq fuel S hne hlen'
    hfront hback hf
  exact ⟨S, S, h, h, rfl⟩

/-- C12, amended, on a vector of four `double`s. -/
theorem decimatePoints_twice_witness :
    ∃ once twice : List Double,
      decimatePointsOn int32Wrapped doubleEq 8
          [Double.num 10, Double.num 20, Double.num 30, Double.num 40]
          (([Double.num 10, Double.num 20, Double.num 30, Double.num 40].length : Nat) : Int)
          = .ok once
        ∧ decimatePointsOn int32Wrapped doubleEq 8 once
          (([Double.num 10, Double.num 20, Double.num 30, Double.num 40].length : Nat) : Int)
          = .ok twice
        ∧ twice = once :=
  decimatePoints_twice doubleEq 8 [Double.num 10, Double.num 20, Double.num 30, Double.num 40]
    (by decide) (by norm_num)
    (fun a h => by cases h; rfl) (fun c h => by cases h; rfl) (by decide)

/-- C13 as stated fails on 32-bit integers: for `n = 2^30 + 1` elements and 2 workers, not more
workers than elements, the sum `dy + dy` wraps around and `getRanges` yields `[0, 0, 1]`, whose
first range is empty. -/
theorem getRanges_empty_ranges_overflow :
    (0 : Int) ≤ 1073741825 ∧ (1 : Int) ≤ 2 ∧ (2 : Int) ≤ 1073741825 ∧
    ∃ b : List Int, getRangesOn int32Wrapped 5 1073741825 2 [] = .ok b
      ∧ ∃ t : Nat, (t : Int) < 2 ∧ ∃ v : Int, b[t]? = some v ∧ b[t + 1]? = some v :=
  ⟨by decide, by decide, by decide, [0, 0, 1], by decide, 0, by decide, 0, by decide,
    by decide⟩

/-- C13, amended: for `0 ≤ n ≤ 2^28`, `1 ≤ numthreads ≤ 2^28` and enough fuel, `getRanges` on
32-bit integers ends normally, and with more workers than elements some range is empty, while
otherwise every range is non-empty. -/
theorem getRanges_empty_ranges (fuel : Nat) (n numthreads : Int) (ranges : List Int)
    (hn : 0 ≤ n ∧ n ≤ 2 ^ 28) (hk : 1 ≤ numthreads ∧ numthreads ≤ 2 ^ 28)
    (hf : enoughFuel 0 0 numthreads n ≤ fuel) :
    ∃ b : List Int, getRangesOn int32Wrapped fuel n numthreads ranges = .ok b
      ∧ (n < numthreads →
          ∃ t : Nat, (t : Int) < numthreads
            ∧ ∃ v : Int, b[t]? = some v ∧ b[t + 1]? = some v)
      ∧ (numthreads ≤ n →
          ∀ t : Nat, (t : Int) < numthreads →
            ∃ lo hi : Int, b[t]? = some lo ∧ b[t + 1]? = some hi ∧ lo < hi) := by
  norm_num at hn hk
  obtain ⟨hn, hn'⟩ := hn
  obtain ⟨hk, hk'⟩ := hk
  have hK : (numthreads - 0).natAbs = numthreads.toNat := by omega
  refine ⟨_, getRangesOn_eq int32Wrapped int32Wrapped_of_range fuel n numthreads ranges
    (by omega) (by omega) hf, ?_, ?_⟩
  · intro hlt
    rw [hK]
    by_contra hcon
    push_neg at hcon
    have hgrow : ∀ t : Nat, t ≤ numthreads.toNat →
        (t : Int) ≤ roundedLine 0 0 numthreads n t := by
      intro t
      induction t with
      | zero => intro _; rw [roundedLine_zero]; rfl
      | succ t ih =>
        intro ht
        have h1 := ih (by omega)
        have h2 := roundedLine_mono 0 0 numthreads n t (t + 1) hn (by omega)
        have h3 := hcon t (by omega) (roundedLine 0 0 numthreads n t)
          (getElem?_map_range _ _ t (by omega))
        rw [getElem?_map_range _ _ (t + 1) (by omega)] at h3
        have h4 : roundedLine 0 0 numthreads n (t + 1) ≠ roundedLine 0 0 numthreads n t :=
          fun h => h3 (congrArg some h)
        push_cast
        omega
    have hfull := hgrow numthreads.toNat (le_refl _)
    have hlast : roundedLine 0 0 numthreads n numthreads.toNat = n := by
      rw [← hK]; exact roundedLine_last 0 0 numthreads n (by omega)
    rw [hlast] at hfull
    omega
  · intro hle t ht
    rw [hK]
    refine ⟨_, _, getElem?_map_range _ _ t (by omega),
      getElem?_map_range _ _ (t + 1) (by omega), ?_⟩
    obtain ⟨h1, h2⟩ := roundedLine_step n numthreads t hn hk
    by_contra hcon
    have : roundedLine 0 0 numthreads n (t + 1) - roundedLine 0 0 numthreads n t ≤ 0 := by omega
    nlinarith

/-- C13, amended, with more workers than elements (2 elements, 5 workers: some range is empty)
and with more elements than workers (EXAMPLE 3, 55 elements, 3 workers: no range is empty). -/
theorem getRanges_empty_ranges_witness :
    (∃ b : List Int, getRangesOn int32Wrapped 9 2 5 [] = .ok b
      ∧ ∃ t : Nat, (t : Int) < 5 ∧ ∃ v : Int, b[t]? = some v ∧ b[t + 1]? = some v)
    ∧ (∃ b : List Int, getRangesOn int32Wrapped 60 55 3 [] = .ok b
      ∧ ∀ t : Nat, (t : Int) < 3 →
          ∃ lo hi : Int, b[t]? = some lo ∧ b[t + 1]? = some hi ∧ lo < hi) := by
  obtain ⟨b, h1, h2, _⟩ := getRanges_empty_ranges 9 2 5 [] (by norm_num) (by norm_num)
    (by decide)
  obtain ⟨b', h1', _, h3'⟩ := getRanges_empty_ranges 60 55 3 [] (by norm_num) (by norm_num)
    (by decide)
  exact ⟨⟨b, h1, h2 (by decide)⟩, ⟨b', h1', h3' (by decide)⟩⟩

/-- C14 as stated fails on 32-bit integers: for a vector of `2^30 + 2` elements decimated to 3
points the sum `dy + dy` wraps around, and the walk from `(0, 0)` to `(2, 2^30 + 1)` yields the
indices `[0, 0, 1]`, which are not strictly increasing: element `0` is copied twice. -/
theorem decimatePoints_decimation_overflow :
    (1 : Int) ≤ 3 ∧ (3 : Int) ≤ 1073741826 ∧
    ∃ ranges : List Int,
      stretchBresenhamPointsOn int32Wrapped 5 0 0 (3 - 1) (1073741826 - 1) [] = .ok (3, ranges)
        ∧ ranges = [0, 0, 1] ∧ ¬ ranges.Pairwise (· < ·) :=
  ⟨by decide, by decide, [0, 0, 1], by decide, rfl, by decide⟩

/-- C14, amended: for `1 ≤ targetLength ≤ size ≤ 2^28` and enough fuel, the indices of the walk
on 32-bit integers from `(0, 0)` to `(targetLength - 1, size - 1)` are strictly increasing; the
copying loop of `decimatePoints` ends normally, and the vector it builds is a sublist of the
input (elements are skipped, never repeated or reordered).  That vector is the only value
`decimatePoints` can return, and it is returned whenever `targetLength ≥ 2` and the first and
the last element of the input compare equal to themselves under `operator==`. -/
theorem decimatePoints_decimation {T : Type} (eq : T → T → Bool) (fuel : Nat) (S : List T)
    (targetLength : Int) (h1 : 1 ≤ targetLength) (h2 : targetLength ≤ S.length)
    (hlen : (S.length : Int) ≤ 2 ^ 28)
    (hf : enoughFuel 0 0 (targetLength - 1) ((S.length : Int) - 1) ≤ fuel) :
    ∃ (n : Int) (ranges : List Int) (newpoints : List T),
      stretchBresenhamPointsOn int32Wrapped fuel 0 0 (targetLength - 1) ((S.length : Int) - 1) []
          = .ok (n, ranges)
        ∧ ranges.Pairwise (· < ·)
        ∧ gatherPointsOn int32Wrapped S ranges 0 (ranges.length : Int) [] = .ok newpoints
        ∧ newpoints.Sublist S
        ∧ (∀ out : List T,
            decimatePointsOn int32Wrapped eq fuel S targetLength = .ok out → out = newpoints)
        ∧ (2 ≤ targetLength → (∀ a : T, S.head? = some a → eq a a = true) →
            (∀ c : T, S.getLast? = some c → eq c c = true) →
            decimatePointsOn int32Wrapped eq fuel S targetLength = .ok newpoints) := by
  have hlen' : (S.length : Int) ≤ 268435456 := by norm_num at hlen; omega
  have hpos : 0 < S.length := by omega
  have hne : S ≠ [] := List.length_pos.1 hpos
  obtain ⟨d, hd⟩ : ∃ d, S.head? = some d := by
    cases S with
    | nil => exact absurd rfl hne
    | cons a l => exact ⟨a, rfl⟩
  refine ⟨_, _, resampled S targetLength d,
    stretchBresenhamPointsOn_eq int32Wrapped int32Wrapped_of_range fuel 0 0 (targetLength - 1)
      ((S.length : Int) - 1) [] (by omega) (by omega) (by omega) (by omega) hf,
    ?_, gatherPointsOn_decimate int32Wrapped int32Wrapped_of_range S targetLength d hne
      (by omega),
    resampled_sublist S targetLength d hne h1 h2,
    fun out h => decimatePointsOn_ok_eq int32Wrapped int32Wrapped_of_range eq fuel S out
      targetLength d hne (by omega) (by omega) hf h, ?_⟩
  · apply pairwise_map_range
    intro i j hij hj
    by_cases hone : targetLength = 1
    · subst hone
      simp at hj
      omega
    · exact roundedLine_strictMono 0 0 (targetLength - 1) ((S.length : Int) - 1) (by omega)
        (by omega) (by omega) i j hij
  · intro h hfront hback
    exact decimatePointsOn_eq int32Wrapped int32Wrapped_of_range eq fuel S targetLength d hne
      (by omega) (by omega) hf (Or.inl (by omega)) (hfront _ (head?_eq_getD S d hne))
      (hback _ (getLast?_eq_getD S d hne))

/-- C14, amended, at the call of EXAMPLE 2: the 276 `double`s `0, 1, ..., 275` decimated to 201
are a sublist of the 276. -/
theorem decimatePoints_decimation_witness :
    ∃ (n : Int) (ranges : List Int) (newpoints : List Double),
      stretchBresenhamPointsOn int32Wrapped 477 0 0 (201 - 1)
          ((((List.range 276).map (fun n : Nat => Double.num n)).length : Int) - 1) []
          = .ok (n, ranges)
        ∧ ranges.Pairwise (· < ·)
        ∧ gatherPointsOn int32Wrapped ((List.range 276).map (fun n : Nat => Double.num n))
            ranges 0 (ranges.length : Int) [] = .ok newpoints
        ∧ newpoints.Sublist ((List.range 276).map (fun n : Nat => Double.num n))
        ∧ decimatePointsOn int32Wrapped doubleEq 477
            ((List.range 276).map (fun n : Nat => Double.num n)) 201 = .ok newpoints := by
  obtain ⟨n, ranges, newpoints, h1, h2, h3, h4, _, h6⟩ := decimatePoints_decimation doubleEq 477
    ((List.range 276).map (fun n : Nat => Double.num n)) 201 (by decide) (by simp) (by simp)
    (by simp [enoughFuel])
  refine ⟨n, ranges, newpoints, h1, h2, h3, h4, h6 (by decide) ?_ ?_⟩
  · intro a h
    rw [head?_map_range] at h
    cases h
    rfl
  · intro c h
    rw [getLast?_map_range] at h
    cases h
    rfl

/-- C15 as stated fails for an element type whose `operator==` is not reflexive, and on 32-bit
integers for a very large target length: expanding the two `double`s `[NaN, 1]` to 2 points ends
in the failed assert `points.front() == newpoints.front()`; expanding three elements to
`2^30 + 2` points lets `dx + dx` wrap around, and the copying loop reads outside the vector. -/
theorem decimatePoints_expansion_fails :
    (1 ≤ [Double.nan, Double.num 1].length
      ∧ (([Double.nan, Double.num 1].length : Nat) : Int) ≤ 2
      ∧ decimatePointsOn int32Wrapped doubleEq 5 [Double.nan, Double.num 1] 2
          = .error (.fault .assertFailed))
    ∧ (1 ≤ [Double.num 10, Double.num 20, Double.num 30].length
      ∧ (([Double.num 10, Double.num 20, Double.num 30].length : Nat) : Int) ≤ 1073741826
      ∧ decimatePointsOn int32Wrapped doubleEq 1073741827
          [Double.num 10, Double.num 20, Double.num 30] 1073741826
          = .error (.fault .outOfBounds)) :=
  ⟨⟨by decide, by decide, by decide⟩, by decide, by decide,
    decimatePointsOn_wrapped_overflow doubleEq 1073741827 (by decide)
      [Double.num 10, Double.num 20, Double.num 30] rfl 1073741826 (Or.inl rfl)⟩

/-- C15, amended: for `1 ≤ size ≤ targetLength ≤ 2^28`, an input whose first and last element
compare equal to themselves under `operator==`, and enough fuel, the indices of the walk on
32-bit integers from `(0, 0)` to `(targetLength - 1, size - 1)` are non-decreasing and every
index `0 .. size-1` occurs among them; `decimatePoints` ends normally and the input is a sublist
of its result (every element appears, in the original order). -/
theorem decimatePoints_expansion {T : Type} (eq : T → T → Bool) (fuel : Nat) (S : List T)
    (targetLength : Int) (h1 : 1 ≤ S.length) (h2 : (S.length : Int) ≤ targetLength)
    (ht : targetLength ≤ 2 ^ 28)
    (hfront : ∀ a : T, S.head? = some a → eq a a = true)
    (hback : ∀ c : T, S.getLast? = some c → eq c c = true)
    (hf : enoughFuel 0 0 (targetLength - 1) ((S.length : Int) - 1) ≤ fuel) :
    ∃ (n : Int) (ranges : List Int) (out : List T),
      stretchBresenhamPointsOn int32Wrapped fuel 0 0 (targetLength - 1) ((S.length : Int) - 1) []
          = .ok (n, ranges)
        ∧ ranges.Pairwise (· ≤ ·)
        ∧ (∀ m : Nat, m < S.length → (m : Int) ∈ ranges)
        ∧ decimatePointsOn int32Wrapped eq fuel S targetLength = .ok out
        ∧ S.Sublist out := by
  have ht' : targetLength ≤ 268435456 := by norm_num at ht; omega
  have hne : S ≠ [] := List.length_pos.1 (by omega)
  obtain ⟨d, hd⟩ : ∃ d, S.head? = some d := by
    cases S with
    | nil => exact absurd rfl hne
    | cons a l => exact ⟨a, rfl⟩
  have hn : targetLength ≠ 1 ∨ S.length = 1 := by omega
  refine ⟨_, _, resampled S targetLength d,
    stretchBresenhamPointsOn_eq int32Wrapped int32Wrapped_of_range fuel 0 0 (targetLength - 1)
      ((S.length : Int) - 1) [] (by omega) (by omega) (by omega) (by omega) hf,
    ?_, ?_, decimatePointsOn_eq int32Wrapped int32Wrapped_of_range eq fuel S targetLength d hne
      (by omega) (by omega) hf hn (hfront _ (head?_eq_getD S d hne))
      (hback _ (getLast?_eq_getD S d hne)),
    sublist_resampled S targetLength d hne h2⟩
  · exact pairwise_map_range _ _ _
      (fun i j hij _ => roundedLine_mono 0 0 (targetLength - 1) ((S.length : Int) - 1) i j
        (by omega) (by omega))
  · intro m hm
    obtain ⟨i, hi, hv⟩ := roundedLine_surj 0 0 (targetLength - 1) ((S.length : Int) - 1)
      (m : Int) (by omega) (by omega) (by omega) (by omega)
    rw [List.mem_map]
    exact ⟨i, List.mem_range.2 (by omega), hv⟩

/-- C15, amended, on three `double`s expanded to seven. -/
theorem decimatePoints_expansion_witness :
    ∃ (n : Int) (ranges : List Int) (out : List Double),
      stretchBresenhamPointsOn int32Wrapped 10 0 0 (7 - 1)
          ((([Double.num 10, Double.num 20, Double.num 30].length : Nat) : Int) - 1) []
          = .ok (n, ranges)
        ∧ ranges.Pairwise (· ≤ ·)
        ∧ (∀ m : Nat, m < [Double.num 10, Double.num 20, Double.num 30].length →
            (m : Int) ∈ ranges)
        ∧ decimatePointsOn int32Wrapped doubleEq 10
            [Double.num 10, Double.num 20, Double.num 30] 7 = .ok out
        ∧ [Double.num 10, Double.num 20, Double.num 30].Sublist out :=
  decimatePoints_expansion doubleEq 10 [Double.num 10, Double.num 20, Double.num 30] 7
    (by decide) (by decide) (by norm_num)
    (fun a h => by cases h; rfl) (fun c h => by cases h; rfl) (by decide)

/-- C16 as stated fails.  On the vertical segment from `(5, 7)` to `(5, 9)` the function returns
`[7]` through its single-point branch, and the `for` loop makes no pass at all, not
`|x2 - x1| + 1 = 1` passes.  On 32-bit integers the bound on `e` fails as well once `dy + dy`
wraps around: on the walk from `(0, 0)` to `(2, 2^30 + 1)` the correction loop of the first pass
leaves `e = -2^31`, below `-2 * dx = -4`. -/
theorem stretchBresenhamPointsLogged_no_pass :
    (∃ log : List PassLog,
      stretchBresenhamPointsLoggedOn int32Wrapped 3 5 7 5 9 [] = .ok ((1, [7]), log)
        ∧ log.length = 0 ∧ ((5 : Int) - 5).natAbs + 1 = 1)
    ∧ (∃ (out : List Int) (log : List PassLog) (r : PassLog),
      stretchBresenhamPointsLoggedOn int32Wrapped 5 0 0 2 1073741825 [] = .ok ((3, out), log)
        ∧ log[0]? = some r ∧ r.e = -2147483648 ∧ r.e < -(2 * ((2 : Int) - 0).natAbs)) :=
  ⟨⟨[], by decide, by decide, by decide⟩,
    [0, 0, 1], [⟨0, -2147483648⟩, ⟨1, -2⟩, ⟨0, -2147483648⟩], ⟨0, -2147483648⟩,
    by decide, by decide, rfl, by decide⟩

/-- C16, amended: for coordinates in `[-2^28, 2^28]` and enough fuel, `stretchBresenhamPoints`
on 32-bit integers ends normally.  When `x1 ≠ x2` its `for` loop makes exactly `|x2 - x1| + 1`
passes, and when `x1 = x2` it makes none: the function returns `[y1]` before the loop.  In every
pass the correction loop ends after at most `|y2 - y1|` runs of its body and leaves
`-2 * dx ≤ e ≤ -1`. -/
theorem stretchBresenhamPoints_terminates (fuel : Nat) (x1 y1 x2 y2 : Int) (points : List Int)
    (hx1 : -2 ^ 28 ≤ x1 ∧ x1 ≤ 2 ^ 28) (hy1 : -2 ^ 28 ≤ y1 ∧ y1 ≤ 2 ^ 28)
    (hx2 : -2 ^ 28 ≤ x2 ∧ x2 ≤ 2 ^ 28) (hy2 : -2 ^ 28 ≤ y2 ∧ y2 ≤ 2 ^ 28)
    (hf : enoughFuel x1 y1 x2 y2 ≤ fuel) :
    ∃ (n : Int) (out : List Int) (log : List PassLog),
      stretchBresenhamPointsOn int32Wrapped fuel x1 y1 x2 y2 points = .ok (n, out)
        ∧ stretchBresenhamPointsLoggedOn int32Wrapped fuel x1 y1 x2 y2 points
            = .ok ((n, out), log)
        ∧ (x1 ≠ x2 → (log.length : Int) = |x2 - x1| + 1)
        ∧ (x1 = x2 → log = [] ∧ out = [y1])
        ∧ ∀ r ∈ log, -(2 * |x2 - x1|) ≤ r.e ∧ r.e ≤ -1 ∧ (r.firings : Int) ≤ |y2 - y1| := by
  norm_num at hx1 hy1 hx2 hy2
  obtain ⟨log, hlog, h0, h1, hall⟩ := stretchBresenhamPointsLoggedOn_eq int32Wrapped
    int32Wrapped_of_range fuel x1 y1 x2 y2 points hx1 hy1 hx2 hy2 hf
  refine ⟨_, _, log, stretchBresenhamPointsOn_eq int32Wrapped int32Wrapped_of_range fuel
    x1 y1 x2 y2 points hx1 hy1 hx2 hy2 hf, hlog, ?_, ?_, ?_⟩
  · intro hx
    rw [h1 hx, ← Int.natCast_natAbs]
    push_cast
    rfl
  · intro hx
    refine ⟨h0 hx, ?_⟩
    have hz : (x2 - x1).natAbs = 0 := by omega
    have hrange : List.range 1 = [0] := rfl
    rw [hz, hrange, List.map_cons, List.map_nil, roundedLine_zero]
  · intro r hr
    obtain ⟨b1, b2, b3, _⟩ := hall r hr
    rw [← Int.natCast_natAbs, ← Int.natCast_natAbs]
    exact ⟨b1, b2, by exact_mod_cast b3⟩

/-- C16, amended, at the line of EXAMPLE 1, from `(330, 8)` to `(206, 33)`: 125 passes. -/
theorem stretchBresenhamPoints_terminates_witness :
    ∃ (n : Int) (out : List Int) (log : List PassLog),
      stretchBresenhamPointsOn int32Wrapped 151 330 8 206 33 [] = .ok (n, out)
        ∧ stretchBresenhamPointsLoggedOn int32Wrapped 151 330 8 206 33 [] = .ok ((n, out), log)
        ∧ log.length = 125
        ∧ ∀ r ∈ log, -(2 * |(206 : Int) - 330|) ≤ r.e ∧ r.e ≤ -1
            ∧ (r.firings : Int) ≤ |(33 : Int) - 8| := by
  obtain ⟨n, out, log, h1, h2, h3, _, h5⟩ :=
    stretchBresenhamPoints_terminates 151 330 8 206 33 [] (by norm_num) (by norm_num)
      (by norm_num) (by norm_num) (by decide)
  have h6 : (log.length : Int) = 125 := by rw [h3 (by decide)]; norm_num
  exact ⟨n, out, log, h1, h2, by exact_mod_cast h6, h5⟩

/-- C17 as stated fails on 32-bit integers: on the walk from `(0, 2^31 - 1)` down to
`(2, -(2^31 - 1))` the difference `y2 - y1` wraps around to `2`, so `y` is stepped upwards and
wraps around: the output `[2147483647, -2147483648, -2147483647]` rises in its last step although
`y2 < y1`, and `-2147483648` lies below `min y1 y2`. -/
theorem stretchBresenhamPoints_monotone_overflow :
    (-2147483647 : Int) < 2147483647 ∧
    ∃ out : List Int,
      stretchBresenhamPointsOn int32Wrapped 5 0 2147483647 2 (-2147483647) [] = .ok (3, out)
        ∧ out = [2147483647, -2147483648, -2147483647]
        ∧ ¬ out.Pairwise (· ≥ ·)
        ∧ ∃ v ∈ out, v < min 2147483647 (-2147483647) :=
  ⟨by decide, [2147483647, -2147483648, -2147483647], by decide, rfl, by decide,
    -2147483648, by decide, by decide⟩

/-- C17, amended: for coordinates in `[-2^28, 2^28]` and enough fuel, the output of
`stretchBresenhamPoints` on 32-bit integers is non-decreasing when `y2 ≥ y1`, non-increasing
when `y2 < y1`, and every value lies between `min y1 y2` and `max y1 y2`. -/
theorem stretchBresenhamPoints_monotone (fuel : Nat) (x1 y1 x2 y2 : Int) (points : List Int)
    (hx1 : -2 ^ 28 ≤ x1 ∧ x1 ≤ 2 ^ 28) (hy1 : -2 ^ 28 ≤ y1 ∧ y1 ≤ 2 ^ 28)
    (hx2 : -2 ^ 28 ≤ x2 ∧ x2 ≤ 2 ^ 28) (hy2 : -2 ^ 28 ≤ y2 ∧ y2 ≤ 2 ^ 28)
    (hf : enoughFuel x1 y1 x2 y2 ≤ fuel) :
    ∃ (n : Int) (out : List Int),
      stretchBresenhamPointsOn int32Wrapped fuel x1 y1 x2 y2 points = .ok (n, out)
        ∧ (y2 ≥ y1 → out.Pairwise (· ≤ ·))
        ∧ (y2 < y1 → out.Pairwise (· ≥ ·))
        ∧ ∀ v ∈ out, min y1 y2 ≤ v ∧ v ≤ max y1 y2 := by
  norm_num at hx1 hy1 hx2 hy2
  refine ⟨_, _, stretchBresenhamPointsOn_eq int32Wrapped int32Wrapped_of_range fuel x1 y1 x2 y2
    points hx1 hy1 hx2 hy2 hf, ?_, ?_, ?_⟩
  · intro hy
    exact pairwise_map_range _ _ _
      (fun i j hij _ => roundedLine_mono x1 y1 x2 y2 i j hy (by omega))
  · intro hy
    exact pairwise_map_range _ _ _
      (fun i j hij _ => roundedLine_anti x1 y1 x2 y2 i j hy (by omega))
  · intro v hv
    rw [List.mem_map] at hv
    obtain ⟨i, hi, rfl⟩ := hv
    rw [List.mem_range] at hi
    by_cases hy : y1 ≤ y2
    · have := roundedLine_bounds x1 y1 x2 y2 i hy (by omega)
      rw [min_eq_left hy, max_eq_right hy]
      exact this
    · have := roundedLine_bounds_falling x1 y1 x2 y2 i (by omega) (by omega)
      rw [min_eq_right (by omega), max_eq_left (by omega)]
      exact this

/-- C17, amended, at the line of EXAMPLE 1, from `(330, 8)` to `(206, 33)`. -/
theorem stretchBresenhamPoints_monotone_witness :
    ∃ (n : Int) (out : List Int),
      stretchBresenhamPointsOn int32Wrapped 151 330 8 206 33 [] = .ok (n, out)
        ∧ out.Pairwise (· ≤ ·)
        ∧ ∀ v ∈ out, (8 : Int) ≤ v ∧ v ≤ 33 := by
  obtain ⟨n, out, h1, h2, _, h4⟩ := stretchBresenhamPoints_monotone 151 330 8 206 33 []
    (by norm_num) (by norm_num) (by norm_num) (by norm_num) (by decide)
  exact ⟨n, out, h1, h2 (by decide), h4⟩

/-- C18 as stated fails on 32-bit integers: on the walk from `(0, 0)` to `(2, 2^30 + 1)` the sum
`dy + dy` wraps around, the output is `[0, 0, 1]` with steps `0` and `1`, while
`floor(dy / dx) = 536870912` and `ceil(dy / dx) = 536870913`. -/
theorem stretchBresenhamPoints_uniform_step_overflow :
    (0 : Int) ≠ 2 ∧
    (∃ out : List Int,
      stretchBresenhamPointsOn int32Wrapped 5 0 0 2 1073741825 [] = .ok (3, out)
        ∧ out[0]? = some 0 ∧ out[0 + 1]? = some 0 ∧ |(0 : Int) - 0| = 0)
    ∧ ⌊((|(1073741825 : Int) - 0| : Int) : ℚ) / (|(2 : Int) - 0| : Int)⌋ = 536870912
    ∧ ⌈((|(1073741825 : Int) - 0| : Int) : ℚ) / (|(2 : Int) - 0| : Int)⌉ = 536870913 := by
  refine ⟨by decide, ⟨[0, 0, 1], by decide, by decide, by decide, by norm_num⟩, ?_, ?_⟩
  · rw [Int.floor_eq_iff]; norm_num
  · rw [Int.ceil_eq_iff]; norm_num

/-- C18, amended: for `x1 ≠ x2`, coordinates in `[-2^28, 2^28]` and enough fuel, two consecutive
outputs of `stretchBresenhamPoints` on 32-bit integers differ in absolute value by
`floor(dy / dx)` or by `ceil(dy / dx)`, and by at most one when `dy ≤ dx`; when `dy ≤ dx` the
body of the correction loop runs at most once in every pass of the `for` loop. -/
theorem stretchBresenhamPoints_uniform_step (fuel : Nat) (x1 y1 x2 y2 : Int)
    (points : List Int) (hx : x1 ≠ x2)
    (hx1 : -2 ^ 28 ≤ x1 ∧ x1 ≤ 2 ^ 28) (hy1 : -2 ^ 28 ≤ y1 ∧ y1 ≤ 2 ^ 28)
    (hx2 : -2 ^ 28 ≤ x2 ∧ x2 ≤ 2 ^ 28) (hy2 : -2 ^ 28 ≤ y2 ∧ y2 ≤ 2 ^ 28)
    (hf : enoughFuel x1 y1 x2 y2 ≤ fuel) :
    ∃ (n : Int) (out : List Int) (log : List PassLog),
      stretchBresenhamPointsOn int32Wrapped fuel x1 y1 x2 y2 points = .ok (n, out)
        ∧ stretchBresenhamPointsLoggedOn int32Wrapped fuel x1 y1 x2 y2 points
            = .ok ((n, out), log)
        ∧ (∀ i : Nat, (i : Int) < |x2 - x1| →
            ∃ a b : Int, out[i]? = some a ∧ out[i + 1]? = some b
              ∧ (|b - a| = ⌊((|y2 - y1| : Int) : ℚ) / (|x2 - x1| : Int)⌋
                  ∨ |b - a| = ⌈((|y2 - y1| : Int) : ℚ) / (|x2 - x1| : Int)⌉)
              ∧ (|y2 - y1| ≤ |x2 - x1| → |b - a| ≤ 1))
        ∧ (|y2 - y1| ≤ |x2 - x1| → ∀ r ∈ log, r.firings ≤ 1) := by
  norm_num at hx1 hy1 hx2 hy2
  obtain ⟨log, hlog, _, _, hall⟩ := stretchBresenhamPointsLoggedOn_eq int32Wrapped
    int32Wrapped_of_range fuel x1 y1 x2 y2 points hx1 hy1 hx2 hy2 hf
  refine ⟨_, _, log, stretchBresenhamPointsOn_eq int32Wrapped int32Wrapped_of_range fuel
    x1 y1 x2 y2 points hx1 hy1 hx2 hy2 hf, hlog, ?_, ?_⟩
  · intro i hi
    rw [← Int.natCast_natAbs] at hi
    have hi' : i < (x2 - x1).natAbs := by exact_mod_cast hi
    obtain ⟨h1, h2⟩ := roundedLine_step_size x1 y1 x2 y2 i hx
    exact ⟨_, _, getElem?_map_range _ _ i (by omega),
      getElem?_map_range _ _ (i + 1) (by omega), h1, h2⟩
  · intro hle r hr
    rw [← Int.natCast_natAbs, ← Int.natCast_natAbs] at hle
    exact (hall r hr).2.2.2 (by exact_mod_cast hle)

/-- C18, amended, at the line of EXAMPLE 1, from `(330, 8)` to `(206, 33)`, where
`dy = 25 ≤ dx = 124`. -/
theorem stretchBresenhamPoints_uniform_step_witness :
    ∃ (n : Int) (out : List Int) (log : List PassLog),
      stretchBresenhamPointsOn int32Wrapped 151 330 8 206 33 [] = .ok (n, out)
        ∧ stretchBresenhamPointsLoggedOn int32Wrapped 151 330 8 206 33 [] = .ok ((n, out), log)
        ∧ (∀ i : Nat, (i : Int) < |(206 : Int) - 330| →
            ∃ a b : Int, out[i]? = some a ∧ out[i + 1]? = some b
              ∧ (|b - a| = ⌊((|(33 : Int) - 8| : Int) : ℚ) / (|(206 : Int) - 330| : Int)⌋
                  ∨ |b - a| = ⌈((|(33 : Int) - 8| : Int) : ℚ) / (|(206 : Int) - 330| : Int)⌉)
              ∧ (|(33 : Int) - 8| ≤ |(206 : Int) - 330| → |b - a| ≤ 1))
        ∧ (|(33 : Int) - 8| ≤ |(206 : Int) - 330| → ∀ r ∈ log, r.firings ≤ 1) :=
  stretchBresenhamPoints_uniform_step 151 330 8 206 33 [] (by decide) (by norm_num)
    (by norm_num) (by norm_num) (by norm_num) (by decide)

/-- C19 as stated fails for an element type whose `operator==` is not reflexive, and on 32-bit
integers for a very large negative target length: resampling the two `double`s `[NaN, 1]` to
`0` points copies both, and the assert `points.front() == newpoints.front()` fails; resampling
three elements to `-2^30` points lets `dx + dx` wrap around, and the copying loop reads outside
the vector. -/
theorem decimatePoints_nonpositive_fails :
    ((0 : Int) ≤ 0
      ∧ decimatePointsOn int32Wrapped doubleEq 5 [Double.nan, Double.num 1] 0
          = .error (.fault .assertFailed))
    ∧ ((-1073741824 : Int) ≤ 0
      ∧ decimatePointsOn int32Wrapped doubleEq 1073741827
          [Double.num 10, Double.num 20, Double.num 30] (-1073741824)
          = .error (.fault .outOfBounds)) :=
  ⟨⟨by decide, by decide⟩, by decide,
    decimatePointsOn_wrapped_overflow doubleEq 1073741827 (by decide)
      [Double.num 10, Double.num 20, Double.num 30] rfl (-1073741824) (Or.inr rfl)⟩

/-- C19, amended: for a vector of `1 ≤ size ≤ 2^28` elements whose first and last element
compare equal to themselves under `operator==`, a target length `-2^28 < targetLength ≤ 0` and
enough fuel, `decimatePoints` on 32-bit integers ends normally (no read out of bounds, no failed
assert) with `2 - targetLength` elements; for the target length `0` the result is the first and
the last element of the input. -/
theorem decimatePoints_nonpositive {T : Type} (eq : T → T → Bool) (fuel : Nat) (S : List T)
    (targetLength : Int) (hS : 1 ≤ S.length) (hlen : (S.length : Int) ≤ 2 ^ 28)
    (ht : -2 ^ 28 < targetLength ∧ targetLength ≤ 0)
    (hfront : ∀ a : T, S.head? = some a → eq a a = true)
    (hback : ∀ c : T, S.getLast? = some c → eq c c = true)
    (hf : enoughFuel 0 0 (targetLength - 1) ((S.length : Int) - 1) ≤ fuel) :
    ∃ out : List T, decimatePointsOn int32Wrapped eq fuel S targetLength = .ok out
      ∧ (out.length : Int) = 2 - targetLength
      ∧ (targetLength = 0 →
          ∃ a b : T, S.head? = some a ∧ S.getLast? = some b ∧ out = [a, b]) := by
  have hlen' : (S.length : Int) ≤ 268435456 := by norm_num at hlen; omega
  have ht' : -268435456 < targetLength ∧ targetLength ≤ 0 := by norm_num at ht; omega
  have hne : S ≠ [] := List.length_pos.1 (by omega)
  obtain ⟨d, hd⟩ : ∃ d, S.head? = some d := by
    cases S with
    | nil => exact absurd rfl hne
    | cons a l => exact ⟨a, rfl⟩
  refine ⟨_, decimatePointsOn_eq int32Wrapped int32Wrapped_of_range eq fuel S targetLength d hne
    (by omega) (by omega) hf (Or.inl (by omega)) (hfront _ (head?_eq_getD S d hne))
    (hback _ (getLast?_eq_getD S d hne)), ?_, ?_⟩
  · rw [resampled, length_map_range]; omega
  · intro h0
    subst h0
    refine ⟨S.getD 0 d, S.getD (S.length - 1) d, head?_eq_getD S d hne,
      getLast?_eq_getD S d hne, ?_⟩
    have hN : ((0 : Int) - 1 - 0).natAbs + 1 = 2 := by decide
    have hrange : List.range 2 = [0, 1] := rfl
    have hlast : roundedLine 0 0 (0 - 1) ((S.length : Int) - 1) 1 = (S.length : Int) - 1 := by
      have := roundedLine_last 0 0 (0 - 1) ((S.length : Int) - 1) (by omega)
      simpa using this
    rw [resampled, hN, hrange]
    simp only [List.map_cons, List.map_nil, roundedLine_zero, hlast, Int.toNat_zero]
    congr 3
    omega

/-- C19, amended, on a vector of four `double`s with target length 0. -/
theorem decimatePoints_nonpositive_witness :
    ∃ out : List Double,
      decimatePointsOn int32Wrapped doubleEq 7
          [Double.num 10, Double.num 20, Double.num 30, Double.num 40] 0 = .ok out
      ∧ (out.length : Int) = 2 - 0
      ∧ ((0 : Int) = 0 →
          ∃ a b : Double,
            [Double.num 10, Double.num 20, Double.num 30, Double.num 40].head? = some a
            ∧ [Double.num 10, Double.num 20, Double.num 30, Double.num 40].getLast? = some b
            ∧ out = [a, b]) :=
  decimatePoints_nonpositive doubleEq 7
    [Double.num 10, Double.num 20, Double.num 30, Double.num 40] 0
    (by decide) (by norm_num) (by norm_num)
    (fun a h => by cases h; rfl) (fun c h => by cases h; rfl) (by decide)

/-- C20: when `x1`, `y1`, `x2`, `y2` lie in `[-2^28, 2^28]` and the fuel is enough, the walk on
32-bit integers with trapped overflow ends normally, so no `int` that the function computes
(`dx`, `dy`, their absolute values, `dx + 1`, `dx2`, `dy2`, `e`, `x`, `y`, `i`, up to the end of
the last pass) leaves the signed 32-bit range; the walk with wrap-around modulo `2^32` and the
walk on unbounded integers give the same result. -/
theorem stretchBresenhamPoints_no_overflow (fuel : Nat) (x1 y1 x2 y2 : Int)
    (points : List Int)
    (hx1 : -2 ^ 28 ≤ x1 ∧ x1 ≤ 2 ^ 28) (hy1 : -2 ^ 28 ≤ y1 ∧ y1 ≤ 2 ^ 28)
    (hx2 : -2 ^ 28 ≤ x2 ∧ x2 ≤ 2 ^ 28) (hy2 : -2 ^ 28 ≤ y2 ∧ y2 ≤ 2 ^ 28)
    (hf : enoughFuel x1 y1 x2 y2 ≤ fuel) :
    ∃ (n : Int) (out : List Int),
      stretchBresenhamPoints fuel x1 y1 x2 y2 points = .ok (n, out)
        ∧ stretchBresenhamPointsOn int32Checked fuel x1 y1 x2 y2 points = .ok (n, out)
        ∧ stretchBresenhamPointsOn int32Wrapped fuel x1 y1 x2 y2 points = .ok (n, out) := by
  norm_num at hx1 hy1 hx2 hy2
  exact ⟨_, _, stretchBresenhamPoints_eq fuel x1 y1 x2 y2 points hf,
    stretchBresenhamPointsOn_eq int32Checked int32Checked_of_range fuel x1 y1 x2 y2 points
      hx1 hy1 hx2 hy2 hf,
    stretchBresenhamPointsOn_eq int32Wrapped int32Wrapped_of_range fuel x1 y1 x2 y2 points
      hx1 hy1 hx2 hy2 hf⟩

/-- C20, at the line of EXAMPLE 1, from `(330, 8)` to `(206, 33)`. -/
theorem stretchBresenhamPoints_no_overflow_witness :
    ∃ (n : Int) (out : List Int),
      stretchBresenhamPoints 151 330 8 206 33 [] = .ok (n, out)
        ∧ stretchBresenhamPointsOn int32Checked 151 330 8 206 33 [] = .ok (n, out)
        ∧ stretchBresenhamPointsOn int32Wrapped 151 330 8 206 33 [] = .ok (n, out) :=
  stretchBresenhamPoints_no_overflow 151 330 8 206 33 [] (by norm_num) (by norm_num)
    (by norm_num) (by norm_num) (by decide)

end Bresenham
